import Mathlib

/-!
# Fujitsu Airstage UART: packet codec and capture reassembly

A shallow embedding of `src/src/packet.cpp` and of the frame reassembler in
`src/src/capture_reader.cpp`, followed by the properties proved about them.

Conventions of the embedding:
* a `uint8_t`, `uint16_t` or `uint32_t` is a `Nat`; every cast or wrapping
  operation of the source is an explicit `% 2^w`; the range of a value that the
  C++ type guarantees is stated as a hypothesis (`IsBytes`, `Packet.WF`);
* a `std::vector` or `std::span` is a `List`;
* a `bool` result with an optional error string is an `Except String _`;
* a capture timestamp or gap threshold (a finite `double`, in seconds) is the `Int` number
  of units of 2^-1074 s that it equals exactly: every finite `double` is such a number, with
  at most 53 significant bits (`IsDouble`); comparisons of `double`s are comparisons of
  these integers, and the `double` subtraction is the exact difference rounded to 53
  significant bits, to nearest with ties to even (`doubleSub`). Infinities and NaN are not
  time values of the model.
-/

namespace fujitsu.airstage

/-! ## Data model (`packet.h`, `capture_reader.h`) -/

def kPacketHeaderBytes : Nat := 5

def kPacketTrailerBytes : Nat := 2

structure Packet where
  command_id : Nat
  payload : List Nat
  checksum : Nat
  deriving DecidableEq, Repr

/-- Every element is in the range of a `uint8_t`. -/
def IsBytes (bytes : List Nat) : Prop := ∀ b ∈ bytes, b < 256

instance (bytes : List Nat) : Decidable (IsBytes bytes) := by
  unfold IsBytes; infer_instance

/-- The ranges that the field types of `Packet` guarantee. -/
def Packet.WF (p : Packet) : Prop :=
  p.command_id < 2 ^ 32 ∧ IsBytes p.payload ∧ p.checksum < 2 ^ 16

instance (p : Packet) : Decidable p.WF := by
  unfold Packet.WF; infer_instance

def Packet.payload_length (p : Packet) : Nat := p.payload.length

def Packet.frame_length (p : Packet) : Nat :=
  kPacketHeaderBytes + p.payload.length + kPacketTrailerBytes

/-! ## Codec (`packet.cpp`) -/

/-- Reads `static_cast<uint16_t>((bytes[0] << 8) | bytes[1])`. -/
def ReadBigEndianUint16 (bytes : List Nat) : Nat :=
  (((bytes.getD 0 0) <<< 8) ||| (bytes.getD 1 0)) % 2 ^ 16

/-- The `uint32_t` accumulator of `ComputeChecksum` after the loop. -/
def checksumAccumulate (bytes : List Nat) : Nat :=
  bytes.foldl (fun sum byte => (sum + byte) % 2 ^ 32) 0

def ComputeChecksum (bytes : List Nat) : Nat :=
  let sum := checksumAccumulate bytes
  let sum := sum &&& 0xFFFF
  (0xFFFF - sum % 2 ^ 16) % 2 ^ 16

/-- The call `std::copy(first, last, d_first)`: writes `src` into `dst` from index `pos` on. -/
def copyInto : List Nat → Nat → List Nat → List Nat
  | dst, _, [] => dst
  | dst, pos, b :: rest => copyInto (dst.set pos b) (pos + 1) rest

def Packet.Serialize (p : Packet) : List Nat :=
  let frame := List.replicate p.frame_length 0
  let frame := frame.set 0 ((p.command_id &&& 0xFF) % 2 ^ 8)
  let frame := frame.set 1 (((p.command_id >>> 8) &&& 0xFF) % 2 ^ 8)
  let frame := frame.set 2 (((p.command_id >>> 16) &&& 0xFF) % 2 ^ 8)
  let frame := frame.set 3 (((p.command_id >>> 24) &&& 0xFF) % 2 ^ 8)
  let frame := frame.set 4 (p.payload.length % 2 ^ 8)
  let frame := copyInto frame kPacketHeaderBytes p.payload
  let checksum_span := frame.take (frame.length - kPacketTrailerBytes)
  let cs := ComputeChecksum checksum_span
  let frame := frame.set (frame.length - 2) (((cs >>> 8) &&& 0xFF) % 2 ^ 8)
  let frame := frame.set (frame.length - 1) ((cs &&& 0xFF) % 2 ^ 8)
  frame

def ValidateFrame (frame : List Nat) : Except String Unit :=
  if frame.length < kPacketHeaderBytes + kPacketTrailerBytes then
    .error "frame too short"
  else
    let payload_len := frame.getD 4 0
    let expected_size := kPacketHeaderBytes + payload_len + kPacketTrailerBytes
    if frame.length ≠ expected_size then
      .error "payload length does not match frame size"
    else
      let without_crc := frame.take (frame.length - kPacketTrailerBytes)
      let expected_crc := ComputeChecksum without_crc
      let actual_crc := ReadBigEndianUint16 (frame.drop (frame.length - kPacketTrailerBytes))
      if expected_crc ≠ actual_crc then
        .error "checksum mismatch"
      else
        .ok ()

def ParsePacket (frame : List Nat) : Except String Packet :=
  match ValidateFrame frame with
  | .error e => .error e
  | .ok () =>
    let command_id :=
      ((frame.getD 0 0) ||| ((frame.getD 1 0) <<< 8) ||| ((frame.getD 2 0) <<< 16) |||
        ((frame.getD 3 0) <<< 24)) % 2 ^ 32
    let payload_len := frame.getD 4 0
    let payload := (frame.drop kPacketHeaderBytes).take payload_len
    let checksum := ReadBigEndianUint16 (frame.drop (frame.length - kPacketTrailerBytes))
    .ok { command_id := command_id, payload := payload, checksum := checksum }

/-! ## Frame reassembler (`capture_reader.cpp`) -/

inductive BusDirection where
  | Rx
  | Tx
  deriving DecidableEq, Repr

inductive FrameType where
  | Packet
  | Break
  | Raw
  deriving DecidableEq, Repr

structure Frame where
  type : FrameType
  direction : BusDirection
  start_time : Int
  bytes : List Nat
  deriving DecidableEq, Repr

structure CsvByte where
  direction : BusDirection
  time : Int
  value : Nat
  has_error : Bool
  deriving DecidableEq, Repr

instance : Inhabited CsvByte := ⟨⟨BusDirection.Rx, 0, 0, false⟩⟩

structure PendingBuffer where
  bytes : List CsvByte
  last_time : Option Int
  deriving DecidableEq, Repr

def DirectionIndex (dir : BusDirection) : Nat :=
  if dir = BusDirection.Rx then 0 else 1

def EmitRawFrame (buffer : PendingBuffer) (dir : BusDirection) (start stop : Nat)
    (out : List Frame) : List Frame :=
  if start ≥ stop then out
  else
    out ++ [{ type := FrameType.Raw, direction := dir,
              start_time := (buffer.bytes.getD start default).time,
              bytes := (List.range' start (stop - start)).map
                fun i => (buffer.bytes.getD i default).value }]

def EmitBreakFrame (buffer : PendingBuffer) (dir : BusDirection) (start : Nat)
    (out : List Frame) : List Frame :=
  out ++ [{ type := FrameType.Break, direction := dir,
            start_time := (buffer.bytes.getD start default).time,
            bytes := [0xFF, 0xFF, 0x00, 0x00] }]

def EmitPacketFrame (buffer : PendingBuffer) (dir : BusDirection) (start length : Nat)
    (out : List Frame) : List Frame :=
  out ++ [{ type := FrameType.Packet, direction := dir,
            start_time := (buffer.bytes.getD start default).time,
            bytes := (List.range length).map
              fun i => (buffer.bytes.getD (start + i) default).value }]

/-- How one pass through the body of the `while` loop of `ParseAvailable` ends:
`again` for `continue` and for reaching the end of the body, `exit` for `break`. -/
inductive LoopControl where
  | again
  | exit
  deriving DecidableEq, Repr

/-- One pass through the body of the `while` loop of `ParseAvailable`, entered with a
non-empty buffer: the control transfer, the buffer and the output vector after it. -/
def ParseAvailableBody (buffer : PendingBuffer) (dir : BusDirection) (out : List Frame)
    (final_flush : Bool) : LoopControl × PendingBuffer × List Frame :=
  if buffer.bytes.length ≥ 4 ∧ (buffer.bytes.getD 0 default).value = 0xFF ∧
      (buffer.bytes.getD 1 default).value = 0xFF ∧ (buffer.bytes.getD 2 default).value = 0x00 ∧
      (buffer.bytes.getD 3 default).value = 0x00 then
    (.again, { buffer with bytes := buffer.bytes.drop 4 }, EmitBreakFrame buffer dir 0 out)
  else if buffer.bytes.length < kPacketHeaderBytes then
    if final_flush then
      (.exit, { buffer with bytes := [] }, EmitRawFrame buffer dir 0 buffer.bytes.length out)
    else (.exit, buffer, out)
  else
    let payload_length := (buffer.bytes.getD 4 default).value
    let total_length := kPacketHeaderBytes + payload_length + kPacketTrailerBytes
    if buffer.bytes.length < total_length then
      if final_flush then
        (.exit, { buffer with bytes := [] }, EmitRawFrame buffer dir 0 buffer.bytes.length out)
      else (.exit, buffer, out)
    else
      let candidate := (List.range total_length).map fun i => (buffer.bytes.getD i default).value
      match ValidateFrame candidate with
      | .error _ =>
        (.again, { buffer with bytes := buffer.bytes.drop 1 }, EmitRawFrame buffer dir 0 1 out)
      | .ok _ =>
        (.again, { buffer with bytes := buffer.bytes.drop total_length },
          EmitPacketFrame buffer dir 0 total_length out)

/-- The `while (!buffer.bytes.empty())` loop of `ParseAvailable`, unrolled at most `fuel`
times. Every pass that continues removes at least one byte, so `buffer.bytes.length` passes
always reach the loop exit (`ParseAvailable_unfold`, `ParseAvailableLoop_fuel`). -/
def ParseAvailableLoop : Nat → PendingBuffer → BusDirection → List Frame → Bool →
    PendingBuffer × List Frame
  | 0, buffer, _, out, _ => (buffer, out)
  | fuel + 1, buffer, dir, out, final_flush =>
    if buffer.bytes = [] then (buffer, out)
    else
      match ParseAvailableBody buffer dir out final_flush with
      | (.again, buffer', out') => ParseAvailableLoop fuel buffer' dir out' final_flush
      | (.exit, buffer', out') => (buffer', out')

def ParseAvailable (buffer : PendingBuffer) (dir : BusDirection) (out : List Frame)
    (final_flush : Bool) : PendingBuffer × List Frame :=
  ParseAvailableLoop buffer.bytes.length buffer dir out final_flush

/-- The `std::array<PendingBuffer, 2>` of `LoadCapture`. -/
structure Buffers where
  slot0 : PendingBuffer
  slot1 : PendingBuffer
  deriving DecidableEq, Repr

def Buffers.get (bs : Buffers) (i : Nat) : PendingBuffer :=
  if i = 0 then bs.slot0 else bs.slot1

def Buffers.set (bs : Buffers) (i : Nat) (b : PendingBuffer) : Buffers :=
  if i = 0 then { bs with slot0 := b } else { bs with slot1 := b }

/-- The variables `buffers` and `result.frames` of `LoadCapture`. -/
structure CaptureState where
  buffers : Buffers
  frames : List Frame
  deriving DecidableEq, Repr

def CaptureState.init : CaptureState :=
  { buffers := { slot0 := { bytes := [], last_time := none },
                 slot1 := { bytes := [], last_time := none } },
    frames := [] }

/-- The number of binary digits of `n`, computed with at most `fuel` halvings (`fuel = n`
is always enough). -/
def bitLength : Nat → Nat → Nat
  | 0, _ => 0
  | fuel + 1, n => if n = 0 then 0 else bitLength fuel (n / 2) + 1

/-- Rounding of a magnitude to 53 significant bits, to nearest with ties to the even
significand: the rounding of IEEE 754 binary64 arithmetic, on magnitudes counted in units of
2^-1074. -/
def roundNat (a : Nat) : Nat :=
  if a < 2 ^ 53 then a
  else
    let shift := bitLength a a - 53
    let q := a / 2 ^ shift
    let r := a % 2 ^ shift
    let half := 2 ^ (shift - 1)
    if r > half ∨ (r = half ∧ q % 2 = 1) then (q + 1) * 2 ^ shift else q * 2 ^ shift

/-- The `double` nearest to an exact value. A result beyond the largest finite `double`,
which the hardware returns as an infinity, is kept as the rounded number: it compares with
every finite `double` as the infinity does. -/
def roundToDouble (x : Int) : Int :=
  if x < 0 then -(roundNat x.natAbs : Int) else (roundNat x.natAbs : Int)

/-- The `double` subtraction `a - b`. -/
def doubleSub (a b : Int) : Int := roundToDouble (a - b)

/-- The forced flush at the head of the ingest loop body: the drain loop in final mode,
run when the time of the arriving event minus the `last_time` of a non-empty buffer, as
computed in `double` arithmetic, exceeds `gap_threshold`. -/
def gapFlush (gap_threshold : Int) (buffer : PendingBuffer) (event : CsvByte)
    (frames : List Frame) : PendingBuffer × List Frame :=
  match buffer.last_time with
  | some last =>
    let delta := doubleSub event.time last
    if delta > gap_threshold ∧ buffer.bytes ≠ [] then
      ParseAvailable buffer event.direction frames true
    else (buffer, frames)
  | none => (buffer, frames)

/-- The body of the ingest loop `for (const auto& event : events)` of `LoadCapture`. -/
def ingestEvent (gap_threshold : Int) (st : CaptureState) (event : CsvByte) : CaptureState :=
  let buffer := st.buffers.get (DirectionIndex event.direction)
  let flushed := gapFlush gap_threshold buffer event st.frames
  let buffer := flushed.1
  let buffer := { buffer with last_time := some event.time }
  let buffer := { buffer with bytes := buffer.bytes ++ [event] }
  let parsed := ParseAvailable buffer event.direction flushed.2 false
  { buffers := st.buffers.set (DirectionIndex event.direction) parsed.1, frames := parsed.2 }

def ingestLoop (gap_threshold : Int) (events : List CsvByte) (st : CaptureState) : CaptureState :=
  events.foldl (ingestEvent gap_threshold) st

/-- The loop `for (i = 0; i < buffers.size(); ++i)` that flushes the buffers at end of file. -/
def flushBuffers (st : CaptureState) : CaptureState :=
  (List.range 2).foldl
    (fun st i =>
      let r := ParseAvailable (st.buffers.get i)
        (if i = 0 then BusDirection.Rx else BusDirection.Tx) st.frames true
      { buffers := st.buffers.set i r.1, frames := r.2 })
    st

/-- The part of `LoadCapture` between the two sorts: ingest loop, then end-of-file flush. -/
def reassemble (gap_threshold : Int) (events : List CsvByte) : CaptureState :=
  flushBuffers (ingestLoop gap_threshold events CaptureState.init)

/-- The function `LoadCapture` from the parsed rows on: `events` is the vector filled by the
CSV reading loop (reading and parsing the file is outside the model). -/
def LoadCapture (events : List CsvByte) (gap_threshold : Int) : List Frame :=
  let events := events.insertionSort fun a b => a.time ≤ b.time
  let result := reassemble gap_threshold events
  result.frames.insertionSort fun a b => a.start_time ≤ b.start_time

/-! ## Message decoder (`messages.h`, `messages.cpp`) -/

def CommandId.kHandshake0 : Nat := 0x00000000

def CommandId.kHandshake1 : Nat := 0x00000001

def CommandId.kSetpoint : Nat := 0x00000002

def CommandId.kReadRegisters : Nat := 0x00000003

def CommandId.kControlRegister : Nat := 0x00000004

def CommandId.kBulkWrite : Nat := 0x00000005

structure RegisterValue where
  address : Nat
  value : Nat
  deriving DecidableEq, Repr

structure ReadRequest where
  addresses : List Nat
  deriving DecidableEq, Repr

structure ReadResponse where
  status : Nat
  values : List RegisterValue
  deriving DecidableEq, Repr

structure WriteRequest where
  values : List RegisterValue
  deriving DecidableEq, Repr

structure WriteResponse where
  status : Nat
  deriving DecidableEq, Repr

def IsWriteCommand (command_id : Nat) : Bool :=
  if command_id = CommandId.kSetpoint then true
  else if command_id = CommandId.kControlRegister then true
  else if command_id = CommandId.kBulkWrite then true
  else false

/-- The expression `static_cast<uint16_t>(payload[i] << 8 | payload[i + 1])`. -/
def readUint16At (payload : List Nat) (i : Nat) : Nat :=
  (((payload.getD i 0) <<< 8) ||| (payload.getD (i + 1) 0)) % 2 ^ 16

/-- The loop `for (; i < n; i += step) body`, unrolled at most `fuel` times, on the loop
state `s`. With `0 < step`, `n` passes always reach the loop exit (`forLoop_fuel`). -/
def forLoop {σ : Type} (n step : Nat) (body : Nat → σ → σ) : Nat → Nat → σ → σ
  | 0, _, s => s
  | fuel + 1, i, s => if i < n then forLoop n step body fuel (i + step) (body i s) else s

def DecodeReadRequest (packet : Packet) : Option ReadRequest :=
  if packet.command_id ≠ CommandId.kReadRegisters then none
  else if packet.payload = [] ∨ packet.payload.length % 2 ≠ 0 then none
  else
    some
      { addresses :=
          forLoop packet.payload.length 2
            (fun i addresses => addresses ++ [readUint16At packet.payload i])
            packet.payload.length 0 [] }

def DecodeReadResponse (packet : Packet) : Option ReadResponse :=
  if packet.command_id ≠ CommandId.kReadRegisters then none
  else if packet.payload = [] then none
  else if (packet.payload.length - 1) % 4 ≠ 0 then none
  else
    some
      { status := packet.payload.getD 0 0,
        values :=
          forLoop packet.payload.length 4
            (fun i values =>
              values ++ [{ address := readUint16At packet.payload i,
                           value := readUint16At packet.payload (i + 2) }])
            packet.payload.length 1 [] }

def DecodeWriteRequest (packet : Packet) : Option WriteRequest :=
  if ¬ IsWriteCommand packet.command_id then none
  else if packet.payload = [] ∨ packet.payload.length % 4 ≠ 0 then none
  else
    some
      { values :=
          forLoop packet.payload.length 4
            (fun i values =>
              values ++ [{ address := readUint16At packet.payload i,
                           value := readUint16At packet.payload (i + 2) }])
            packet.payload.length 0 [] }

def DecodeWriteResponse (packet : Packet) : Option WriteResponse :=
  if ¬ IsWriteCommand packet.command_id then none
  else if packet.payload.length ≠ 1 then none
  else some { status := packet.payload.getD 0 0 }

/-- The text that `oss << std::hex << std::uppercase << value` appends for an unsigned
value: its hexadecimal digits, most significant first, letters in upper case. -/
def streamHexUpper (value : Nat) : String :=
  String.mk ((Nat.toDigits 16 value).map Char.toUpper)

def CommandToString (command_id : Nat) : String :=
  if command_id = CommandId.kHandshake0 then "Handshake0"
  else if command_id = CommandId.kHandshake1 then "Handshake1"
  else if command_id = CommandId.kSetpoint then "WriteRegister"
  else if command_id = CommandId.kReadRegisters then "ReadRegisters"
  else if command_id = CommandId.kControlRegister then "WriteControlRegister"
  else if command_id = CommandId.kBulkWrite then "BulkWrite"
  else "Unknown(0x" ++ streamHexUpper command_id ++ ")"

/-! ## Packet description (`dump_packets.cpp`) -/

/-- The branches of `DescribePacket`: the four message types it tries to decode, in this
order, and the fallback that prints the command name and the raw payload. -/
inductive MessageKind where
  | ReadRequest
  | ReadResponse
  | WriteRequest
  | WriteResponse
  | Unknown
  deriving DecidableEq, Repr

/-- The branch that `DescribePacket` takes for a packet (the text it prints is not
modelled): the first decoder, in source order, that returns a result. -/
def DescribePacketBranch (packet : Packet) : MessageKind :=
  if (DecodeReadRequest packet).isSome then MessageKind.ReadRequest
  else if (DecodeReadResponse packet).isSome then MessageKind.ReadResponse
  else if (DecodeWriteRequest packet).isSome then MessageKind.WriteRequest
  else if (DecodeWriteResponse packet).isSome then MessageKind.WriteResponse
  else MessageKind.Unknown

/-! ## Notions used to state and prove the properties -/

/-- The header bytes that `Serialize` writes for a command id and a payload length. -/
def headerBytes (command_id n : Nat) : List Nat :=
  [command_id % 256, command_id / 256 % 256, command_id / 65536 % 256,
    command_id / 16777216 % 256, n % 256]

/-- The big-endian value of the two trailer bytes of a frame. -/
def trailerValue (f : List Nat) : Nat :=
  f.getD (f.length - 2) 0 * 256 + f.getD (f.length - 1) 0

/-- The values of a run of captured bytes. -/
def csvValues (bytes : List CsvByte) : List Nat := bytes.map fun e => e.value

/-- The frame of a given type that consists of a run of captured bytes. -/
def frameOf (ty : FrameType) (dir : BusDirection) (chunk : List CsvByte) : Frame :=
  { type := ty, direction := dir, start_time := (chunk.getD 0 default).time,
    bytes := csvValues chunk }

/-- The buffer begins with the break marker `FF FF 00 00`. -/
def startsWithBreak (bytes : List CsvByte) : Prop :=
  bytes.length ≥ 4 ∧ (bytes.getD 0 default).value = 0xFF ∧ (bytes.getD 1 default).value = 0xFF ∧
    (bytes.getD 2 default).value = 0x00 ∧ (bytes.getD 3 default).value = 0x00

instance (bytes : List CsvByte) : Decidable (startsWithBreak bytes) := by
  unfold startsWithBreak; infer_instance

/-- The length that the fifth buffered byte declares for the frame at the buffer head. -/
def declaredLength (bytes : List CsvByte) : Nat :=
  kPacketHeaderBytes + (bytes.getD 4 default).value + kPacketTrailerBytes

/-- The buffer holds neither a break marker nor a whole candidate frame at its head. -/
def Incomplete (bytes : List CsvByte) : Prop :=
  ¬ startsWithBreak bytes ∧ (bytes.length < 5 ∨ bytes.length < declaredLength bytes)

instance (bytes : List CsvByte) : Decidable (Incomplete bytes) := by
  unfold Incomplete; infer_instance

/-- What the drain loop does to the bytes of a buffer, read as a function: the runs of bytes
cut off the front of the buffer, each with the type of the frame emitted for it, and the bytes
left in the buffer. `ParseAvailable_eq` proves that `ParseAvailable` computes exactly this. -/
def drainSpec (final_flush : Bool) (bytes : List CsvByte) :
    List (FrameType × List CsvByte) × List CsvByte :=
  if _h0 : bytes = [] then ([], [])
  else if _hb : startsWithBreak bytes then
    ((FrameType.Break, bytes.take 4) :: (drainSpec final_flush (bytes.drop 4)).1,
      (drainSpec final_flush (bytes.drop 4)).2)
  else if _hi : bytes.length < 5 ∨ bytes.length < declaredLength bytes then
    if final_flush then ([(FrameType.Raw, bytes)], []) else ([], bytes)
  else
    match ValidateFrame (csvValues (bytes.take (declaredLength bytes))) with
    | .error _ =>
      ((FrameType.Raw, bytes.take 1) :: (drainSpec final_flush (bytes.drop 1)).1,
        (drainSpec final_flush (bytes.drop 1)).2)
    | .ok _ =>
      ((FrameType.Packet, bytes.take (declaredLength bytes)) ::
          (drainSpec final_flush (bytes.drop (declaredLength bytes))).1,
        (drainSpec final_flush (bytes.drop (declaredLength bytes))).2)
termination_by bytes.length
decreasing_by
  all_goals simp_wf
  all_goals have hpos : 0 < bytes.length := List.length_pos.mpr _h0
  all_goals simp only [declaredLength, kPacketHeaderBytes, kPacketTrailerBytes] at *
  all_goals omega

/-- The frames emitted for a list of typed runs of bytes. -/
def framesOf (dir : BusDirection) (parts : List (FrameType × List CsvByte)) : List Frame :=
  parts.map fun p => frameOf p.1 dir p.2

/-- The bytes of a list of typed runs, in order. -/
def partsBytes (parts : List (FrameType × List CsvByte)) : List CsvByte :=
  (parts.map Prod.snd).flatten

/-- A typed run of bytes is what the drain loop cuts off: it is not empty, a Packet run is a
valid frame of the length its fifth byte declares, and a Break run is the break marker. -/
def GoodChunk (p : FrameType × List CsvByte) : Prop :=
  p.2 ≠ [] ∧
    (p.1 = FrameType.Packet →
      ValidateFrame (csvValues p.2) = .ok () ∧ p.2.length = declaredLength p.2) ∧
    (p.1 = FrameType.Break → csvValues p.2 = [0xFF, 0xFF, 0x00, 0x00])

/-- The ingest loop body of `LoadCapture` as it acts on the buffer of the event's direction
and on the output vector. -/
def dirStep (gap_threshold : Int) (s : PendingBuffer × List Frame) (e : CsvByte) :
    PendingBuffer × List Frame :=
  let flushed := gapFlush gap_threshold s.1 e s.2
  let buffer := flushed.1
  let buffer := { buffer with last_time := some e.time }
  let buffer := { buffer with bytes := buffer.bytes ++ [e] }
  ParseAvailable buffer e.direction flushed.2 false

/-- The integer has at most 53 significant bits, as every `double` has: rounding leaves it
unchanged. -/
def IsDouble (x : Int) : Prop := roundToDouble x = x

instance (x : Int) : Decidable (IsDouble x) := by
  unfold IsDouble; infer_instance

/-- The `double` 4.0 (seconds), in units of 2^-1074 s. -/
def seconds4 : Int := ((2 ^ 1076 : Nat) : Int)

/-- The `double` 8.0 (seconds), in units of 2^-1074 s. -/
def seconds8 : Int := ((2 ^ 1077 : Nat) : Int)

/-- The `double` 3.9999999999999996 = 4 - 2^-51 (seconds), the largest `double` below 4.0, in
units of 2^-1074 s. -/
def secondsBelow4 : Int := ((2 ^ 1076 - 2 ^ 1023 : Nat) : Int)

/-- The test that triggers the forced flush at the head of the ingest loop body. -/
def gapExceeded (gap_threshold : Int) (b : PendingBuffer) (e : CsvByte) : Bool :=
  match b.last_time with
  | some last => decide (doubleSub e.time last > gap_threshold ∧ b.bytes ≠ [])
  | none => false

/-- The ingest loop body as a function on runs of bytes: the buffer after the event and the
typed runs cut off while handling it. -/
def stepParts (gap_threshold : Int) (b : PendingBuffer) (e : CsvByte) :
    PendingBuffer × List (FrameType × List CsvByte) :=
  let pre := if gapExceeded gap_threshold b e then drainSpec true b.bytes else ([], b.bytes)
  let post := drainSpec false (pre.2 ++ [e])
  ({ bytes := post.2, last_time := some e.time }, pre.1 ++ post.1)

/-- The ingest loop over the events of one direction, as a function on runs of bytes. -/
def runParts (gap_threshold : Int) :
    List CsvByte → PendingBuffer → PendingBuffer × List (FrameType × List CsvByte)
  | [], b => (b, [])
  | e :: es, b =>
    ((runParts gap_threshold es (stepParts gap_threshold b e).1).1,
      (stepParts gap_threshold b e).2 ++ (runParts gap_threshold es (stepParts gap_threshold b e).1).2)

/-- All typed runs cut off for the events of one direction: those of the ingest loop, then
those of the flush at end of file. -/
def dirParts (gap_threshold : Int) (es : List CsvByte) : List (FrameType × List CsvByte) :=
  (runParts gap_threshold es { bytes := [], last_time := none }).2 ++
    (drainSpec true (runParts gap_threshold es { bytes := [], last_time := none }).1.bytes).1

/-- The events of one direction, in order. -/
def eventsDir (d : BusDirection) (es : List CsvByte) : List CsvByte :=
  es.filter fun e => e.direction = d

/-- The frames of one direction, in order. -/
def framesDir (d : BusDirection) (fs : List Frame) : List Frame :=
  fs.filter fun f => f.direction = d

/-- The buffer is empty or incomplete: the state in which the non-final drain loop leaves it. -/
def Settled (bytes : List CsvByte) : Prop := bytes = [] ∨ Incomplete bytes

/-- The recorded `last_time` is the timestamp of the last buffered byte, if there is one. -/
def LastTimeOK (b : PendingBuffer) : Prop :=
  ∀ l, b.bytes.getLast? = some l → b.last_time = some l.time

/-- The upper-case hexadecimal digit character of a digit value below 16. -/
def hexDigitUpper (d : Nat) : Char :=
  ['0', '1', '2', '3', '4', '5', '6', '7', '8', '9', 'A', 'B', 'C', 'D', 'E', 'F'].getD d '*'

/-- The number of passes through the body of the `while` loop of `ParseAvailable` until the
loop is left, counted with at most `fuel` passes; `none` when the fuel runs out first. -/
def ParseAvailableIterations : Nat → PendingBuffer → BusDirection → List Frame → Bool →
    Option Nat
  | 0, buffer, _, _, _ => if buffer.bytes = [] then some 0 else none
  | fuel + 1, buffer, dir, out, final_flush =>
    if buffer.bytes = [] then some 0
    else
      match ParseAvailableBody buffer dir out final_flush with
      | (.again, buffer', out') =>
        (ParseAvailableIterations fuel buffer' dir out' final_flush).map fun k => k + 1
      | (.exit, _, _) => some 1

/-- Whether the decoder of a message type returns a result for a packet. -/
def decoderSucceeds (packet : Packet) : MessageKind → Bool
  | .ReadRequest => (DecodeReadRequest packet).isSome
  | .ReadResponse => (DecodeReadResponse packet).isSome
  | .WriteRequest => (DecodeWriteRequest packet).isSome
  | .WriteResponse => (DecodeWriteResponse packet).isSome
  | .Unknown => false

/-- The classification of a packet when the decoders are tried in a given order. -/
def classifyInOrder (order : List MessageKind) (packet : Packet) : MessageKind :=
  match order.find? (decoderSucceeds packet) with
  | some k => k
  | none => MessageKind.Unknown

/-- A run of captured bytes carries the serialization of a well-formed packet with a payload
of at most 255 bytes and a command id other than 0x0000FFFF, and consecutive bytes of the run
are at most `gap_threshold` apart. -/
def CleanChunk (gap_threshold : Int) (c : List CsvByte) (p : Packet) : Prop :=
  csvValues c = p.Serialize ∧ List.Chain' (fun a b => b.time - a.time ≤ gap_threshold) c ∧
    p.WF ∧ p.payload.length ≤ 255 ∧ p.command_id ≠ 0xFFFF

instance : IsTotal CsvByte (fun a b => a.time ≤ b.time) := ⟨fun a b => le_total a.time b.time⟩

instance : IsTrans CsvByte (fun a b => a.time ≤ b.time) :=
  ⟨fun _ _ _ h1 h2 => le_trans h1 h2⟩

instance : IsTotal Frame (fun a b => a.start_time ≤ b.start_time) :=
  ⟨fun a b => le_total a.start_time b.start_time⟩

instance : IsTrans Frame (fun a b => a.start_time ≤ b.start_time) :=
  ⟨fun _ _ _ h1 h2 => le_trans h1 h2⟩

/-! ## Arithmetic reading of the bit operations -/

theorem and_0xFF (x : Nat) : x &&& 0xFF = x % 256 :=
  Nat.and_pow_two_sub_one_eq_mod x 8

theorem and_0xFFFF (x : Nat) : x &&& 0xFFFF = x % 65536 :=
  Nat.and_pow_two_sub_one_eq_mod x 16

theorem shiftLeft_or_of_lt (hi lo k : Nat) (h : lo < 2 ^ k) :
    (hi <<< k) ||| lo = hi * 2 ^ k + lo := by
  rw [Nat.shiftLeft_eq, Nat.mul_comm hi, ← Nat.mul_add_lt_is_or h]

theorem or_shiftLeft_of_lt (lo hi k : Nat) (h : lo < 2 ^ k) :
    lo ||| (hi <<< k) = lo + hi * 2 ^ k := by
  rw [Nat.lor_comm, shiftLeft_or_of_lt hi lo k h, Nat.add_comm]

/-! ## Checksum -/

theorem checksum_foldl_mod (bytes : List Nat) (acc : Nat) :
    bytes.foldl (fun sum byte => (sum + byte) % 2 ^ 32) acc % 2 ^ 32 =
      (acc + bytes.sum) % 2 ^ 32 := by
  induction bytes generalizing acc with
  | nil => simp
  | cons b bs ih =>
    simp only [List.foldl_cons, List.sum_cons]
    rw [ih]
    omega

theorem checksumAccumulate_mod (bytes : List Nat) :
    checksumAccumulate bytes % 65536 = bytes.sum % 65536 := by
  have h := checksum_foldl_mod bytes 0
  simp only [Nat.zero_add] at h
  unfold checksumAccumulate
  omega

theorem ComputeChecksum_eq (bytes : List Nat) :
    ComputeChecksum bytes = 0xFFFF - bytes.sum % 65536 := by
  unfold ComputeChecksum
  simp only [and_0xFFFF]
  have h := checksumAccumulate_mod bytes
  omega

theorem ComputeChecksum_lt (bytes : List Nat) : ComputeChecksum bytes < 65536 := by
  rw [ComputeChecksum_eq]; omega

/-! ## Serialize -/

theorem copyInto_append (src a m c : List Nat) (h : m.length = src.length) :
    copyInto (a ++ m ++ c) a.length src = a ++ src ++ c := by
  induction src generalizing a m with
  | nil =>
    have hm : m = [] := List.length_eq_zero.mp h
    simp [copyInto, hm]
  | cons b rest ih =>
    cases m with
    | nil => simp at h
    | cons x m' =>
      simp only [List.length_cons, Nat.add_right_cancel_iff] at h
      have hset : (a ++ x :: m' ++ c).set a.length b = (a ++ [b]) ++ m' ++ c := by
        simp [List.set_append]
      have hlen : a.length + 1 = (a ++ [b]).length := by simp
      rw [copyInto, hset, hlen, ih (a ++ [b]) m' h]
      simp

theorem Serialize_eq (p : Packet) :
    p.Serialize = headerBytes p.command_id p.payload.length ++ p.payload ++
      [ComputeChecksum (headerBytes p.command_id p.payload.length ++ p.payload) / 256 % 256,
        ComputeChecksum (headerBytes p.command_id p.payload.length ++ p.payload) % 256] := by
  have hrep : List.replicate (5 + p.payload.length + 2) 0 =
      [0, 0, 0, 0, 0] ++ List.replicate p.payload.length 0 ++ [0, 0] := by
    rw [show 5 + p.payload.length + 2 = 5 + (p.payload.length + 2) by omega,
      List.replicate_add, List.replicate_add]
    simp [List.replicate]
  have hcopy := copyInto_append p.payload (headerBytes p.command_id p.payload.length)
    (List.replicate p.payload.length 0) [0, 0] (by simp)
  unfold Packet.Serialize Packet.frame_length kPacketHeaderBytes kPacketTrailerBytes
  simp only [hrep, and_0xFF, Nat.shiftRight_eq_div_pow]
  simp only [headerBytes, List.length_cons, List.length_nil] at hcopy
  simp only [List.cons_append, List.nil_append, List.set_cons_zero, List.set_cons_succ,
    List.append_assoc] at hcopy ⊢
  norm_num
  norm_num at hcopy
  rw [hcopy]
  simp [headerBytes, List.set_append, List.take_append_eq_append_take]

/-! ## ValidateFrame and ParsePacket -/

theorem IsBytes.getD_lt {f : List Nat} (hf : IsBytes f) (i : Nat) : f.getD i 0 < 256 := by
  rw [List.getD_eq_getElem?_getD]
  cases h : f[i]? with
  | none => simp
  | some b => exact hf b (List.getElem?_mem h)

theorem getD_drop (f : List Nat) (k i : Nat) : (f.drop k).getD i 0 = f.getD (k + i) 0 := by
  simp [List.getD_eq_getElem?_getD, List.getElem?_drop]

theorem ReadBigEndianUint16_trailer (f : List Nat) (hf : IsBytes f) (hl : 2 ≤ f.length) :
    ReadBigEndianUint16 (f.drop (f.length - kPacketTrailerBytes)) = trailerValue f := by
  unfold ReadBigEndianUint16 trailerValue kPacketTrailerBytes
  rw [getD_drop, getD_drop, show f.length - 2 + 1 = f.length - 1 by omega, Nat.add_zero]
  have h1 := hf.getD_lt (f.length - 2)
  have h2 := hf.getD_lt (f.length - 1)
  rw [shiftLeft_or_of_lt _ _ 8 (by simpa using h2)]
  omega

theorem ValidateFrame_unfold (f : List Nat) :
    ValidateFrame f =
      if f.length < 7 then .error "frame too short"
      else if f.length ≠ 5 + f.getD 4 0 + 2 then
        .error "payload length does not match frame size"
      else if ComputeChecksum (f.take (f.length - 2)) ≠
          ReadBigEndianUint16 (f.drop (f.length - kPacketTrailerBytes)) then
        .error "checksum mismatch"
      else .ok () := rfl

theorem ValidateFrame_error_short (f : List Nat) :
    ValidateFrame f = .error "frame too short" ↔ f.length < 7 := by
  rw [ValidateFrame_unfold]
  split_ifs <;> simp_all

theorem ValidateFrame_error_length (f : List Nat) :
    ValidateFrame f = .error "payload length does not match frame size" ↔
      7 ≤ f.length ∧ f.length ≠ 5 + f.getD 4 0 + 2 := by
  rw [ValidateFrame_unfold]
  split_ifs <;> simp_all

theorem ValidateFrame_error_checksum (f : List Nat) (hf : IsBytes f) :
    ValidateFrame f = .error "checksum mismatch" ↔
      7 ≤ f.length ∧ f.length = 5 + f.getD 4 0 + 2 ∧
        ComputeChecksum (f.take (f.length - 2)) ≠ trailerValue f := by
  rw [ValidateFrame_unfold]
  by_cases hl : f.length < 7
  · have : ¬ 7 ≤ f.length := by omega
    simp [hl, this]
  · rw [ReadBigEndianUint16_trailer f hf (by omega)]
    split_ifs <;> simp_all

theorem ValidateFrame_ok (f : List Nat) (hf : IsBytes f) :
    ValidateFrame f = .ok () ↔
      7 ≤ f.length ∧ f.length = 5 + f.getD 4 0 + 2 ∧
        ComputeChecksum (f.take (f.length - 2)) = trailerValue f := by
  rw [ValidateFrame_unfold]
  by_cases hl : f.length < 7
  · have : ¬ 7 ≤ f.length := by omega
    simp [hl, this]
  · rw [ReadBigEndianUint16_trailer f hf (by omega)]
    split_ifs <;> simp_all

theorem littleEndian32_eq (a b c d : Nat) (ha : a < 256) (hb : b < 256) (hc : c < 256)
    (hd : d < 256) :
    (a ||| (b <<< 8) ||| (c <<< 16) ||| (d <<< 24)) % 2 ^ 32 =
      a + b * 2 ^ 8 + c * 2 ^ 16 + d * 2 ^ 24 := by
  rw [or_shiftLeft_of_lt a b 8 (by omega),
    or_shiftLeft_of_lt (a + b * 2 ^ 8) c 16 (by omega),
    or_shiftLeft_of_lt (a + b * 2 ^ 8 + c * 2 ^ 16) d 24 (by omega)]
  omega

theorem ParsePacket_of_error (f : List Nat) (e : String) (h : ValidateFrame f = .error e) :
    ParsePacket f = .error e := by
  unfold ParsePacket; rw [h]

theorem ParsePacket_of_ok (f : List Nat) (hf : IsBytes f) (h : ValidateFrame f = .ok ()) :
    ParsePacket f = .ok
      { command_id := f.getD 0 0 + f.getD 1 0 * 2 ^ 8 + f.getD 2 0 * 2 ^ 16 + f.getD 3 0 * 2 ^ 24,
        payload := (f.drop 5).take (f.getD 4 0),
        checksum := trailerValue f } := by
  have hl := ((ValidateFrame_ok f hf).mp h).1
  unfold ParsePacket
  rw [h]
  simp only [ReadBigEndianUint16_trailer f hf (by omega), kPacketHeaderBytes,
    littleEndian32_eq _ _ _ _ (hf.getD_lt 0) (hf.getD_lt 1) (hf.getD_lt 2) (hf.getD_lt 3)]

/-! ## Frames of the serialized shape -/

theorem trailerValue_append (x : List Nat) (hi lo : Nat) :
    trailerValue (x ++ [hi, lo]) = hi * 256 + lo := by
  unfold trailerValue
  have h1 : (x ++ [hi, lo]).length - 2 = x.length := by simp
  have h2 : (x ++ [hi, lo]).length - 1 = x.length + 1 := by simp
  rw [h1, h2, List.getD_append_right _ _ _ _ (Nat.le_refl _),
    List.getD_append_right _ _ _ _ (Nat.le_succ _),
    show x.length.succ - x.length = 1 by omega]
  simp only [Nat.sub_self, List.getD_cons_zero, List.getD_cons_succ]

theorem take_body_append (x : List Nat) (hi lo : Nat) :
    (x ++ [hi, lo]).take ((x ++ [hi, lo]).length - 2) = x := by
  simp

theorem IsBytes_append {x y : List Nat} (hx : IsBytes x) (hy : IsBytes y) : IsBytes (x ++ y) := by
  intro b hb
  rcases List.mem_append.mp hb with h | h
  · exact hx b h
  · exact hy b h

theorem IsBytes_headerBytes (c n : Nat) : IsBytes (headerBytes c n) := by
  intro b hb
  simp only [headerBytes, List.mem_cons, List.mem_singleton, List.not_mem_nil, or_false] at hb
  rcases hb with h | h | h | h | h <;> omega

theorem IsBytes_pair (hi lo : Nat) (h1 : hi < 256) (h2 : lo < 256) : IsBytes [hi, lo] := by
  intro b hb
  simp only [List.mem_cons, List.mem_singleton, List.not_mem_nil, or_false] at hb
  rcases hb with h | h <;> omega

theorem IsBytes_Serialize (p : Packet) (hp : IsBytes p.payload) : IsBytes p.Serialize := by
  rw [Serialize_eq]
  exact IsBytes_append (IsBytes_append (IsBytes_headerBytes _ _) hp)
    (IsBytes_pair _ _ (Nat.mod_lt _ (by decide)) (Nat.mod_lt _ (by decide)))

/-- A frame made of a body whose fifth byte is the number of bytes after the header, followed
by the big-endian checksum of the body, is valid. -/
theorem ValidateFrame_body_append (x : List Nat) (hx : IsBytes x) (h4 : 5 + x.getD 4 0 = x.length) :
    ValidateFrame (x ++ [ComputeChecksum x / 256 % 256, ComputeChecksum x % 256]) = .ok () := by
  have hcs := ComputeChecksum_lt x
  have hb : IsBytes (x ++ [ComputeChecksum x / 256 % 256, ComputeChecksum x % 256]) :=
    IsBytes_append hx (IsBytes_pair _ _ (Nat.mod_lt _ (by decide)) (Nat.mod_lt _ (by decide)))
  rw [ValidateFrame_ok _ hb, take_body_append, trailerValue_append,
    List.getD_append _ _ _ _ (by omega)]
  simp only [List.length_append, List.length_cons, List.length_nil]
  omega

theorem headerBytes_append_getD4 (c n : Nat) (y : List Nat) :
    (headerBytes c n ++ y).getD 4 0 = n % 256 := by
  rw [List.getD_append _ _ _ _ (by simp [headerBytes])]
  rfl

theorem ValidateFrame_Serialize (p : Packet) (hp : IsBytes p.payload)
    (hlen : p.payload.length ≤ 255) : ValidateFrame p.Serialize = .ok () := by
  rw [Serialize_eq]
  apply ValidateFrame_body_append
  · exact IsBytes_append (IsBytes_headerBytes _ _) hp
  · rw [headerBytes_append_getD4]
    simp only [List.length_append, headerBytes, List.length_cons, List.length_nil]
    omega

/-! ## Codec claims -/

/-- C1 (as stated, refuted): the default-constructed packet (command id 0, empty payload,
checksum field 0) is well-formed and has a payload of at most 255 bytes, yet parsing its
serialization yields a packet whose checksum field is 0xFFFF, not the packet itself. -/
theorem C1_roundtrip_counterexample :
    (⟨0, [], 0⟩ : Packet).WF ∧ (⟨0, [], 0⟩ : Packet).payload.length ≤ 255 ∧
      ParsePacket (Packet.Serialize ⟨0, [], 0⟩) = .ok ⟨0, [], 0xFFFF⟩ ∧
      ParsePacket (Packet.Serialize ⟨0, [], 0⟩) ≠ .ok ⟨0, [], 0⟩ := by
  refine ⟨by decide, by decide, rfl, ?_⟩
  rw [show ParsePacket (Packet.Serialize ⟨0, [], 0⟩) = .ok ⟨0, [], 0xFFFF⟩ from rfl]
  intro h
  injection h with h
  exact absurd h (by decide)

/-- C1 (amended): for every well-formed packet `p` with a payload of at most 255 bytes,
`ParsePacket (Serialize p)` succeeds with the command id and payload of `p`, and its checksum
field is the checksum computed over the serialized header and payload; so the result is `p`
itself exactly when the checksum field of `p` already holds that value. -/
theorem C1_roundtrip (p : Packet) (hp : p.WF) (hlen : p.payload.length ≤ 255) :
    ParsePacket p.Serialize = .ok
        { command_id := p.command_id, payload := p.payload,
          checksum := ComputeChecksum (p.Serialize.take (p.Serialize.length - 2)) } ∧
      (ParsePacket p.Serialize = .ok p ↔
        p.checksum = ComputeChecksum (p.Serialize.take (p.Serialize.length - 2))) := by
  have hv := ValidateFrame_Serialize p hp.2.1 hlen
  have hb := IsBytes_Serialize p hp.2.1
  have hcs := ((ValidateFrame_ok _ hb).mp hv).2.2
  have hparse := ParsePacket_of_ok _ hb hv
  have hcmd : p.Serialize.getD 0 0 + p.Serialize.getD 1 0 * 2 ^ 8 +
      p.Serialize.getD 2 0 * 2 ^ 16 + p.Serialize.getD 3 0 * 2 ^ 24 = p.command_id := by
    have hc := hp.1
    rw [Serialize_eq]
    simp only [headerBytes, List.cons_append, List.getD_cons_zero, List.getD_cons_succ]
    omega
  have hpay : (p.Serialize.drop 5).take (p.Serialize.getD 4 0) = p.payload := by
    rw [Serialize_eq, List.append_assoc, headerBytes_append_getD4]
    simp only [headerBytes, List.cons_append, List.nil_append, List.drop_succ_cons, List.drop_zero]
    rw [Nat.mod_eq_of_lt (by omega), List.take_left]
  rw [hcmd, hpay, ← hcs] at hparse
  refine ⟨hparse, ?_⟩
  rw [hparse]
  constructor
  · intro h
    injection h with h
    exact (congrArg Packet.checksum h).symm
  · intro h
    rw [← h]

theorem C1_roundtrip_witness :
    (⟨3, [0x10, 0x00], 0⟩ : Packet).WF ∧ (⟨3, [0x10, 0x00], 0⟩ : Packet).payload.length ≤ 255 ∧
      ParsePacket (Packet.Serialize ⟨3, [0x10, 0x00], 0⟩) = .ok
        { command_id := 3, payload := [0x10, 0x00],
          checksum := ComputeChecksum ((Packet.Serialize ⟨3, [0x10, 0x00], 0⟩).take
            ((Packet.Serialize ⟨3, [0x10, 0x00], 0⟩).length - 2)) } :=
  ⟨by decide, by decide, (C1_roundtrip ⟨3, [0x10, 0x00], 0⟩ (by decide) (by decide)).1⟩

/-- C2: `ValidateFrame` classifies every byte sequence in priority order: "frame too short"
iff the length is below 7; otherwise "payload length does not match frame size" iff the length
differs from 5 + f[4] + 2; otherwise "checksum mismatch" iff the checksum of all bytes but the
last two differs from the big-endian trailer f[len-2]*256 + f[len-1]; otherwise success. -/
theorem C2_ValidateFrame_classification (f : List Nat) (hf : IsBytes f) :
    (ValidateFrame f = .error "frame too short" ↔ f.length < 7) ∧
    (ValidateFrame f = .error "payload length does not match frame size" ↔
      ¬ f.length < 7 ∧ f.length ≠ 5 + f.getD 4 0 + 2) ∧
    (ValidateFrame f = .error "checksum mismatch" ↔
      ¬ f.length < 7 ∧ ¬ f.length ≠ 5 + f.getD 4 0 + 2 ∧
        ComputeChecksum (f.take (f.length - 2)) ≠
          f.getD (f.length - 2) 0 * 256 + f.getD (f.length - 1) 0) ∧
    (ValidateFrame f = .ok () ↔
      ¬ f.length < 7 ∧ ¬ f.length ≠ 5 + f.getD 4 0 + 2 ∧
        ¬ ComputeChecksum (f.take (f.length - 2)) ≠
          f.getD (f.length - 2) 0 * 256 + f.getD (f.length - 1) 0) := by
  refine ⟨ValidateFrame_error_short f, ?_, ?_, ?_⟩
  · rw [ValidateFrame_error_length]; simp only [Nat.not_lt]
  · rw [ValidateFrame_error_checksum f hf]; simp only [Nat.not_lt, trailerValue, ne_eq, not_not]
  · rw [ValidateFrame_ok f hf]; simp only [Nat.not_lt, trailerValue, ne_eq, not_not]

theorem C2_ValidateFrame_classification_witness :
    IsBytes [0, 0, 0, 0, 2, 0xAA, 0xBB, 0xFE, 0x99] ∧
      (ValidateFrame [0, 0, 0, 0, 2, 0xAA, 0xBB, 0xFE, 0x99] = .error "frame too short" ↔
        [0, 0, 0, 0, 2, 0xAA, 0xBB, 0xFE, 0x99].length < 7) :=
  ⟨by decide, (C2_ValidateFrame_classification [0, 0, 0, 0, 2, 0xAA, 0xBB, 0xFE, 0x99]
    (by decide)).1⟩

/-- C3: `ParsePacket` returns a packet iff `ValidateFrame` succeeds; the packet then has the
little-endian command id f[0] + f[1]*2^8 + f[2]*2^16 + f[3]*2^24, as payload the f[4] bytes
starting at index 5, and as checksum the big-endian trailer f[len-2]*256 + f[len-1]; on
failure it returns the reason `ValidateFrame` reports. -/
theorem C3_ParsePacket_spec (f : List Nat) (hf : IsBytes f) :
    ((∃ p, ParsePacket f = .ok p) ↔ ValidateFrame f = .ok ()) ∧
    (ValidateFrame f = .ok () →
      ParsePacket f = .ok
        { command_id :=
            f.getD 0 0 + f.getD 1 0 * 2 ^ 8 + f.getD 2 0 * 2 ^ 16 + f.getD 3 0 * 2 ^ 24,
          payload := (f.drop 5).take (f.getD 4 0),
          checksum := f.getD (f.length - 2) 0 * 256 + f.getD (f.length - 1) 0 } ∧
      ((f.drop 5).take (f.getD 4 0)).length = f.getD 4 0) ∧
    (∀ e, ValidateFrame f = .error e → ParsePacket f = .error e) := by
  refine ⟨?_, ?_, ParsePacket_of_error f⟩
  · constructor
    · rintro ⟨p, hp⟩
      cases hv : ValidateFrame f with
      | error e => rw [ParsePacket_of_error f e hv] at hp; cases hp
      | ok u => rfl
    · intro hv
      exact ⟨_, ParsePacket_of_ok f hf hv⟩
  · intro hv
    refine ⟨ParsePacket_of_ok f hf hv, ?_⟩
    have h := (ValidateFrame_ok f hf).mp hv
    rw [List.length_take, List.length_drop]
    omega

theorem C3_ParsePacket_spec_witness :
    IsBytes [0, 0, 0, 0, 2, 0xAA, 0xBB, 0xFE, 0x98] ∧
      ((∃ p, ParsePacket [0, 0, 0, 0, 2, 0xAA, 0xBB, 0xFE, 0x98] = .ok p) ↔
        ValidateFrame [0, 0, 0, 0, 2, 0xAA, 0xBB, 0xFE, 0x98] = .ok ()) :=
  ⟨by decide, (C3_ParsePacket_spec [0, 0, 0, 0, 2, 0xAA, 0xBB, 0xFE, 0x98] (by decide)).1⟩

/-- C4: for a payload of n ≤ 255 bytes `Serialize` returns 5 + n + 2 bytes: the command id
in little-endian order, then n, then the payload verbatim, then the checksum of the first
5 + n bytes, high byte first; the checksum field of the packet has no influence; and command
id 0 with payload AA BB serializes to 00 00 00 00 02 AA BB FE 98. -/
theorem C4_Serialize_layout :
    (∀ p : Packet, p.payload.length ≤ 255 →
      p.Serialize.length = 5 + p.payload.length + 2 ∧
      p.Serialize.take 4 = [p.command_id % 256, p.command_id / 2 ^ 8 % 256,
        p.command_id / 2 ^ 16 % 256, p.command_id / 2 ^ 24 % 256] ∧
      p.Serialize.getD 4 0 = p.payload.length ∧
      (p.Serialize.drop 5).take p.payload.length = p.payload ∧
      p.Serialize.drop (5 + p.payload.length) =
        [ComputeChecksum (p.Serialize.take (5 + p.payload.length)) / 256,
          ComputeChecksum (p.Serialize.take (5 + p.payload.length)) % 256] ∧
      ∀ k, Packet.Serialize { p with checksum := k } = p.Serialize) ∧
    Packet.Serialize ⟨0, [0xAA, 0xBB], 0⟩ = [0, 0, 0, 0, 2, 0xAA, 0xBB, 0xFE, 0x98] := by
  refine ⟨?_, by decide⟩
  intro p hlen
  have hlh : (headerBytes p.command_id p.payload.length).length = 5 := rfl
  have htake : p.Serialize.take (5 + p.payload.length) =
      headerBytes p.command_id p.payload.length ++ p.payload := by
    rw [Serialize_eq, List.take_left']
    rw [List.length_append, hlh]
  have hcs := ComputeChecksum_lt (headerBytes p.command_id p.payload.length ++ p.payload)
  refine ⟨?_, ?_, ?_, ?_, ?_, ?_⟩
  · rw [Serialize_eq]
    simp only [List.length_append, hlh, List.length_cons, List.length_nil]
  · rw [Serialize_eq]; rfl
  · rw [Serialize_eq, List.append_assoc, headerBytes_append_getD4]
    omega
  · rw [Serialize_eq, List.append_assoc]
    simp only [headerBytes, List.cons_append, List.nil_append, List.drop_succ_cons, List.drop_zero]
    rw [List.take_left]
  · rw [htake, Serialize_eq, List.drop_left']
    · rw [show ComputeChecksum (headerBytes p.command_id p.payload.length ++ p.payload) / 256 %
        256 = ComputeChecksum (headerBytes p.command_id p.payload.length ++ p.payload) / 256
        by omega]
    · rw [List.length_append, hlh]
  · intro k
    rw [Serialize_eq, Serialize_eq]

theorem C4_Serialize_layout_witness :
    (⟨0, [0xAA, 0xBB], 0⟩ : Packet).payload.length ≤ 255 ∧
      (Packet.Serialize ⟨0, [0xAA, 0xBB], 0⟩).length = 5 + 2 + 2 :=
  ⟨by decide, (C4_Serialize_layout.1 ⟨0, [0xAA, 0xBB], 0⟩ (by decide)).1⟩

/-- C5: `ComputeChecksum` is a total function that, for a byte sequence of any length, returns
the 16-bit value 0xFFFF - (S mod 65536), where S is the sum of the bytes; equivalently the sum
of S and the checksum is 0xFFFF modulo 2^16. -/
theorem C5_ComputeChecksum_value (bytes : List Nat) :
    ComputeChecksum bytes = 0xFFFF - bytes.sum % 65536 ∧
      ComputeChecksum bytes < 2 ^ 16 ∧
      (bytes.sum + ComputeChecksum bytes) % 2 ^ 16 = 0xFFFF := by
  have h := ComputeChecksum_eq bytes
  refine ⟨h, ComputeChecksum_lt bytes, ?_⟩
  omega

/-! ## One pass of the drain loop -/

theorem map_range'_getD (l : List CsvByte) (n : Nat) (h : n ≤ l.length) :
    (List.range' 0 n).map (fun i => (l.getD i default).value) = csvValues (l.take n) := by
  apply List.ext_getElem
  · simp [csvValues, h]
  · intro i h1 h2
    simp only [List.length_map, List.length_range'] at h1
    have hi : i < l.length := by omega
    simp [csvValues, List.getElem?_eq_getElem hi]

theorem map_range_getD (l : List CsvByte) (n : Nat) (h : n ≤ l.length) :
    (List.range n).map (fun i => (l.getD (0 + i) default).value) = csvValues (l.take n) := by
  rw [← map_range'_getD l n h, List.range_eq_range']
  simp only [Nat.zero_add]

theorem getD_zero_take (l : List CsvByte) (k : Nat) (hk : 0 < k) :
    (l.take k).getD 0 default = l.getD 0 default := by
  cases l with
  | nil => simp
  | cons a l =>
    cases k with
    | zero => omega
    | succ k => rfl

theorem csvValues_take_break (l : List CsvByte) (h : startsWithBreak l) :
    csvValues (l.take 4) = [0xFF, 0xFF, 0x00, 0x00] := by
  obtain ⟨hl, h0, h1, h2, h3⟩ := h
  match l, hl with
  | a :: b :: c :: d :: rest, _ =>
    simp only [List.getD_cons_zero, List.getD_cons_succ] at h0 h1 h2 h3
    simp [csvValues, h0, h1, h2, h3]

theorem ParseAvailableBody_unfold (b : PendingBuffer) (dir : BusDirection) (out : List Frame)
    (f : Bool) :
    ParseAvailableBody b dir out f =
      if startsWithBreak b.bytes then
        (.again, { b with bytes := b.bytes.drop 4 }, EmitBreakFrame b dir 0 out)
      else if b.bytes.length < 5 then
        if f then
          (.exit, { b with bytes := [] }, EmitRawFrame b dir 0 b.bytes.length out)
        else (.exit, b, out)
      else if b.bytes.length < declaredLength b.bytes then
        if f then
          (.exit, { b with bytes := [] }, EmitRawFrame b dir 0 b.bytes.length out)
        else (.exit, b, out)
      else
        match ValidateFrame ((List.range (declaredLength b.bytes)).map
            fun i => (b.bytes.getD i default).value) with
        | .error _ =>
          (.again, { b with bytes := b.bytes.drop 1 }, EmitRawFrame b dir 0 1 out)
        | .ok _ =>
          (.again, { b with bytes := b.bytes.drop (declaredLength b.bytes) },
            EmitPacketFrame b dir 0 (declaredLength b.bytes) out) := rfl

/-- The four ways one pass through the loop body can go, on a non-empty buffer: a break marker
is cut off; the buffer is incomplete and the loop stops (flushing the buffer as one Raw frame
in final mode); the candidate frame is invalid and one byte is cut off as a Raw frame; the
candidate frame is valid and is cut off as a Packet frame. -/
theorem ParseAvailableBody_cases (b : PendingBuffer) (dir : BusDirection) (out : List Frame)
    (f : Bool) (hne : b.bytes ≠ []) :
    (startsWithBreak b.bytes ∧
      ParseAvailableBody b dir out f =
        (.again, { b with bytes := b.bytes.drop 4 },
          out ++ [frameOf .Break dir (b.bytes.take 4)])) ∨
    (Incomplete b.bytes ∧
      ParseAvailableBody b dir out f =
        if f then (.exit, { b with bytes := [] }, out ++ [frameOf .Raw dir b.bytes])
        else (.exit, b, out)) ∨
    (¬ startsWithBreak b.bytes ∧ 5 ≤ b.bytes.length ∧ declaredLength b.bytes ≤ b.bytes.length ∧
      (∃ e, ValidateFrame (csvValues (b.bytes.take (declaredLength b.bytes))) = .error e) ∧
      ParseAvailableBody b dir out f =
        (.again, { b with bytes := b.bytes.drop 1 },
          out ++ [frameOf .Raw dir (b.bytes.take 1)])) ∨
    (¬ startsWithBreak b.bytes ∧ 5 ≤ b.bytes.length ∧ declaredLength b.bytes ≤ b.bytes.length ∧
      ValidateFrame (csvValues (b.bytes.take (declaredLength b.bytes))) = .ok () ∧
      ParseAvailableBody b dir out f =
        (.again, { b with bytes := b.bytes.drop (declaredLength b.bytes) },
          out ++ [frameOf .Packet dir (b.bytes.take (declaredLength b.bytes))])) := by
  have hpos : 0 < b.bytes.length := List.length_pos.mpr hne
  have hraw : EmitRawFrame b dir 0 b.bytes.length out = out ++ [frameOf .Raw dir b.bytes] := by
    unfold EmitRawFrame frameOf
    rw [if_neg (by omega), Nat.sub_zero, map_range'_getD _ _ (Nat.le_refl _), List.take_length]
  rw [ParseAvailableBody_unfold]
  by_cases hbrk : startsWithBreak b.bytes
  · left
    refine ⟨hbrk, ?_⟩
    rw [if_pos hbrk]
    unfold EmitBreakFrame frameOf
    rw [csvValues_take_break _ hbrk, getD_zero_take _ _ (by decide)]
  · right
    rw [if_neg hbrk]
    by_cases h5 : b.bytes.length < 5
    · left
      refine ⟨⟨hbrk, Or.inl h5⟩, ?_⟩
      rw [if_pos h5, hraw]
    · rw [if_neg h5]
      by_cases hL : b.bytes.length < declaredLength b.bytes
      · left
        refine ⟨⟨hbrk, Or.inr hL⟩, ?_⟩
        rw [if_pos hL, hraw]
      · right
        have hL' : declaredLength b.bytes ≤ b.bytes.length := by omega
        have hcand : (List.range (declaredLength b.bytes)).map
            (fun i => (b.bytes.getD i default).value) =
            csvValues (b.bytes.take (declaredLength b.bytes)) := by
          have := map_range_getD b.bytes _ hL'
          simpa only [Nat.zero_add] using this
        rw [if_neg hL, hcand]
        cases hv : ValidateFrame (csvValues (b.bytes.take (declaredLength b.bytes))) with
        | error e =>
          left
          refine ⟨hbrk, by omega, hL', ⟨e, rfl⟩, ?_⟩
          simp only []
          unfold EmitRawFrame frameOf
          rw [if_neg (by omega), map_range'_getD _ _ (by omega), getD_zero_take _ _ (by decide)]
        | ok u =>
          right
          refine ⟨hbrk, by omega, hL', rfl, ?_⟩
          simp only []
          unfold EmitPacketFrame frameOf
          rw [map_range_getD _ _ hL',
            getD_zero_take _ _ (by unfold declaredLength kPacketHeaderBytes; omega)]

/-! ## The drain loop as a function on runs of bytes -/

theorem ParseAvailableLoop_eq (n : Nat) (bytes : List CsvByte) (lt : Option Int)
    (dir : BusDirection) (out : List Frame) (f : Bool) (hn : bytes.length ≤ n) :
    ParseAvailableLoop n { bytes := bytes, last_time := lt } dir out f =
      ({ bytes := (drainSpec f bytes).2, last_time := lt },
        out ++ framesOf dir (drainSpec f bytes).1) := by
  induction n generalizing bytes out with
  | zero =>
    have h0 : bytes = [] := List.length_eq_zero.mp (Nat.le_zero.mp hn)
    subst h0
    rw [drainSpec]
    simp [ParseAvailableLoop, framesOf]
  | succ n ih =>
    by_cases h0 : bytes = []
    · subst h0
      rw [drainSpec]
      simp [ParseAvailableLoop, framesOf]
    · have hpos : 0 < bytes.length := List.length_pos.mpr h0
      rw [ParseAvailableLoop, if_neg h0, drainSpec, dif_neg h0]
      rcases ParseAvailableBody_cases ⟨bytes, lt⟩ dir out f h0 with
        ⟨hb, heq⟩ | ⟨hi, heq⟩ | ⟨hb, h5, hL, ⟨e, hv⟩, heq⟩ | ⟨hb, h5, hL, hv, heq⟩
      · rw [heq, dif_pos hb]
        simp only []
        rw [ih _ _ (by simp only [List.length_drop]; omega)]
        simp [framesOf]
      · rw [heq, dif_neg hi.1, dif_pos hi.2]
        cases f <;> simp [framesOf]
      · have hni : ¬ (bytes.length < 5 ∨ bytes.length < declaredLength bytes) := by
          simp only at h5 hL; omega
        rw [heq, dif_neg hb, dif_neg hni]
        simp only [] at hv ⊢
        rw [hv]
        simp only []
        rw [ih _ _ (by simp only [List.length_drop]; omega)]
        simp [framesOf]
      · have hni : ¬ (bytes.length < 5 ∨ bytes.length < declaredLength bytes) := by
          simp only at h5 hL; omega
        have hd : 0 < declaredLength bytes := by
          unfold declaredLength kPacketHeaderBytes; omega
        rw [heq, dif_neg hb, dif_neg hni]
        simp only [] at hv ⊢
        rw [hv]
        simp only []
        rw [ih _ _ (by simp only [List.length_drop]; omega)]
        simp [framesOf]

theorem ParseAvailable_eq (b : PendingBuffer) (dir : BusDirection) (out : List Frame) (f : Bool) :
    ParseAvailable b dir out f =
      ({ bytes := (drainSpec f b.bytes).2, last_time := b.last_time },
        out ++ framesOf dir (drainSpec f b.bytes).1) :=
  ParseAvailableLoop_eq b.bytes.length b.bytes b.last_time dir out f (Nat.le_refl _)

/-- Any fuel that is at least the buffer length gives the result of `ParseAvailable`: the
unrolled loop never stops for lack of fuel. -/
theorem ParseAvailableLoop_fuel (n : Nat) (b : PendingBuffer) (dir : BusDirection)
    (out : List Frame) (f : Bool) (hn : b.bytes.length ≤ n) :
    ParseAvailableLoop n b dir out f = ParseAvailable b dir out f := by
  rw [ParseAvailable_eq]
  exact ParseAvailableLoop_eq n b.bytes b.last_time dir out f hn

/-- A pass of the loop body that continues leaves a strictly shorter buffer. -/
theorem ParseAvailableBody_again_lt (b : PendingBuffer) (dir : BusDirection) (out : List Frame)
    (f : Bool) (hne : b.bytes ≠ []) (b' : PendingBuffer) (out' : List Frame)
    (h : ParseAvailableBody b dir out f = (.again, b', out')) :
    b'.bytes.length < b.bytes.length := by
  have hpos : 0 < b.bytes.length := List.length_pos.mpr hne
  rcases ParseAvailableBody_cases b dir out f hne with
    ⟨_, heq⟩ | ⟨_, heq⟩ | ⟨_, _, _, _, heq⟩ | ⟨_, _, _, _, heq⟩
  · rw [heq] at h
    injection h with _ h; injection h with h _
    rw [← h]; simp only [List.length_drop]; omega
  · rw [heq] at h
    cases f <;> simp at h
  · rw [heq] at h
    injection h with _ h; injection h with h _
    rw [← h]; simp only [List.length_drop]; omega
  · rw [heq] at h
    injection h with _ h; injection h with h _
    have hd : 0 < declaredLength b.bytes := by
      unfold declaredLength kPacketHeaderBytes; omega
    rw [← h]; simp only [List.length_drop]; omega

/-- The equation of the `while` loop: `ParseAvailable` returns at once on an empty buffer, and
otherwise runs the body once and either stops or starts over on the new buffer. -/
theorem ParseAvailable_unfold (b : PendingBuffer) (dir : BusDirection) (out : List Frame)
    (f : Bool) :
    ParseAvailable b dir out f =
      if b.bytes = [] then (b, out)
      else
        match ParseAvailableBody b dir out f with
        | (.again, b', out') => ParseAvailable b' dir out' f
        | (.exit, b', out') => (b', out') := by
  by_cases hne : b.bytes = []
  · rw [if_pos hne]
    unfold ParseAvailable
    rw [hne]
    rfl
  · rw [if_neg hne]
    have hpos : 0 < b.bytes.length := List.length_pos.mpr hne
    obtain ⟨n, hn⟩ : ∃ n, b.bytes.length = n + 1 := ⟨b.bytes.length - 1, by omega⟩
    have hlt := ParseAvailableBody_again_lt b dir out f hne
    conv_lhs => unfold ParseAvailable
    rw [hn, ParseAvailableLoop, if_neg hne]
    rcases hbody : ParseAvailableBody b dir out f with ⟨c, b', out'⟩
    cases c with
    | again =>
      simp only []
      exact ParseAvailableLoop_fuel n b' dir out' f (by have := hlt b' out' hbody; omega)
    | exit => rfl

theorem drainSpec_nil (f : Bool) : drainSpec f [] = ([], []) := by
  rw [drainSpec]; simp

theorem drainSpec_break (f : Bool) (x : List CsvByte) (h0 : x ≠ []) (hb : startsWithBreak x) :
    drainSpec f x =
      ((FrameType.Break, x.take 4) :: (drainSpec f (x.drop 4)).1, (drainSpec f (x.drop 4)).2) := by
  rw [drainSpec, dif_neg h0, dif_pos hb]

theorem drainSpec_incomplete (f : Bool) (x : List CsvByte) (h0 : x ≠ [])
    (hb : ¬ startsWithBreak x) (hi : x.length < 5 ∨ x.length < declaredLength x) :
    drainSpec f x = if f then ([(FrameType.Raw, x)], []) else ([], x) := by
  rw [drainSpec, dif_neg h0, dif_neg hb, dif_pos hi]

theorem drainSpec_error (f : Bool) (x : List CsvByte) (h0 : x ≠ []) (hb : ¬ startsWithBreak x)
    (hi : ¬ (x.length < 5 ∨ x.length < declaredLength x)) (a : String)
    (hv : ValidateFrame (csvValues (x.take (declaredLength x))) = .error a) :
    drainSpec f x =
      ((FrameType.Raw, x.take 1) :: (drainSpec f (x.drop 1)).1, (drainSpec f (x.drop 1)).2) := by
  rw [drainSpec, dif_neg h0, dif_neg hb, dif_neg hi, hv]

theorem drainSpec_ok (f : Bool) (x : List CsvByte) (h0 : x ≠ []) (hb : ¬ startsWithBreak x)
    (hi : ¬ (x.length < 5 ∨ x.length < declaredLength x)) (a : Unit)
    (hv : ValidateFrame (csvValues (x.take (declaredLength x))) = .ok a) :
    drainSpec f x =
      ((FrameType.Packet, x.take (declaredLength x)) ::
          (drainSpec f (x.drop (declaredLength x))).1,
        (drainSpec f (x.drop (declaredLength x))).2) := by
  rw [drainSpec, dif_neg h0, dif_neg hb, dif_neg hi, hv]

theorem declaredLength_take (x : List CsvByte) :
    declaredLength (x.take (declaredLength x)) = declaredLength x := by
  have h5 : 4 < declaredLength x := by unfold declaredLength kPacketHeaderBytes; omega
  have hg : (x.take (declaredLength x)).getD 4 default = x.getD 4 default := by
    rw [List.getD_eq_getElem?_getD, List.getD_eq_getElem?_getD, List.getElem?_take_of_lt h5]
  unfold declaredLength at *
  rw [hg]

/-- The runs cut off by the drain loop followed by the bytes left are the buffer; every run is
a good chunk; in final mode no byte is left; in non-final mode the bytes left, if any, are an
incomplete buffer. -/
theorem drainSpec_spec (f : Bool) (bytes : List CsvByte) :
    partsBytes (drainSpec f bytes).1 ++ (drainSpec f bytes).2 = bytes ∧
      (∀ p ∈ (drainSpec f bytes).1, GoodChunk p) ∧
      (f = true → (drainSpec f bytes).2 = []) ∧
      (f = false → (drainSpec f bytes).2 = [] ∨ Incomplete (drainSpec f bytes).2) := by
  induction bytes using drainSpec.induct f with
  | case1 => rw [drainSpec_nil]; simp [partsBytes]
  | case2 x h0 hb ih =>
    rw [drainSpec_break f x h0 hb]
    obtain ⟨h1, h2, h3, h4⟩ := ih
    refine ⟨?_, ?_, h3, h4⟩
    · simp only [partsBytes, List.map_cons, List.flatten_cons, List.append_assoc] at h1 ⊢
      rw [h1, List.take_append_drop]
    · intro p hp
      rcases List.mem_cons.mp hp with rfl | hp
      · refine ⟨?_, ⟨?_, fun _ => csvValues_take_break x hb⟩⟩
        · intro h
          have h4 := congrArg List.length h
          have := hb.1
          rw [List.length_take] at h4
          simp only [List.length_nil] at h4
          omega
        · intro h; simp at h
      · exact h2 p hp
  | case3 x h0 hb hi hf =>
    rw [drainSpec_incomplete f x h0 hb hi, if_pos hf]
    refine ⟨by simp [partsBytes], ?_, fun _ => rfl, fun h => by simp [hf] at h⟩
    intro p hp
    rw [List.mem_singleton] at hp
    subst hp
    exact ⟨h0, ⟨fun h => by simp at h, fun h => by simp at h⟩⟩
  | case4 x h0 hb hi hf =>
    rw [drainSpec_incomplete f x h0 hb hi, if_neg hf]
    exact ⟨by simp [partsBytes], by simp, fun h => absurd h hf, fun _ => Or.inr ⟨hb, hi⟩⟩
  | case5 x h0 hb hi a hv ih =>
    rw [drainSpec_error f x h0 hb hi a hv]
    obtain ⟨h1, h2, h3, h4⟩ := ih
    refine ⟨?_, ?_, h3, h4⟩
    · simp only [partsBytes, List.map_cons, List.flatten_cons, List.append_assoc] at h1 ⊢
      rw [h1, List.take_append_drop]
    · intro p hp
      rcases List.mem_cons.mp hp with rfl | hp
      · refine ⟨?_, ⟨fun h => by simp at h, fun h => by simp at h⟩⟩
        cases x with
        | nil => exact absurd rfl h0
        | cons a l => simp
      · exact h2 p hp
  | case6 x h0 hb hi a hv ih =>
    rw [drainSpec_ok f x h0 hb hi a hv]
    obtain ⟨h1, h2, h3, h4⟩ := ih
    have hL : declaredLength x ≤ x.length := by omega
    refine ⟨?_, ?_, h3, h4⟩
    · simp only [partsBytes, List.map_cons, List.flatten_cons, List.append_assoc] at h1 ⊢
      rw [h1, List.take_append_drop]
    · intro p hp
      rcases List.mem_cons.mp hp with rfl | hp
      · refine ⟨?_, ⟨fun _ => ⟨hv, ?_⟩, fun h => by simp at h⟩⟩
        · intro h
          have h4 := congrArg List.length h
          have h5 : 4 < declaredLength x := by unfold declaredLength kPacketHeaderBytes; omega
          rw [List.length_take] at h4
          simp only [List.length_nil] at h4
          omega
        · simp only [declaredLength_take x, List.length_take]
          omega
      · exact h2 p hp

/-! ## One direction at a time -/

theorem ingestEvent_eq (gap : Int) (st : CaptureState) (e : CsvByte) :
    ingestEvent gap st e =
      { buffers := st.buffers.set (DirectionIndex e.direction)
          (dirStep gap (st.buffers.get (DirectionIndex e.direction), st.frames) e).1,
        frames := (dirStep gap (st.buffers.get (DirectionIndex e.direction), st.frames) e).2 } :=
  rfl

theorem gapFlush_eq (gap : Int) (b : PendingBuffer) (e : CsvByte) (out : List Frame) :
    gapFlush gap b e out =
      if gapExceeded gap b e then ParseAvailable b e.direction out true else (b, out) := by
  unfold gapFlush gapExceeded
  cases b.last_time with
  | none => simp
  | some last => simp

theorem dirStep_eq (gap : Int) (b : PendingBuffer) (out : List Frame) (e : CsvByte) :
    dirStep gap (b, out) e =
      ((stepParts gap b e).1, out ++ framesOf e.direction (stepParts gap b e).2) := by
  unfold dirStep stepParts
  simp only [gapFlush_eq]
  by_cases hg : gapExceeded gap b e = true
  · simp only [hg, if_true, ParseAvailable_eq, framesOf, List.map_append, List.append_assoc]
  · simp only [hg, ParseAvailable_eq, framesOf, List.map_append, List.append_assoc]
    simp

theorem framesDir_append (d : BusDirection) (xs ys : List Frame) :
    framesDir d (xs ++ ys) = framesDir d xs ++ framesDir d ys := by
  simp [framesDir]

theorem framesOf_append (d : BusDirection) (xs ys : List (FrameType × List CsvByte)) :
    framesOf d (xs ++ ys) = framesOf d xs ++ framesOf d ys := by
  simp [framesOf]

theorem framesDir_framesOf_same (d : BusDirection) (ps : List (FrameType × List CsvByte)) :
    framesDir d (framesOf d ps) = framesOf d ps := by
  unfold framesDir framesOf
  rw [List.filter_eq_self]
  intro f hf
  obtain ⟨p, _, rfl⟩ := List.mem_map.mp hf
  simp [frameOf]

theorem framesDir_framesOf_other (d d' : BusDirection) (h : d' ≠ d)
    (ps : List (FrameType × List CsvByte)) : framesDir d (framesOf d' ps) = [] := by
  unfold framesDir framesOf
  rw [List.filter_eq_nil_iff]
  intro f hf
  obtain ⟨p, _, rfl⟩ := List.mem_map.mp hf
  simp [frameOf, h]

theorem DirectionIndex_inj (d d' : BusDirection) (h : DirectionIndex d = DirectionIndex d') :
    d = d' := by
  cases d <;> cases d' <;> simp [DirectionIndex] at h ⊢

theorem Buffers.get_set_same (bs : Buffers) (d : BusDirection) (b : PendingBuffer) :
    (bs.set (DirectionIndex d) b).get (DirectionIndex d) = b := by
  cases d <;> simp [Buffers.get, Buffers.set, DirectionIndex]

theorem Buffers.get_set_other (bs : Buffers) (d d' : BusDirection) (h : d' ≠ d)
    (b : PendingBuffer) :
    (bs.set (DirectionIndex d') b).get (DirectionIndex d) = bs.get (DirectionIndex d) := by
  cases d <;> cases d' <;> simp [Buffers.get, Buffers.set, DirectionIndex] at h ⊢

theorem ingestLoop_cons (gap : Int) (e : CsvByte) (es : List CsvByte) (st : CaptureState) :
    ingestLoop gap (e :: es) st = ingestLoop gap es (ingestEvent gap st e) := rfl

/-- The buffer of a direction and the frames of that direction after the ingest loop are those
of the loop run on the events of that direction alone. -/
theorem ingestLoop_dir (gap : Int) (d : BusDirection) (es : List CsvByte) (st : CaptureState) :
    (ingestLoop gap es st).buffers.get (DirectionIndex d) =
        (runParts gap (eventsDir d es) (st.buffers.get (DirectionIndex d))).1 ∧
      framesDir d (ingestLoop gap es st).frames =
        framesDir d st.frames ++
          framesOf d (runParts gap (eventsDir d es) (st.buffers.get (DirectionIndex d))).2 := by
  induction es generalizing st with
  | nil => simp [ingestLoop, eventsDir, runParts, framesOf]
  | cons e es ih =>
    rw [ingestLoop_cons]
    obtain ⟨ih1, ih2⟩ := ih (ingestEvent gap st e)
    rw [ih1, ih2, ingestEvent_eq, dirStep_eq]
    by_cases hd : e.direction = d
    · subst hd
      have he : eventsDir e.direction (e :: es) = e :: eventsDir e.direction es := by
        simp [eventsDir]
      simp only [he, runParts, Buffers.get_set_same, framesDir_append, framesDir_framesOf_same,
        framesOf_append, List.append_assoc, and_self]
    · have he : eventsDir d (e :: es) = eventsDir d es := by
        simp [eventsDir, hd]
      simp only [he, Buffers.get_set_other _ _ _ hd, framesDir_append,
        framesDir_framesOf_other _ _ hd, List.append_nil, and_self]

theorem flushBuffers_eq (st : CaptureState) :
    flushBuffers st =
      { buffers :=
          (st.buffers.set 0 (ParseAvailable (st.buffers.get 0) BusDirection.Rx st.frames true).1).set
            1 (ParseAvailable
              ((st.buffers.set 0
                (ParseAvailable (st.buffers.get 0) BusDirection.Rx st.frames true).1).get 1)
              BusDirection.Tx (ParseAvailable (st.buffers.get 0) BusDirection.Rx st.frames true).2
              true).1,
        frames :=
          (ParseAvailable
            ((st.buffers.set 0
              (ParseAvailable (st.buffers.get 0) BusDirection.Rx st.frames true).1).get 1)
            BusDirection.Tx (ParseAvailable (st.buffers.get 0) BusDirection.Rx st.frames true).2
            true).2 } := rfl

/-- After the flush at end of file both buffers are empty, and the frames of a direction are
those before the flush followed by the frames for the runs that the final drain cuts off the
buffer of that direction. -/
theorem flushBuffers_dir (d : BusDirection) (st : CaptureState) :
    ((flushBuffers st).buffers.get (DirectionIndex d)).bytes = [] ∧
      framesDir d (flushBuffers st).frames =
        framesDir d st.frames ++
          framesOf d (drainSpec true (st.buffers.get (DirectionIndex d)).bytes).1 := by
  rw [flushBuffers_eq]
  have hrx : DirectionIndex BusDirection.Rx = 0 := rfl
  have htx : DirectionIndex BusDirection.Tx = 1 := rfl
  have hne : BusDirection.Rx ≠ BusDirection.Tx := by decide
  have hne' : BusDirection.Tx ≠ BusDirection.Rx := by decide
  simp only [ParseAvailable_eq]
  cases d
  · rw [← hrx, ← htx]
    simp only [Buffers.get_set_other _ _ _ hne', Buffers.get_set_same, framesDir_append,
      framesDir_framesOf_same, framesDir_framesOf_other _ _ hne', List.append_nil]
    exact ⟨(drainSpec_spec true _).2.2.1 rfl, trivial⟩
  · rw [← hrx, ← htx]
    simp only [Buffers.get_set_other _ _ _ hne, Buffers.get_set_other _ _ _ hne',
      Buffers.get_set_same, framesDir_append,
      framesDir_framesOf_same, framesDir_framesOf_other _ _ hne, List.append_nil]
    exact ⟨(drainSpec_spec true _).2.2.1 rfl, trivial⟩

/-- The frames of one direction emitted by `reassemble` are the frames for the typed runs that
the events of that direction alone give rise to, and both buffers end empty. -/
theorem reassemble_dir (gap : Int) (d : BusDirection) (es : List CsvByte) :
    ((reassemble gap es).buffers.get (DirectionIndex d)).bytes = [] ∧
      framesDir d (reassemble gap es).frames = framesOf d (dirParts gap (eventsDir d es)) := by
  unfold reassemble
  obtain ⟨h1, h2⟩ := flushBuffers_dir d (ingestLoop gap es CaptureState.init)
  obtain ⟨h3, h4⟩ := ingestLoop_dir gap d es CaptureState.init
  refine ⟨h1, ?_⟩
  have hinit : CaptureState.init.buffers.get (DirectionIndex d) =
      { bytes := [], last_time := none } := by
    cases d <;> rfl
  rw [h2, h4, h3, hinit]
  simp [dirParts, framesOf, framesDir, CaptureState.init]

/-! ## Invariants of the per-direction run -/

theorem partsBytes_append (xs ys : List (FrameType × List CsvByte)) :
    partsBytes (xs ++ ys) = partsBytes xs ++ partsBytes ys := by
  simp [partsBytes]

theorem getLast?_of_append_eq {xs rest full : List CsvByte} {e l : CsvByte}
    (h : xs ++ rest = full ++ [e]) (hl : rest.getLast? = some l) : l = e := by
  have hne : rest ≠ [] := by
    intro h0; rw [h0] at hl; simp at hl
  have h1 : (xs ++ rest).getLast? = some l := by
    rw [List.getLast?_append, hl]; rfl
  rw [h, List.getLast?_append] at h1
  simpa using h1.symm

theorem stepParts_spec (gap : Int) (b : PendingBuffer) (e : CsvByte) :
    partsBytes (stepParts gap b e).2 ++ (stepParts gap b e).1.bytes = b.bytes ++ [e] ∧
      (∀ p ∈ (stepParts gap b e).2, GoodChunk p) ∧
      Settled (stepParts gap b e).1.bytes ∧
      (stepParts gap b e).1.last_time = some e.time ∧
      LastTimeOK (stepParts gap b e).1 := by
  have key : ∀ pre : List (FrameType × List CsvByte) × List CsvByte,
      partsBytes pre.1 ++ pre.2 = b.bytes → (∀ p ∈ pre.1, GoodChunk p) →
      partsBytes (pre.1 ++ (drainSpec false (pre.2 ++ [e])).1) ++
          (drainSpec false (pre.2 ++ [e])).2 = b.bytes ++ [e] ∧
        (∀ p ∈ pre.1 ++ (drainSpec false (pre.2 ++ [e])).1, GoodChunk p) ∧
        Settled (drainSpec false (pre.2 ++ [e])).2 ∧
        ∀ l, (drainSpec false (pre.2 ++ [e])).2.getLast? = some l → l = e := by
    intro pre h1 h2
    obtain ⟨s1, s2, _, s4⟩ := drainSpec_spec false (pre.2 ++ [e])
    refine ⟨?_, ?_, s4 rfl, ?_⟩
    · rw [partsBytes_append, List.append_assoc, s1, ← List.append_assoc, h1]
    · intro p hp
      rcases List.mem_append.mp hp with hp | hp
      · exact h2 p hp
      · exact s2 p hp
    · intro l hl
      exact getLast?_of_append_eq s1 hl
  unfold stepParts
  by_cases hg : gapExceeded gap b e = true
  · obtain ⟨s1, s2, s3, _⟩ := drainSpec_spec true b.bytes
    obtain ⟨k1, k2, k3, k4⟩ := key (drainSpec true b.bytes) s1 s2
    simp only [hg, if_true]
    refine ⟨k1, k2, k3, trivial, ?_⟩
    intro l hl
    rw [k4 l hl]
  · obtain ⟨k1, k2, k3, k4⟩ := key ([], b.bytes) (by simp [partsBytes]) (by simp)
    simp only [hg]
    refine ⟨k1, k2, k3, trivial, ?_⟩
    intro l hl
    rw [k4 l hl]

theorem runParts_spec (gap : Int) (es : List CsvByte) (b : PendingBuffer) :
    partsBytes (runParts gap es b).2 ++ (runParts gap es b).1.bytes = b.bytes ++ es ∧
      (∀ p ∈ (runParts gap es b).2, GoodChunk p) ∧
      (Settled b.bytes → Settled (runParts gap es b).1.bytes) ∧
      (LastTimeOK b → LastTimeOK (runParts gap es b).1) := by
  induction es generalizing b with
  | nil => simp [runParts, partsBytes]
  | cons e es ih =>
    obtain ⟨s1, s2, s3, _, s5⟩ := stepParts_spec gap b e
    obtain ⟨h1, h2, h3, h4⟩ := ih (stepParts gap b e).1
    simp only [runParts]
    refine ⟨?_, ?_, fun _ => h3 s3, fun _ => h4 s5⟩
    · rw [partsBytes_append, List.append_assoc, h1, ← List.append_assoc, s1]
      simp
    · intro p hp
      rcases List.mem_append.mp hp with hp | hp
      · exact s2 p hp
      · exact h2 p hp

/-- The typed runs cut off for the events of one direction are good chunks whose bytes, in
order, are exactly those events. -/
theorem dirParts_spec (gap : Int) (es : List CsvByte) :
    partsBytes (dirParts gap es) = es ∧ ∀ p ∈ dirParts gap es, GoodChunk p := by
  obtain ⟨h1, h2, _, _⟩ := runParts_spec gap es { bytes := [], last_time := none }
  obtain ⟨s1, s2, s3, _⟩ :=
    drainSpec_spec true (runParts gap es { bytes := [], last_time := none }).1.bytes
  unfold dirParts
  constructor
  · rw [partsBytes_append]
    have := s3 rfl
    rw [this, List.append_nil] at s1
    rw [s1, h1]
    rfl
  · intro p hp
    rcases List.mem_append.mp hp with hp | hp
    · exact h2 p hp
    · exact s2 p hp

theorem framesOf_bytes (d : BusDirection) (ps : List (FrameType × List CsvByte)) :
    ((framesOf d ps).map Frame.bytes).flatten = csvValues (partsBytes ps) := by
  induction ps with
  | nil => rfl
  | cons p ps ih =>
    simp only [framesOf, List.map_cons, List.flatten_cons, partsBytes] at ih ⊢
    rw [ih]
    simp [frameOf, csvValues]

theorem framesOf_start_sublist (d : BusDirection) (ps : List (FrameType × List CsvByte))
    (h : ∀ p ∈ ps, p.2 ≠ []) :
    ((framesOf d ps).map Frame.start_time).Sublist ((partsBytes ps).map fun e => e.time) := by
  induction ps with
  | nil => simp [framesOf, partsBytes]
  | cons p ps ih =>
    have hp := h p (List.mem_cons_self _ _)
    have ih' := ih fun q hq => h q (List.mem_cons_of_mem _ hq)
    obtain ⟨ty, chunk⟩ := p
    cases chunk with
    | nil => exact absurd rfl hp
    | cons a l =>
      simp only [framesOf, List.map_cons, partsBytes, List.flatten_cons, List.cons_append,
        frameOf, List.getD_cons_zero]
      apply List.Sublist.cons₂
      simp only [List.map_append]
      exact ih'.trans (List.sublist_append_right _ _)

/-! ## Rounding of the `double` subtraction -/

/-- The binary digits count brackets the number between two powers of two. -/
theorem bitLength_spec (fuel n : Nat) (hf : n ≤ fuel) (hn : 0 < n) :
    0 < bitLength fuel n ∧ 2 ^ (bitLength fuel n - 1) ≤ n ∧ n < 2 ^ bitLength fuel n := by
  induction fuel generalizing n with
  | zero => omega
  | succ f ih =>
    rw [bitLength, if_neg (by omega)]
    by_cases h2 : n / 2 = 0
    · have h1 : n = 1 := by omega
      subst h1
      cases f with
      | zero => simp [bitLength]
      | succ f' => simp [bitLength]
    · obtain ⟨hp, hlo, hhi⟩ := ih (n / 2) (by omega) (by omega)
      refine ⟨by omega, ?_, ?_⟩
      · rw [Nat.add_sub_cancel]
        have e : bitLength f (n / 2) = (bitLength f (n / 2) - 1) + 1 := by omega
        rw [e, Nat.pow_succ]
        omega
      · rw [Nat.pow_succ]
        omega

theorem bitLength_mono (a g : Nat) (ha : 0 < a) (h : a ≤ g) :
    bitLength a a ≤ bitLength g g := by
  obtain ⟨_, hlo, _⟩ := bitLength_spec a a (Nat.le_refl _) ha
  obtain ⟨_, _, hhi⟩ := bitLength_spec g g (Nat.le_refl _) (by omega)
  have hlt : 2 ^ (bitLength a a - 1) < 2 ^ bitLength g g := by omega
  have := (Nat.pow_lt_pow_iff_right (show 1 < 2 by decide)).mp hlt
  omega

/-- The parts of a magnitude of more than 53 bits: the 53-bit quotient and the remainder. -/
theorem roundNat_parts (a : Nat) (ha : 2 ^ 53 ≤ a) :
    1 ≤ bitLength a a - 53 ∧
      2 ^ (bitLength a a - 1) = 2 ^ 52 * 2 ^ (bitLength a a - 53) ∧
      2 ^ 52 ≤ a / 2 ^ (bitLength a a - 53) ∧
      a / 2 ^ (bitLength a a - 53) * 2 ^ (bitLength a a - 53) ≤ a ∧
      a / 2 ^ (bitLength a a - 53) * 2 ^ (bitLength a a - 53) ≤ roundNat a ∧
      (roundNat a = a / 2 ^ (bitLength a a - 53) * 2 ^ (bitLength a a - 53) ∨
        (roundNat a = (a / 2 ^ (bitLength a a - 53) + 1) * 2 ^ (bitLength a a - 53) ∧
          a / 2 ^ (bitLength a a - 53) * 2 ^ (bitLength a a - 53) < a)) := by
  have hpos : 0 < a := lt_of_lt_of_le (by decide) ha
  obtain ⟨_, hlo, hhi⟩ := bitLength_spec a a (Nat.le_refl _) hpos
  have hL : 53 < bitLength a a := by
    have hlt : 2 ^ 53 < 2 ^ bitLength a a := lt_of_le_of_lt ha hhi
    exact (Nat.pow_lt_pow_iff_right (show 1 < 2 by decide)).mp hlt
  have hsplit : 2 ^ (bitLength a a - 1) = 2 ^ 52 * 2 ^ (bitLength a a - 53) := by
    rw [← Nat.pow_add]
    congr 1
    omega
  have hspos : 0 < 2 ^ (bitLength a a - 53) := Nat.two_pow_pos _
  have hq : 2 ^ 52 ≤ a / 2 ^ (bitLength a a - 53) := by
    rw [Nat.le_div_iff_mul_le hspos, ← hsplit]
    exact hlo
  have hdm := Nat.div_add_mod a (2 ^ (bitLength a a - 53))
  have hle : a / 2 ^ (bitLength a a - 53) * 2 ^ (bitLength a a - 53) ≤ a :=
    Nat.div_mul_le_self _ _
  have hhalf : 0 < 2 ^ (bitLength a a - 53 - 1) := Nat.two_pow_pos _
  refine ⟨by omega, hsplit, hq, hle, ?_, ?_⟩
  · unfold roundNat
    rw [if_neg (by omega)]
    simp only []
    split
    · exact Nat.mul_le_mul_right _ (Nat.le_succ _)
    · exact Nat.le_refl _
  · unfold roundNat
    rw [if_neg (by omega)]
    simp only []
    split
    · rename_i hup
      right
      refine ⟨rfl, ?_⟩
      have hr : 0 < a % 2 ^ (bitLength a a - 53) := by
        rcases hup with h | ⟨h, _⟩ <;> omega
      have hdm' : a / 2 ^ (bitLength a a - 53) * 2 ^ (bitLength a a - 53) +
          a % 2 ^ (bitLength a a - 53) = a := by
        rw [Nat.mul_comm]; exact hdm
      omega
    · left; rfl

/-- A magnitude is a `double` iff it has at most 53 bits or is a multiple of the unit in the
last place of its binade. -/
theorem roundNat_fixed (g : Nat) (h : roundNat g = g) (hg : 2 ^ 53 ≤ g) :
    2 ^ (bitLength g g - 53) ∣ g := by
  obtain ⟨_, _, _, hle, _, hcase⟩ := roundNat_parts g hg
  rcases hcase with hc | ⟨_, hlt⟩
  · rw [h] at hc
    exact Dvd.intro_left _ hc.symm
  · have hspos : 0 < 2 ^ (bitLength g g - 53) := Nat.two_pow_pos _
    have hmod := Nat.mod_lt g hspos
    have hdm := Nat.div_add_mod g (2 ^ (bitLength g g - 53))
    rename_i hup
    rw [h] at hup
    rw [Nat.add_mul, Nat.one_mul, Nat.mul_comm] at hup
    omega

theorem roundNat_le_of_le (a g : Nat) (hg : roundNat g = g) (h : a ≤ g) : roundNat a ≤ g := by
  by_cases ha : a < 2 ^ 53
  · unfold roundNat; rw [if_pos ha]; exact h
  · have ha' : 2 ^ 53 ≤ a := by omega
    obtain ⟨_, _, _, hle, _, hcase⟩ := roundNat_parts a ha'
    rcases hcase with hc | ⟨hc, hlt⟩
    · rw [hc]; omega
    · have hdvd := roundNat_fixed g hg (by omega)
      have hmono := bitLength_mono a g (by omega) h
      have hdvd' : 2 ^ (bitLength a a - 53) ∣ g :=
        Dvd.dvd.trans (Nat.pow_dvd_pow 2 (by omega)) hdvd
      obtain ⟨k, hk⟩ := hdvd'
      rw [hc, hk, Nat.mul_comm (2 ^ (bitLength a a - 53)) k]
      apply Nat.mul_le_mul_right
      have hspos : 0 < 2 ^ (bitLength a a - 53) := Nat.two_pow_pos _
      have hlt' : a / 2 ^ (bitLength a a - 53) * 2 ^ (bitLength a a - 53) <
          k * 2 ^ (bitLength a a - 53) := by
        rw [Nat.mul_comm k, ← hk]; omega
      exact Nat.succ_le_of_lt (Nat.lt_of_mul_lt_mul_right hlt')

theorem le_roundNat_of_le (a g : Nat) (hg : roundNat g = g) (h : g ≤ a) : g ≤ roundNat a := by
  by_cases ha : a < 2 ^ 53
  · unfold roundNat; rw [if_pos ha]; exact h
  · have ha' : 2 ^ 53 ≤ a := by omega
    obtain ⟨hs, hsplit, hq, hle, hge, _⟩ := roundNat_parts a ha'
    refine Nat.le_trans ?_ hge
    have hspos : 0 < 2 ^ (bitLength a a - 53) := Nat.two_pow_pos _
    have hbig : 2 ^ 52 * 2 ^ (bitLength a a - 53) ≤
        a / 2 ^ (bitLength a a - 53) * 2 ^ (bitLength a a - 53) :=
      Nat.mul_le_mul_right _ hq
    by_cases hg53 : g < 2 ^ 53
    · have h2 : 2 ^ 1 ≤ 2 ^ (bitLength a a - 53) := Nat.pow_le_pow_right (by decide) hs
      have h3 : 2 ^ 52 * 2 ^ 1 ≤ 2 ^ 52 * 2 ^ (bitLength a a - 53) :=
        Nat.mul_le_mul_left _ h2
      have h4 : (2 : Nat) ^ 52 * 2 ^ 1 = 2 ^ 53 := by decide
      omega
    · have hg' : 2 ^ 53 ≤ g := by omega
      have hdvd := roundNat_fixed g hg hg'
      have hmono := bitLength_mono g a (by omega) h
      obtain ⟨_, _, hghi⟩ := bitLength_spec g g (Nat.le_refl _) (by omega)
      by_cases heq : bitLength g g = bitLength a a
      · rw [heq] at hdvd
        obtain ⟨k, hk⟩ := hdvd
        rw [hk, Nat.mul_comm (2 ^ (bitLength a a - 53)) k]
        apply Nat.mul_le_mul_right
        rw [Nat.le_div_iff_mul_le hspos, Nat.mul_comm, ← hk]
        exact h
      · have hlt : bitLength g g ≤ bitLength a a - 1 := by omega
        have hp : 2 ^ bitLength g g ≤ 2 ^ (bitLength a a - 1) :=
          Nat.pow_le_pow_right (by decide) hlt
        rw [hsplit] at hp
        omega

/-- Rounding never carries a value across a `double`: an exact value that is at most a
`double` rounds to at most that `double`. -/
theorem roundToDouble_le_of_le (x g : Int) (hg : IsDouble g) (h : x ≤ g) :
    roundToDouble x ≤ g := by
  unfold IsDouble at hg
  by_cases hx : x < 0
  · by_cases hg0 : g < 0
    · have hgn : roundNat g.natAbs = g.natAbs := by
        unfold roundToDouble at hg
        rw [if_pos hg0] at hg
        omega
      have hle := le_roundNat_of_le x.natAbs g.natAbs hgn (by omega)
      unfold roundToDouble
      rw [if_pos hx]
      omega
    · unfold roundToDouble
      rw [if_pos hx]
      omega
  · have hg0 : ¬ g < 0 := by omega
    have hgn : roundNat g.natAbs = g.natAbs := by
      unfold roundToDouble at hg
      rw [if_neg hg0] at hg
      omega
    have hle := roundNat_le_of_le x.natAbs g.natAbs hgn (by omega)
    unfold roundToDouble
    rw [if_neg hx]
    omega

/-! ## Reachable buffers, forced flush and break runs -/

theorem init_get (d : BusDirection) :
    CaptureState.init.buffers.get (DirectionIndex d) = { bytes := [], last_time := none } := by
  cases d <;> rfl

/-- Every buffer reached by the ingest loop is settled and records the time of its last
byte; its bytes are a suffix of the events of its direction. -/
theorem ingestLoop_buffer (gap : Int) (pre : List CsvByte) (d : BusDirection) :
    Settled ((ingestLoop gap pre CaptureState.init).buffers.get (DirectionIndex d)).bytes ∧
      LastTimeOK ((ingestLoop gap pre CaptureState.init).buffers.get (DirectionIndex d)) ∧
      ∃ parts, partsBytes parts ++
        ((ingestLoop gap pre CaptureState.init).buffers.get (DirectionIndex d)).bytes =
          eventsDir d pre := by
  rw [(ingestLoop_dir gap d pre CaptureState.init).1, init_get]
  obtain ⟨h1, _, h3, h4⟩ := runParts_spec gap (eventsDir d pre) { bytes := [], last_time := none }
  refine ⟨h3 (Or.inl rfl), h4 ?_, _, h1⟩
  intro l hl
  simp at hl

theorem drainSpec_true_incomplete (x : List CsvByte) (h0 : x ≠ []) (hi : Incomplete x) :
    drainSpec true x = ([(FrameType.Raw, x)], []) := by
  rw [drainSpec_incomplete true x h0 hi.1 hi.2]; rfl

theorem drainSpec_false_settled (x : List CsvByte) (h : Settled x) :
    drainSpec false x = ([], x) := by
  rcases h with h | h
  · subst h; exact drainSpec_nil false
  · by_cases h0 : x = []
    · subst h0; exact drainSpec_nil false
    · rw [drainSpec_incomplete false x h0 h.1 h.2]; rfl

theorem gapExceeded_of_last (gap : Int) (b : PendingBuffer) (e l : CsvByte)
    (hok : LastTimeOK b) (hl : b.bytes.getLast? = some l)
    (hgap : doubleSub e.time l.time > gap) :
    gapExceeded gap b e = true := by
  have hne : b.bytes ≠ [] := by
    intro h0; rw [h0] at hl; simp at hl
  unfold gapExceeded
  rw [hok l hl]
  simp [hgap, hne]

theorem gapExceeded_nil (gap : Int) (b : PendingBuffer) (e : CsvByte) (h : b.bytes = []) :
    gapExceeded gap b e = false := by
  unfold gapExceeded
  cases b.last_time <;> simp [h]

theorem stepParts_flush (gap : Int) (b : PendingBuffer) (e : CsvByte)
    (h : b.bytes = [] ∨ gapExceeded gap b e = true) :
    stepParts gap b e =
      ({ bytes := (drainSpec false [e]).2, last_time := some e.time },
        (drainSpec true b.bytes).1 ++ (drainSpec false [e]).1) := by
  unfold stepParts
  rcases h with h | h
  · rw [gapExceeded_nil gap b e h, h, drainSpec_nil]
    simp
  · have h2 := (drainSpec_spec true b.bytes).2.2.1 rfl
    simp only [h, if_true, h2, List.nil_append]

theorem stepParts_nogap (gap : Int) (b : PendingBuffer) (e : CsvByte)
    (h : gapExceeded gap b e = false) :
    stepParts gap b e =
      ({ bytes := (drainSpec false (b.bytes ++ [e])).2, last_time := some e.time },
        (drainSpec false (b.bytes ++ [e])).1) := by
  unfold stepParts
  rw [h]
  simp

theorem runParts_append (gap : Int) (xs ys : List CsvByte) (b : PendingBuffer) :
    runParts gap (xs ++ ys) b =
      ((runParts gap ys (runParts gap xs b).1).1,
        (runParts gap xs b).2 ++ (runParts gap ys (runParts gap xs b).1).2) := by
  induction xs generalizing b with
  | nil => simp [runParts]
  | cons e xs ih =>
    rw [List.cons_append]
    simp only [runParts]
    rw [ih]
    simp only [List.append_assoc]

theorem runParts_of_empty (gap : Int) (es : List CsvByte) (b : PendingBuffer)
    (h : b.bytes = []) :
    (runParts gap es b).2 = (runParts gap es { bytes := [], last_time := none }).2 ∧
      (runParts gap es b).1.bytes =
        (runParts gap es { bytes := [], last_time := none }).1.bytes := by
  cases es with
  | nil => simp [runParts, h]
  | cons e es =>
    have h1 := stepParts_flush gap b e (Or.inl h)
    have h2 := stepParts_flush gap { bytes := [], last_time := none } e (Or.inl rfl)
    simp only [runParts, h1, h2, h]
    exact ⟨trivial, trivial⟩

theorem settled_of_short (x : List CsvByte) (h : x.length < 4) : Settled x :=
  Or.inr ⟨fun hb => absurd hb.1 (by omega), Or.inl (by omega)⟩

theorem gapExceeded_of_not_gt (gap : Int) (bytes : List CsvByte) (t : Int) (e : CsvByte)
    (h : ¬ doubleSub e.time t > gap) :
    gapExceeded gap { bytes := bytes, last_time := some t } e = false := by
  unfold gapExceeded
  simp only [decide_eq_false_iff_not, not_and]
  intro h'
  exact absurd h' h

theorem gapExceeded_of_le (gap : Int) (hgap : IsDouble gap) (bytes : List CsvByte) (t : Int)
    (e : CsvByte) (h : e.time - t ≤ gap) :
    gapExceeded gap { bytes := bytes, last_time := some t } e = false := by
  apply gapExceeded_of_not_gt
  have := roundToDouble_le_of_le (e.time - t) gap hgap h
  unfold doubleSub
  omega

theorem drainSpec_break_run (e1 e2 e3 e4 : CsvByte) (h1 : e1.value = 0xFF) (h2 : e2.value = 0xFF)
    (h3 : e3.value = 0x00) (h4 : e4.value = 0x00) :
    drainSpec false [e1, e2, e3, e4] = ([(FrameType.Break, [e1, e2, e3, e4])], []) := by
  have hb : startsWithBreak [e1, e2, e3, e4] := by
    unfold startsWithBreak
    simp [h1, h2, h3, h4]
  rw [drainSpec_break false _ (by simp) hb]
  simp [drainSpec_nil]

/-- The runs cut off for one direction when a break marker arrives as a contiguous run after
a gap: those cut off for the events before it alone, the break marker as one Break run, and
those cut off for the events after it alone. -/
theorem dirParts_break (gap : Int) (P Q : List CsvByte) (e1 e2 e3 e4 : CsvByte)
    (h1 : e1.value = 0xFF) (h2 : e2.value = 0xFF) (h3 : e3.value = 0x00) (h4 : e4.value = 0x00)
    (g12 : e2.time - e1.time ≤ gap) (g23 : e3.time - e2.time ≤ gap)
    (g34 : e4.time - e3.time ≤ gap) (hgap : IsDouble gap)
    (hbefore : ∀ l, P.getLast? = some l → doubleSub e1.time l.time > gap) :
    dirParts gap (P ++ [e1, e2, e3, e4] ++ Q) =
      dirParts gap P ++ [(FrameType.Break, [e1, e2, e3, e4])] ++ dirParts gap Q := by
  obtain ⟨hP1, _, hP3, hP4⟩ := runParts_spec gap P { bytes := [], last_time := none }
  have hok : LastTimeOK (runParts gap P { bytes := [], last_time := none }).1 :=
    hP4 (by intro l hl; simp at hl)
  have hflush : (runParts gap P { bytes := [], last_time := none }).1.bytes = [] ∨
      gapExceeded gap (runParts gap P { bytes := [], last_time := none }).1 e1 = true := by
    by_cases h0 : (runParts gap P { bytes := [], last_time := none }).1.bytes = []
    · exact Or.inl h0
    · right
      obtain ⟨l, hl⟩ : ∃ l, (runParts gap P { bytes := [], last_time := none }).1.bytes.getLast?
          = some l := by
        cases hc : (runParts gap P { bytes := [], last_time := none }).1.bytes.getLast? with
        | none => exact absurd (List.getLast?_eq_none_iff.mp hc) h0
        | some l => exact ⟨l, rfl⟩
      have hPl : P.getLast? = some l := by
        have := congrArg List.getLast? hP1
        rw [List.getLast?_append, hl] at this
        simpa using this.symm
      exact gapExceeded_of_last gap _ e1 l hok hl (hbefore l hPl)
  have s1 := stepParts_flush gap _ e1 hflush
  rw [drainSpec_false_settled [e1] (settled_of_short _ (by simp))] at s1
  have s2 := stepParts_nogap gap { bytes := [e1], last_time := some e1.time } e2
    (gapExceeded_of_le gap hgap _ _ _ g12)
  rw [show ([e1] ++ [e2] : List CsvByte) = [e1, e2] from rfl,
    drainSpec_false_settled [e1, e2] (settled_of_short _ (by simp))] at s2
  have s3 := stepParts_nogap gap { bytes := [e1, e2], last_time := some e2.time } e3
    (gapExceeded_of_le gap hgap _ _ _ g23)
  rw [show ([e1, e2] ++ [e3] : List CsvByte) = [e1, e2, e3] from rfl,
    drainSpec_false_settled [e1, e2, e3] (settled_of_short _ (by simp))] at s3
  have s4 := stepParts_nogap gap { bytes := [e1, e2, e3], last_time := some e3.time } e4
    (gapExceeded_of_le gap hgap _ _ _ g34)
  rw [show ([e1, e2, e3] ++ [e4] : List CsvByte) = [e1, e2, e3, e4] from rfl,
    drainSpec_break_run e1 e2 e3 e4 h1 h2 h3 h4] at s4
  have hrun : runParts gap [e1, e2, e3, e4] (runParts gap P { bytes := [], last_time := none }).1 =
      ({ bytes := [], last_time := some e4.time },
        (drainSpec true (runParts gap P { bytes := [], last_time := none }).1.bytes).1 ++
          [(FrameType.Break, [e1, e2, e3, e4])]) := by
    simp only [runParts, s1, s2, s3, s4, List.append_nil, List.nil_append]
  obtain ⟨hQ1, hQ2⟩ := runParts_of_empty gap Q { bytes := [], last_time := some e4.time } rfl
  unfold dirParts
  rw [runParts_append, runParts_append, hrun]
  simp only [hQ1, hQ2, List.append_assoc]

/-! ## Reassembly claims -/

/-- C6: byte conservation. For every sequence of byte events (time-sorted or not) and every
gap threshold, after the ingest loop and the end-of-file flushes both direction buffers are
empty, and for each direction the bytes of the frames emitted for it, concatenated in emission
order, are exactly the byte values of that direction's events in input order. -/
theorem C6_byte_conservation (gap_threshold : Int) (events : List CsvByte) :
    (reassemble gap_threshold events).buffers.slot0.bytes = [] ∧
      (reassemble gap_threshold events).buffers.slot1.bytes = [] ∧
      ∀ d : BusDirection,
        ((framesDir d (reassemble gap_threshold events).frames).map Frame.bytes).flatten =
          (eventsDir d events).map fun e => e.value := by
  refine ⟨(reassemble_dir gap_threshold BusDirection.Rx events).1,
    (reassemble_dir gap_threshold BusDirection.Tx events).1, ?_⟩
  intro d
  rw [(reassemble_dir gap_threshold d events).2, framesOf_bytes,
    (dirParts_spec gap_threshold (eventsDir d events)).1]
  rfl

theorem mem_framesOf_of_mem (gap : Int) (events : List CsvByte) (f : Frame)
    (hf : f ∈ (reassemble gap events).frames) :
    ∃ p ∈ dirParts gap (eventsDir f.direction events), f = frameOf p.1 f.direction p.2 := by
  have h : f ∈ framesDir f.direction (reassemble gap events).frames := by
    simp [framesDir, hf]
  rw [(reassemble_dir gap f.direction events).2] at h
  obtain ⟨p, hp, heq⟩ := List.mem_map.mp h
  exact ⟨p, hp, heq.symm⟩

/-- C7: every frame of type Packet emitted by the reassembler has exactly 5 + bytes[4] + 2
bytes and passes `ValidateFrame`, so `ParsePacket` returns a packet for it. -/
theorem C7_packet_frames_valid (gap_threshold : Int) (events : List CsvByte) (f : Frame)
    (hf : f ∈ (reassemble gap_threshold events).frames) (ht : f.type = FrameType.Packet) :
    f.bytes.length = 5 + f.bytes.getD 4 0 + 2 ∧ ValidateFrame f.bytes = .ok () ∧
      ∃ p, ParsePacket f.bytes = .ok p := by
  obtain ⟨p, hp, hfp⟩ := mem_framesOf_of_mem gap_threshold events f hf
  have hgood := (dirParts_spec gap_threshold (eventsDir f.direction events)).2 p hp
  have hty : p.1 = FrameType.Packet := by
    rw [hfp] at ht; exact ht
  have hv : ValidateFrame f.bytes = .ok () := by
    rw [hfp]; exact (hgood.2.1 hty).1
  refine ⟨?_, hv, ?_⟩
  · have h := hv
    rw [ValidateFrame_unfold] at h
    split_ifs at h
    omega
  · unfold ParsePacket
    rw [hv]
    exact ⟨_, rfl⟩

theorem C7_packet_frames_valid_witness :
    (⟨.Packet, .Tx, 0, [0, 0, 0, 0, 2, 0xAA, 0xBB, 0xFE, 0x98]⟩ : Frame) ∈
        (reassemble 4
          [⟨.Tx, 0, 0, false⟩, ⟨.Tx, 1, 0, false⟩, ⟨.Tx, 2, 0, false⟩, ⟨.Tx, 3, 0, false⟩,
            ⟨.Tx, 4, 2, false⟩, ⟨.Tx, 5, 0xAA, false⟩, ⟨.Tx, 6, 0xBB, false⟩,
            ⟨.Tx, 7, 0xFE, false⟩, ⟨.Tx, 8, 0x98, false⟩]).frames ∧
      ValidateFrame [0, 0, 0, 0, 2, 0xAA, 0xBB, 0xFE, 0x98] = .ok () :=
  ⟨by decide, (C7_packet_frames_valid 4
    [⟨.Tx, 0, 0, false⟩, ⟨.Tx, 1, 0, false⟩, ⟨.Tx, 2, 0, false⟩, ⟨.Tx, 3, 0, false⟩,
      ⟨.Tx, 4, 2, false⟩, ⟨.Tx, 5, 0xAA, false⟩, ⟨.Tx, 6, 0xBB, false⟩,
      ⟨.Tx, 7, 0xFE, false⟩, ⟨.Tx, 8, 0x98, false⟩]
    ⟨.Packet, .Tx, 0, [0, 0, 0, 0, 2, 0xAA, 0xBB, 0xFE, 0x98]⟩ (by decide) rfl).2.1⟩

set_option maxRecDepth 1000000 in
set_option exponentiation.threshold 2000 in
/-- C8 (as stated, refuted): with gap threshold 4.0 s, a byte 01 at 3.9999999999999996 s
and the run FF FF 00 00 at 8.0 s on the same direction, the run is contiguous and the byte
before it is more than the threshold away (exactly 4 + 2^-51 s); but the `double` difference
that the code computes is 4.0, which does not exceed the threshold, so no flush happens and
all five bytes come out as one Raw frame: no Break frame is emitted. -/
theorem C8_break_detection_counterexample :
    IsDouble seconds4 ∧ IsDouble seconds8 ∧ IsDouble secondsBelow4 ∧
      seconds8 - secondsBelow4 > seconds4 ∧ seconds8 - seconds8 ≤ seconds4 ∧
      doubleSub seconds8 secondsBelow4 = seconds4 ∧
      framesDir .Rx (reassemble seconds4
        [⟨.Rx, secondsBelow4, 0x01, false⟩, ⟨.Rx, seconds8, 0xFF, false⟩,
          ⟨.Rx, seconds8, 0xFF, false⟩, ⟨.Rx, seconds8, 0x00, false⟩,
          ⟨.Rx, seconds8, 0x00, false⟩]).frames =
        [⟨.Raw, .Rx, secondsBelow4, [0x01, 0xFF, 0xFF, 0x00, 0x00]⟩] := by
  refine ⟨by decide, by decide, by decide, by decide, by decide, by decide, by decide⟩

/-- C8 (amended): break detection. When the events of a direction contain the four bytes
FF FF 00 00 as a run whose consecutive bytes are at most `gap_threshold` apart, and for the
last earlier byte of that direction, if any, the time difference to the first FF computed in
`double` arithmetic exceeds `gap_threshold`, the frames of that direction are those emitted
for the earlier events alone, then one Break frame with bytes FF FF 00 00 starting at the
time of the first FF, then those emitted for the later events alone; events of the other
direction may be interleaved anywhere, and no condition on the later bytes is needed. -/
theorem C8_break_detection (gap_threshold : Int) (hdouble : IsDouble gap_threshold)
    (d : BusDirection) (pre run post : List CsvByte) (e1 e2 e3 e4 : CsvByte)
    (hrun : eventsDir d run = [e1, e2, e3, e4])
    (hvalues : e1.value = 0xFF ∧ e2.value = 0xFF ∧ e3.value = 0x00 ∧ e4.value = 0x00)
    (hwithin : e2.time - e1.time ≤ gap_threshold ∧ e3.time - e2.time ≤ gap_threshold ∧
      e4.time - e3.time ≤ gap_threshold)
    (hbefore : ∀ l, (eventsDir d pre).getLast? = some l →
      doubleSub e1.time l.time > gap_threshold) :
    framesDir d (reassemble gap_threshold (pre ++ run ++ post)).frames =
      framesDir d (reassemble gap_threshold pre).frames ++
        [⟨FrameType.Break, d, e1.time, [0xFF, 0xFF, 0x00, 0x00]⟩] ++
        framesDir d (reassemble gap_threshold post).frames := by
  obtain ⟨h1, h2, h3, h4⟩ := hvalues
  obtain ⟨g12, g23, g34⟩ := hwithin
  have hev : eventsDir d (pre ++ run ++ post) =
      eventsDir d pre ++ [e1, e2, e3, e4] ++ eventsDir d post := by
    rw [← hrun]
    simp [eventsDir]
  rw [(reassemble_dir gap_threshold d _).2, (reassemble_dir gap_threshold d pre).2,
    (reassemble_dir gap_threshold d post).2, hev,
    dirParts_break gap_threshold _ _ e1 e2 e3 e4 h1 h2 h3 h4 g12 g23 g34 hdouble hbefore,
    framesOf_append, framesOf_append]
  simp [framesOf, frameOf, csvValues, h1, h2, h3, h4]

theorem C8_break_detection_witness :
    framesDir .Rx (reassemble 4
        ([⟨.Rx, 0, 1, false⟩] ++
          [⟨.Rx, 10, 0xFF, false⟩, ⟨.Tx, 10, 5, false⟩, ⟨.Rx, 11, 0xFF, false⟩,
            ⟨.Rx, 12, 0, false⟩, ⟨.Rx, 13, 0, false⟩] ++
          [⟨.Rx, 20, 9, false⟩])).frames =
      framesDir .Rx (reassemble 4 [⟨.Rx, 0, 1, false⟩]).frames ++
        [⟨FrameType.Break, .Rx, 10, [0xFF, 0xFF, 0x00, 0x00]⟩] ++
        framesDir .Rx (reassemble 4 [⟨.Rx, 20, 9, false⟩]).frames :=
  C8_break_detection 4 (by decide) .Rx [⟨.Rx, 0, 1, false⟩]
    [⟨.Rx, 10, 0xFF, false⟩, ⟨.Tx, 10, 5, false⟩, ⟨.Rx, 11, 0xFF, false⟩,
      ⟨.Rx, 12, 0, false⟩, ⟨.Rx, 13, 0, false⟩]
    [⟨.Rx, 20, 9, false⟩]
    ⟨.Rx, 10, 0xFF, false⟩ ⟨.Rx, 11, 0xFF, false⟩ ⟨.Rx, 12, 0, false⟩ ⟨.Rx, 13, 0, false⟩
    (by decide) (by decide) (by decide)
    (by
      intro l hl
      have hl' : l = ⟨.Rx, 0, 1, false⟩ := by
        have h : (eventsDir .Rx [⟨.Rx, 0, 1, false⟩]).getLast? = some ⟨.Rx, 0, 1, false⟩ := by
          decide
        rw [h] at hl
        exact (Option.some.inj hl).symm
      subst hl'
      decide)

set_option maxRecDepth 1000000 in
set_option exponentiation.threshold 2000 in
/-- C9 (as stated, refuted): with gap threshold 4.0 s, after a byte 01 at
3.9999999999999996 s the buffer of the direction holds that byte; a byte 02 arriving at 8.0 s
is more than the threshold later (exactly 4 + 2^-51 s), but the `double` difference that the
code computes is 4.0, which does not exceed the threshold: the forced flush is not run,
nothing is emitted, the arriving byte is appended behind the pending one, and the two bytes
end up in one Raw frame. -/
theorem C9_gap_forced_flush_counterexample :
    IsDouble seconds4 ∧ IsDouble seconds8 ∧ IsDouble secondsBelow4 ∧
      ((ingestLoop seconds4 [⟨.Rx, secondsBelow4, 0x01, false⟩] CaptureState.init).buffers.get
        (DirectionIndex .Rx)).bytes = [⟨.Rx, secondsBelow4, 0x01, false⟩] ∧
      seconds8 - secondsBelow4 > seconds4 ∧
      gapFlush seconds4
          ((ingestLoop seconds4 [⟨.Rx, secondsBelow4, 0x01, false⟩] CaptureState.init).buffers.get
            (DirectionIndex .Rx))
          ⟨.Rx, seconds8, 0x02, false⟩
          (ingestLoop seconds4 [⟨.Rx, secondsBelow4, 0x01, false⟩] CaptureState.init).frames =
        (⟨[⟨.Rx, secondsBelow4, 0x01, false⟩], some secondsBelow4⟩, []) ∧
      ((ingestEvent seconds4
          (ingestLoop seconds4 [⟨.Rx, secondsBelow4, 0x01, false⟩] CaptureState.init)
          ⟨.Rx, seconds8, 0x02, false⟩).buffers.get (DirectionIndex .Rx)).bytes =
        [⟨.Rx, secondsBelow4, 0x01, false⟩, ⟨.Rx, seconds8, 0x02, false⟩] ∧
      (reassemble seconds4
          [⟨.Rx, secondsBelow4, 0x01, false⟩, ⟨.Rx, seconds8, 0x02, false⟩]).frames =
        [⟨.Raw, .Rx, secondsBelow4, [0x01, 0x02]⟩] := by
  refine ⟨by decide, by decide, by decide, by decide, by decide, by decide, by decide,
    by decide⟩

/-- C9 (amended): gap-triggered forced flush. At every point of the ingest loop, when an
event arrives on a direction whose pending buffer is not empty and the time of the event
minus the time of the last buffered byte, computed in `double` arithmetic, exceeds
`gap_threshold`, the forced flush is run, it emits exactly one frame, of
type Raw, holding the whole pending buffer in order and starting at the time of its first
byte, and it empties the buffer; the non-final drain that follows therefore runs on a buffer
whose only byte is the arriving event. -/
theorem C9_gap_forced_flush (gap_threshold : Int) (pre : List CsvByte) (e : CsvByte)
    (st : CaptureState) (hst : st = ingestLoop gap_threshold pre CaptureState.init)
    (first : CsvByte) (rest : List CsvByte)
    (hbuf : (st.buffers.get (DirectionIndex e.direction)).bytes = first :: rest)
    (hgap : doubleSub e.time ((first :: rest).getLast (List.cons_ne_nil first rest)).time >
      gap_threshold) :
    gapFlush gap_threshold (st.buffers.get (DirectionIndex e.direction)) e st.frames =
        ParseAvailable (st.buffers.get (DirectionIndex e.direction)) e.direction st.frames true ∧
      ParseAvailable (st.buffers.get (DirectionIndex e.direction)) e.direction st.frames true =
        ({ bytes := [], last_time := (st.buffers.get (DirectionIndex e.direction)).last_time },
          st.frames ++
            [⟨FrameType.Raw, e.direction, first.time, (first :: rest).map fun x => x.value⟩]) ∧
      ingestEvent gap_threshold st e =
        { buffers := st.buffers.set (DirectionIndex e.direction)
            (ParseAvailable { bytes := [e], last_time := some e.time } e.direction
              (st.frames ++
                [⟨FrameType.Raw, e.direction, first.time, (first :: rest).map fun x => x.value⟩])
              false).1,
          frames :=
            (ParseAvailable { bytes := [e], last_time := some e.time } e.direction
              (st.frames ++
                [⟨FrameType.Raw, e.direction, first.time, (first :: rest).map fun x => x.value⟩])
              false).2 } := by
  obtain ⟨hsettled, hok, _⟩ := ingestLoop_buffer gap_threshold pre e.direction
  rw [← hst] at hsettled hok
  have hne : (st.buffers.get (DirectionIndex e.direction)).bytes ≠ [] := by
    rw [hbuf]; exact List.cons_ne_nil _ _
  have hinc : Incomplete (st.buffers.get (DirectionIndex e.direction)).bytes := by
    rcases hsettled with h | h
    · exact absurd h hne
    · exact h
  have hlast : (st.buffers.get (DirectionIndex e.direction)).bytes.getLast? =
      some ((first :: rest).getLast (List.cons_ne_nil first rest)) := by
    rw [hbuf, List.getLast?_eq_getLast _ (List.cons_ne_nil first rest)]
  have hg := gapExceeded_of_last gap_threshold _ e _ hok hlast hgap
  have hflush : gapFlush gap_threshold (st.buffers.get (DirectionIndex e.direction)) e st.frames =
      ParseAvailable (st.buffers.get (DirectionIndex e.direction)) e.direction st.frames true := by
    rw [gapFlush_eq, hg, if_pos rfl]
  have hpa : ParseAvailable (st.buffers.get (DirectionIndex e.direction)) e.direction st.frames
      true =
      ({ bytes := [], last_time := (st.buffers.get (DirectionIndex e.direction)).last_time },
        st.frames ++
          [⟨FrameType.Raw, e.direction, first.time, (first :: rest).map fun x => x.value⟩]) := by
    rw [ParseAvailable_eq, drainSpec_true_incomplete _ hne hinc, hbuf]
    rfl
  refine ⟨hflush, hpa, ?_⟩
  unfold ingestEvent
  simp only [hflush, hpa, List.nil_append]

theorem C9_gap_forced_flush_witness :
    ParseAvailable
        ((ingestLoop 4 [⟨.Rx, 0, 1, false⟩, ⟨.Rx, 1, 2, false⟩] CaptureState.init).buffers.get
          (DirectionIndex BusDirection.Rx))
        BusDirection.Rx
        (ingestLoop 4 [⟨.Rx, 0, 1, false⟩, ⟨.Rx, 1, 2, false⟩] CaptureState.init).frames true =
      ({ bytes := [],
         last_time :=
          ((ingestLoop 4 [⟨.Rx, 0, 1, false⟩, ⟨.Rx, 1, 2, false⟩]
            CaptureState.init).buffers.get (DirectionIndex BusDirection.Rx)).last_time },
        (ingestLoop 4 [⟨.Rx, 0, 1, false⟩, ⟨.Rx, 1, 2, false⟩] CaptureState.init).frames ++
          [⟨FrameType.Raw, .Rx, 0, [1, 2]⟩]) :=
  (C9_gap_forced_flush 4 [⟨.Rx, 0, 1, false⟩, ⟨.Rx, 1, 2, false⟩] ⟨.Rx, 9, 3, false⟩
    (ingestLoop 4 [⟨.Rx, 0, 1, false⟩, ⟨.Rx, 1, 2, false⟩] CaptureState.init) rfl
    ⟨.Rx, 0, 1, false⟩ [⟨.Rx, 1, 2, false⟩] (by decide) (by decide)).2.1

/-- C10 (as stated, refuted): seven zero bytes on one direction, the first two with the same
timestamp, are time-sorted input; the reassembler emits the first byte as a Raw frame and the
other six as a second Raw frame, and both frames start at time 0. -/
theorem C10_start_time_counterexample :
    List.Sorted (· ≤ ·)
        ([⟨.Rx, 0, 0, false⟩, ⟨.Rx, 0, 0, false⟩, ⟨.Rx, 1, 0, false⟩, ⟨.Rx, 2, 0, false⟩,
          ⟨.Rx, 3, 0, false⟩, ⟨.Rx, 4, 0, false⟩, ⟨.Rx, 5, 0, false⟩].map CsvByte.time) ∧
      framesDir .Rx (reassemble 4
        [⟨.Rx, 0, 0, false⟩, ⟨.Rx, 0, 0, false⟩, ⟨.Rx, 1, 0, false⟩, ⟨.Rx, 2, 0, false⟩,
          ⟨.Rx, 3, 0, false⟩, ⟨.Rx, 4, 0, false⟩, ⟨.Rx, 5, 0, false⟩]).frames =
        [⟨.Raw, .Rx, 0, [0]⟩, ⟨.Raw, .Rx, 0, [0, 0, 0, 0, 0, 0]⟩] ∧
      ¬ List.Sorted (· < ·)
        ((framesDir .Rx (reassemble 4
          [⟨.Rx, 0, 0, false⟩, ⟨.Rx, 0, 0, false⟩, ⟨.Rx, 1, 0, false⟩, ⟨.Rx, 2, 0, false⟩,
            ⟨.Rx, 3, 0, false⟩, ⟨.Rx, 4, 0, false⟩, ⟨.Rx, 5, 0, false⟩]).frames).map
          Frame.start_time) := by
  refine ⟨by decide, by decide, by decide⟩

/-- C10 (amended): for every time-sorted event sequence and every gap threshold, the frames
emitted for one direction have non-decreasing start_time in emission order, and strictly
increasing start_time whenever the timestamps of that direction's events are strictly
increasing. -/
theorem C10_start_time_order (gap_threshold : Int) (events : List CsvByte) (d : BusDirection)
    (hsorted : List.Sorted (· ≤ ·) (events.map CsvByte.time)) :
    List.Sorted (· ≤ ·)
        ((framesDir d (reassemble gap_threshold events).frames).map Frame.start_time) ∧
      (List.Sorted (· < ·) ((eventsDir d events).map CsvByte.time) →
        List.Sorted (· < ·)
          ((framesDir d (reassemble gap_threshold events).frames).map Frame.start_time)) := by
  obtain ⟨hbytes, hgood⟩ := dirParts_spec gap_threshold (eventsDir d events)
  have hsub := framesOf_start_sublist d (dirParts gap_threshold (eventsDir d events))
    fun p hp => (hgood p hp).1
  rw [hbytes] at hsub
  rw [(reassemble_dir gap_threshold d events).2]
  constructor
  · have hd : ((eventsDir d events).map CsvByte.time).Sublist (events.map CsvByte.time) :=
      (List.filter_sublist _).map _
    exact List.Pairwise.sublist (hsub.trans hd) hsorted
  · intro hstrict
    exact List.Pairwise.sublist hsub hstrict

theorem C10_start_time_order_witness :
    List.Sorted (· ≤ ·)
        ([⟨.Rx, 0, 0, false⟩, ⟨.Tx, 0, 7, false⟩, ⟨.Rx, 9, 1, false⟩].map CsvByte.time) ∧
      List.Sorted (· ≤ ·)
        ((framesDir .Rx (reassemble 4
          [⟨.Rx, 0, 0, false⟩, ⟨.Tx, 0, 7, false⟩, ⟨.Rx, 9, 1, false⟩]).frames).map
          Frame.start_time) :=
  ⟨by decide, (C10_start_time_order 4
    [⟨.Rx, 0, 0, false⟩, ⟨.Tx, 0, 7, false⟩, ⟨.Rx, 9, 1, false⟩] .Rx (by decide)).1⟩

/-! ## The two stable sorts of `LoadCapture` -/

theorem orderedInsert_of_forall_le {α : Type} (r : α → α → Prop) [DecidableRel r] (a : α)
    (l : List α) (h : ∀ c ∈ l, r a c) : l.orderedInsert r a = a :: l := by
  cases l with
  | nil => rfl
  | cons c l => exact List.orderedInsert_of_le r l (h c (List.mem_cons_self _ _))

theorem filter_orderedInsert_neg {α : Type} (r : α → α → Prop) [DecidableRel r] (p : α → Bool)
    (a : α) (l : List α) (hp : p a = false) :
    (l.orderedInsert r a).filter p = l.filter p := by
  induction l with
  | nil => simp [hp]
  | cons b l ih =>
    by_cases hab : r a b
    · rw [List.orderedInsert_of_le r l hab, List.filter_cons_of_neg (by simp [hp])]
    · simp only [List.orderedInsert, if_neg hab, List.filter_cons, ih]

theorem filter_orderedInsert_pos {α : Type} (r : α → α → Prop) [DecidableRel r] [IsTrans α r]
    (p : α → Bool) (a : α) (l : List α) (hs : l.Sorted r) (hp : p a = true) :
    (l.orderedInsert r a).filter p = (l.filter p).orderedInsert r a := by
  induction l with
  | nil => simp [hp]
  | cons b l ih =>
    have hs' : ∀ c ∈ l, r b c := fun c hc => List.rel_of_sorted_cons hs c hc
    by_cases hab : r a b
    · rw [List.orderedInsert_of_le r l hab, List.filter_cons_of_pos hp]
      rw [orderedInsert_of_forall_le r a ((b :: l).filter p)]
      intro c hc
      rcases List.mem_cons.mp (List.mem_of_mem_filter hc) with rfl | hcl
      · exact hab
      · exact IsTrans.trans a b c hab (hs' c hcl)
    · simp only [List.orderedInsert, if_neg hab, List.filter_cons]
      rw [ih hs.of_cons]
      by_cases hpb : p b = true
      · simp only [hpb, if_true, List.orderedInsert, if_neg hab]
      · simp only [hpb]
        rfl

/-- Stable sorting commutes with filtering. -/
theorem filter_insertionSort {α : Type} (r : α → α → Prop) [DecidableRel r] [IsTotal α r]
    [IsTrans α r] (p : α → Bool) (l : List α) :
    (l.insertionSort r).filter p = (l.filter p).insertionSort r := by
  induction l with
  | nil => rfl
  | cons a l ih =>
    rw [List.insertionSort]
    by_cases hp : p a = true
    · rw [filter_orderedInsert_pos r p a _ (List.sorted_insertionSort r l) hp, ih,
        List.filter_cons_of_pos hp, List.insertionSort]
    · have hp' : p a = false := by simpa using hp
      rw [filter_orderedInsert_neg r p a _ hp', ih, List.filter_cons_of_neg hp]

theorem sorted_events_time (events : List CsvByte) :
    List.Sorted (· ≤ ·) ((events.insertionSort fun a b => a.time ≤ b.time).map CsvByte.time) := by
  have h := List.sorted_insertionSort (fun a b : CsvByte => a.time ≤ b.time) events
  exact List.pairwise_map.mpr h

/-- The start times of the frames of a direction, in emission order, are a subsequence of the
timestamps of the events of that direction. -/
theorem start_times_sublist (gap : Int) (d : BusDirection) (events : List CsvByte) :
    ((framesDir d (reassemble gap events).frames).map Frame.start_time).Sublist
      ((eventsDir d events).map CsvByte.time) := by
  obtain ⟨hbytes, hgood⟩ := dirParts_spec gap (eventsDir d events)
  have hsub := framesOf_start_sublist d (dirParts gap (eventsDir d events))
    fun p hp => (hgood p hp).1
  rw [hbytes] at hsub
  rw [(reassemble_dir gap d events).2]
  exact hsub

/-- The frames of a direction returned by `LoadCapture` are, in order, the frames emitted for
that direction. -/
theorem LoadCapture_dir (events : List CsvByte) (gap : Int) (d : BusDirection) :
    framesDir d (LoadCapture events gap) =
      framesDir d
        (reassemble gap (events.insertionSort fun a b => a.time ≤ b.time)).frames := by
  have hsub := start_times_sublist gap d (events.insertionSort fun a b => a.time ≤ b.time)
  have hev : ((eventsDir d (events.insertionSort fun a b => a.time ≤ b.time)).map
      CsvByte.time).Sublist
      ((events.insertionSort fun a b => a.time ≤ b.time).map CsvByte.time) :=
    (List.filter_sublist _).map _
  have hsorted : List.Pairwise (fun a b : Frame => a.start_time ≤ b.start_time)
      (framesDir d (reassemble gap (events.insertionSort fun a b => a.time ≤ b.time)).frames) :=
    List.pairwise_map.mp (List.Pairwise.sublist (hsub.trans hev) (sorted_events_time events))
  have hc : (framesDir d
      (reassemble gap (events.insertionSort fun a b => a.time ≤ b.time)).frames).Sublist
      (LoadCapture events gap) :=
    List.sublist_insertionSort hsorted (List.filter_sublist _)
  have hc' := hc.filter fun f => decide (f.direction = d)
  have hidem : (framesDir d
      (reassemble gap (events.insertionSort fun a b => a.time ≤ b.time)).frames).filter
      (fun f => decide (f.direction = d)) =
      framesDir d (reassemble gap (events.insertionSort fun a b => a.time ≤ b.time)).frames := by
    unfold framesDir
    rw [List.filter_filter]
    simp
  rw [hidem] at hc'
  have hperm : (framesDir d (LoadCapture events gap)).length =
      (framesDir d
        (reassemble gap (events.insertionSort fun a b => a.time ≤ b.time)).frames).length :=
    ((List.perm_insertionSort _ _).filter _).length_eq
  exact (hc'.eq_of_length hperm.symm).symm

/-- C11: the frame sequence returned by `LoadCapture` is sorted by non-decreasing start_time,
and for each direction the returned frames of that direction are, in order, exactly the frames
emitted for that direction: the final stable sort never swaps two frames of one direction. -/
theorem C11_merged_output_order (events : List CsvByte) (gap_threshold : Int) :
    List.Sorted (· ≤ ·) ((LoadCapture events gap_threshold).map Frame.start_time) ∧
      ∀ d : BusDirection,
        framesDir d (LoadCapture events gap_threshold) =
          framesDir d
            (reassemble gap_threshold
              (events.insertionSort fun a b => a.time ≤ b.time)).frames := by
  refine ⟨?_, fun d => LoadCapture_dir events gap_threshold d⟩
  exact List.pairwise_map.mpr
    (List.sorted_insertionSort (fun a b : Frame => a.start_time ≤ b.start_time) _)

/-- C12: direction independence. For every gap threshold, two event sequences that contain
the same events of direction `d` in the same order give the same frames of direction `d` in
the output of `LoadCapture`, whatever their events of the other direction are. -/
theorem C12_direction_independence (gap_threshold : Int) (d : BusDirection)
    (events1 events2 : List CsvByte) (h : eventsDir d events1 = eventsDir d events2) :
    framesDir d (LoadCapture events1 gap_threshold) =
      framesDir d (LoadCapture events2 gap_threshold) := by
  have key : ∀ events : List CsvByte,
      eventsDir d (events.insertionSort fun a b => a.time ≤ b.time) =
        (eventsDir d events).insertionSort fun a b => a.time ≤ b.time := fun events =>
    filter_insertionSort (fun a b : CsvByte => a.time ≤ b.time) _ events
  rw [LoadCapture_dir, LoadCapture_dir, (reassemble_dir gap_threshold d _).2,
    (reassemble_dir gap_threshold d _).2, key, key, h]

theorem C12_direction_independence_witness :
    eventsDir .Rx [⟨.Rx, 0, 1, false⟩, ⟨.Tx, 1, 7, false⟩, ⟨.Rx, 2, 2, false⟩] =
        eventsDir .Rx [⟨.Tx, 5, 9, false⟩, ⟨.Rx, 0, 1, false⟩, ⟨.Rx, 2, 2, false⟩] ∧
      framesDir .Rx
          (LoadCapture [⟨.Rx, 0, 1, false⟩, ⟨.Tx, 1, 7, false⟩, ⟨.Rx, 2, 2, false⟩] 4) =
        framesDir .Rx
          (LoadCapture [⟨.Tx, 5, 9, false⟩, ⟨.Rx, 0, 1, false⟩, ⟨.Rx, 2, 2, false⟩] 4) :=
  ⟨by decide, C12_direction_independence 4 .Rx
    [⟨.Rx, 0, 1, false⟩, ⟨.Tx, 1, 7, false⟩, ⟨.Rx, 2, 2, false⟩]
    [⟨.Tx, 5, 9, false⟩, ⟨.Rx, 0, 1, false⟩, ⟨.Rx, 2, 2, false⟩] (by decide)⟩

/-! ## The strided `for` loop of the decoders -/

/-- Any fuel that is at least the distance to the bound gives the same result: the unrolled
loop never stops for lack of fuel. -/
theorem forLoop_fuel {σ : Type} (n step : Nat) (hstep : 0 < step) (body : Nat → σ → σ)
    (fuel1 fuel2 i : Nat) (s : σ) (h1 : n - i ≤ fuel1) (h2 : n - i ≤ fuel2) :
    forLoop n step body fuel1 i s = forLoop n step body fuel2 i s := by
  induction fuel1 generalizing fuel2 i s with
  | zero =>
    have hle : ¬ i < n := by omega
    cases fuel2 with
    | zero => rfl
    | succ m => simp only [forLoop, if_neg hle]
  | succ k ih =>
    cases fuel2 with
    | zero =>
      have hle : ¬ i < n := by omega
      simp only [forLoop, if_neg hle]
    | succ m =>
      simp only [forLoop]
      split
      · exact ih m (i + step) (body i s) (by omega) (by omega)
      · rfl

theorem count_step (m step : Nat) (hstep : 0 < step) (hm : 0 < m) :
    (m + (step - 1)) / step = (m - step + (step - 1)) / step + 1 := by
  by_cases h : step ≤ m
  · have e : m + (step - 1) = (m - step + (step - 1)) + step := by omega
    rw [e, Nat.add_div_right _ hstep]
  · have e1 : m - step + (step - 1) = step - 1 := by omega
    have e2 : m + (step - 1) = (m - 1) + step := by omega
    rw [e1, e2, Nat.add_div_right _ hstep, Nat.div_eq_of_lt (by omega),
      Nat.div_eq_of_lt (by omega)]

/-- A loop that appends one item per pass collects the items of the indices
`i, i + step, i + 2 * step, ...` below the bound, in order. -/
theorem forLoop_append {β : Type} (g : Nat → β) (n step : Nat) (hstep : 0 < step)
    (fuel i : Nat) (s : List β) (h : n - i ≤ fuel) :
    forLoop n step (fun j acc => acc ++ [g j]) fuel i s =
      s ++ (List.range ((n - i + (step - 1)) / step)).map fun k => g (i + step * k) := by
  induction fuel generalizing i s with
  | zero =>
    have h0 : n - i = 0 := by omega
    rw [h0, Nat.zero_add, Nat.div_eq_of_lt (by omega)]
    simp [forLoop]
  | succ k ih =>
    simp only [forLoop]
    split
    · rename_i hlt
      rw [ih (i + step) (s ++ [g i]) (by omega), count_step (n - i) step hstep (by omega),
        show n - (i + step) = n - i - step by omega, List.range_succ_eq_map, List.map_cons,
        List.map_map, List.append_assoc]
      congr 1
      rw [List.singleton_append]
      congr 1
      apply List.map_congr_left
      intro a _
      simp only [Function.comp, Nat.succ_eq_add_one]
      congr 1
      rw [Nat.mul_add, Nat.mul_one]
      omega
    · rename_i hge
      have h0 : n - i = 0 := by omega
      rw [h0, Nat.zero_add, Nat.div_eq_of_lt (by omega)]
      simp

theorem readUint16At_eq (payload : List Nat) (hp : IsBytes payload) (i : Nat) :
    readUint16At payload i = payload.getD i 0 * 256 + payload.getD (i + 1) 0 := by
  unfold readUint16At
  have h1 := hp.getD_lt i
  have h2 := hp.getD_lt (i + 1)
  rw [shiftLeft_or_of_lt _ _ 8 (by simpa using h2)]
  omega

theorem IsWriteCommand_iff (c : Nat) :
    IsWriteCommand c = true ↔ c = 2 ∨ c = 4 ∨ c = 5 := by
  unfold IsWriteCommand CommandId.kSetpoint CommandId.kControlRegister CommandId.kBulkWrite
  split_ifs <;> simp_all

/-! ## Message decoder claims -/

theorem DecodeReadRequest_unfold (packet : Packet) :
    DecodeReadRequest packet =
      if packet.command_id = 3 ∧ packet.payload ≠ [] ∧ packet.payload.length % 2 = 0 then
        some
          { addresses :=
              forLoop packet.payload.length 2
                (fun i addresses => addresses ++ [readUint16At packet.payload i])
                packet.payload.length 0 [] }
      else none := by
  unfold DecodeReadRequest CommandId.kReadRegisters
  split_ifs <;> simp_all

/-- C13: `DecodeReadRequest` returns a result iff the command id is ReadRegisters (3) and
the payload is non-empty of even length n; the result then has exactly n/2 addresses, the
i-th being payload[2i]*256 + payload[2i+1], in payload order; command id 3 with payload
10 00 decodes to the single address 0x1000. -/
theorem C13_DecodeReadRequest (packet : Packet) (hp : IsBytes packet.payload) :
    ((∃ r, DecodeReadRequest packet = some r) ↔
        packet.command_id = 3 ∧ packet.payload ≠ [] ∧ packet.payload.length % 2 = 0) ∧
      (∀ r, DecodeReadRequest packet = some r →
        r.addresses.length = packet.payload.length / 2 ∧
        r.addresses = (List.range (packet.payload.length / 2)).map fun i =>
          packet.payload.getD (2 * i) 0 * 256 + packet.payload.getD (2 * i + 1) 0) ∧
      DecodeReadRequest ⟨3, [0x10, 0x00], 0⟩ = some ⟨[0x1000]⟩ := by
  have hloop : forLoop packet.payload.length 2
      (fun i addresses => addresses ++ [readUint16At packet.payload i])
      packet.payload.length 0 [] =
      (List.range ((packet.payload.length + 1) / 2)).map fun i =>
        packet.payload.getD (2 * i) 0 * 256 + packet.payload.getD (2 * i + 1) 0 := by
    rw [forLoop_append (readUint16At packet.payload) _ 2 (by decide) _ 0 [] (by omega)]
    simp only [List.nil_append, Nat.sub_zero, Nat.zero_add]
    apply List.map_congr_left
    intro i _
    exact readUint16At_eq _ hp _
  rw [DecodeReadRequest_unfold]
  refine ⟨?_, ?_, by decide⟩
  · split_ifs with h
    · exact ⟨fun _ => h, fun _ => ⟨_, rfl⟩⟩
    · exact ⟨fun ⟨r, hr⟩ => (by cases hr), fun h' => absurd h' h⟩
  · intro r hr
    split_ifs at hr with h
    have he : (packet.payload.length + 1) / 2 = packet.payload.length / 2 := by omega
    injection hr with hr
    rw [← hr, hloop, he]
    simp

theorem C13_DecodeReadRequest_witness :
    IsBytes (⟨3, [0x10, 0x00], 0⟩ : Packet).payload ∧
      ((∃ r, DecodeReadRequest ⟨3, [0x10, 0x00], 0⟩ = some r) ↔
        (⟨3, [0x10, 0x00], 0⟩ : Packet).command_id = 3 ∧
          (⟨3, [0x10, 0x00], 0⟩ : Packet).payload ≠ [] ∧
          (⟨3, [0x10, 0x00], 0⟩ : Packet).payload.length % 2 = 0) :=
  ⟨by decide, (C13_DecodeReadRequest ⟨3, [0x10, 0x00], 0⟩ (by decide)).1⟩

/-- The loop of `DecodeReadResponse` and `DecodeWriteRequest` that collects one register
value per group of four bytes, starting at index `start`. -/
theorem registerLoop_eq (payload : List Nat) (hp : IsBytes payload) (start : Nat) :
    forLoop payload.length 4
        (fun i values =>
          values ++ [({ address := readUint16At payload i,
                        value := readUint16At payload (i + 2) } : RegisterValue)])
        payload.length start [] =
      (List.range ((payload.length - start + 3) / 4)).map fun k =>
        ({ address := payload.getD (start + 4 * k) 0 * 256 + payload.getD (start + 1 + 4 * k) 0,
           value := payload.getD (start + 2 + 4 * k) 0 * 256 +
             payload.getD (start + 3 + 4 * k) 0 } : RegisterValue) := by
  rw [forLoop_append
    (fun i => ({ address := readUint16At payload i,
                 value := readUint16At payload (i + 2) } : RegisterValue))
    _ 4 (by decide) _ start [] (by omega)]
  simp only [List.nil_append]
  apply List.map_congr_left
  intro k _
  rw [readUint16At_eq _ hp, readUint16At_eq _ hp,
    show start + 4 * k + 1 = start + 1 + 4 * k by omega,
    show start + 4 * k + 2 = start + 2 + 4 * k by omega,
    show start + 2 + 4 * k + 1 = start + 3 + 4 * k by omega]

theorem DecodeReadResponse_unfold (packet : Packet) :
    DecodeReadResponse packet =
      if packet.command_id = 3 ∧ packet.payload ≠ [] ∧ (packet.payload.length - 1) % 4 = 0 then
        some
          { status := packet.payload.getD 0 0,
            values :=
              forLoop packet.payload.length 4
                (fun i values =>
                  values ++ [{ address := readUint16At packet.payload i,
                               value := readUint16At packet.payload (i + 2) }])
                packet.payload.length 1 [] }
      else none := by
  unfold DecodeReadResponse CommandId.kReadRegisters
  split_ifs <;> simp_all

/-- C14: `DecodeReadResponse` returns a result iff the command id is ReadRegisters (3), the
payload is non-empty and its length n has (n - 1) mod 4 = 0; the result then has status
payload[0] and exactly (n-1)/4 values, the k-th with address payload[1+4k]*256 + payload[2+4k]
and value payload[3+4k]*256 + payload[4+4k]; command id 3 with payload 00 10 00 12 34 decodes
to status 0 and the single value (0x1000, 0x1234). -/
theorem C14_DecodeReadResponse (packet : Packet) (hp : IsBytes packet.payload) :
    ((∃ r, DecodeReadResponse packet = some r) ↔
        packet.command_id = 3 ∧ packet.payload ≠ [] ∧ (packet.payload.length - 1) % 4 = 0) ∧
      (∀ r, DecodeReadResponse packet = some r →
        r.status = packet.payload.getD 0 0 ∧
        r.values.length = (packet.payload.length - 1) / 4 ∧
        r.values = (List.range ((packet.payload.length - 1) / 4)).map fun k =>
          ({ address := packet.payload.getD (1 + 4 * k) 0 * 256 +
               packet.payload.getD (2 + 4 * k) 0,
             value := packet.payload.getD (3 + 4 * k) 0 * 256 +
               packet.payload.getD (4 + 4 * k) 0 } : RegisterValue)) ∧
      DecodeReadResponse ⟨3, [0x00, 0x10, 0x00, 0x12, 0x34], 0⟩ =
        some ⟨0x00, [⟨0x1000, 0x1234⟩]⟩ := by
  rw [DecodeReadResponse_unfold]
  refine ⟨?_, ?_, by decide⟩
  · split_ifs with h
    · exact ⟨fun _ => h, fun _ => ⟨_, rfl⟩⟩
    · exact ⟨fun ⟨r, hr⟩ => (by cases hr), fun h' => absurd h' h⟩
  · intro r hr
    split_ifs at hr with h
    have he : (packet.payload.length - 1 + 3) / 4 = (packet.payload.length - 1) / 4 := by omega
    injection hr with hr
    rw [← hr, registerLoop_eq _ hp 1, he]
    simp

theorem C14_DecodeReadResponse_witness :
    IsBytes (⟨3, [0x00, 0x10, 0x00, 0x12, 0x34], 0⟩ : Packet).payload ∧
      ((∃ r, DecodeReadResponse ⟨3, [0x00, 0x10, 0x00, 0x12, 0x34], 0⟩ = some r) ↔
        (⟨3, [0x00, 0x10, 0x00, 0x12, 0x34], 0⟩ : Packet).command_id = 3 ∧
          (⟨3, [0x00, 0x10, 0x00, 0x12, 0x34], 0⟩ : Packet).payload ≠ [] ∧
          ((⟨3, [0x00, 0x10, 0x00, 0x12, 0x34], 0⟩ : Packet).payload.length - 1) % 4 = 0) :=
  ⟨by decide, (C14_DecodeReadResponse ⟨3, [0x00, 0x10, 0x00, 0x12, 0x34], 0⟩ (by decide)).1⟩

theorem DecodeWriteRequest_unfold (packet : Packet) :
    DecodeWriteRequest packet =
      if (packet.command_id = 2 ∨ packet.command_id = 4 ∨ packet.command_id = 5) ∧
          packet.payload ≠ [] ∧ packet.payload.length % 4 = 0 then
        some
          { values :=
              forLoop packet.payload.length 4
                (fun i values =>
                  values ++ [{ address := readUint16At packet.payload i,
                               value := readUint16At packet.payload (i + 2) }])
                packet.payload.length 0 [] }
      else none := by
  have hw := IsWriteCommand_iff packet.command_id
  unfold DecodeWriteRequest
  split_ifs <;> simp_all

/-- C15: `DecodeWriteRequest` returns a result iff the command id is Setpoint (2),
ControlRegister (4) or BulkWrite (5) and the payload is non-empty of a length n divisible by
4; the result then has exactly n/4 values, the k-th with address payload[4k]*256 + payload[4k+1]
and value payload[4k+2]*256 + payload[4k+3], in payload order. -/
theorem C15_DecodeWriteRequest (packet : Packet) (hp : IsBytes packet.payload) :
    ((∃ r, DecodeWriteRequest packet = some r) ↔
        (packet.command_id = 2 ∨ packet.command_id = 4 ∨ packet.command_id = 5) ∧
          packet.payload ≠ [] ∧ packet.payload.length % 4 = 0) ∧
      (∀ r, DecodeWriteRequest packet = some r →
        r.values.length = packet.payload.length / 4 ∧
        r.values = (List.range (packet.payload.length / 4)).map fun k =>
          ({ address := packet.payload.getD (4 * k) 0 * 256 +
               packet.payload.getD (4 * k + 1) 0,
             value := packet.payload.getD (4 * k + 2) 0 * 256 +
               packet.payload.getD (4 * k + 3) 0 } : RegisterValue)) := by
  rw [DecodeWriteRequest_unfold]
  refine ⟨?_, ?_⟩
  · split_ifs with h
    · exact ⟨fun _ => h, fun _ => ⟨_, rfl⟩⟩
    · exact ⟨fun ⟨r, hr⟩ => (by cases hr), fun h' => absurd h' h⟩
  · intro r hr
    split_ifs at hr with h
    have he : (packet.payload.length - 0 + 3) / 4 = packet.payload.length / 4 := by omega
    injection hr with hr
    rw [← hr, registerLoop_eq _ hp 0, he]
    refine ⟨by simp, ?_⟩
    apply List.map_congr_left
    intro k _
    rw [show 0 + 4 * k = 4 * k by omega, show 0 + 1 + 4 * k = 4 * k + 1 by omega,
      show 0 + 2 + 4 * k = 4 * k + 2 by omega, show 0 + 3 + 4 * k = 4 * k + 3 by omega]

theorem C15_DecodeWriteRequest_witness :
    IsBytes (⟨2, [0x10, 0x00, 0x12, 0x34], 0⟩ : Packet).payload ∧
      ∀ r, DecodeWriteRequest ⟨2, [0x10, 0x00, 0x12, 0x34], 0⟩ = some r →
        r.values.length = (⟨2, [0x10, 0x00, 0x12, 0x34], 0⟩ : Packet).payload.length / 4 :=
  ⟨by decide, fun r hr =>
    ((C15_DecodeWriteRequest ⟨2, [0x10, 0x00, 0x12, 0x34], 0⟩ (by decide)).2 r hr).1⟩

/-- C16: `DecodeWriteResponse` returns a result iff the command id is Setpoint (2),
ControlRegister (4) or BulkWrite (5) and the payload has exactly one byte; the status of the
result is that byte. -/
theorem C16_DecodeWriteResponse (packet : Packet) :
    ((∃ r, DecodeWriteResponse packet = some r) ↔
        (packet.command_id = 2 ∨ packet.command_id = 4 ∨ packet.command_id = 5) ∧
          packet.payload.length = 1) ∧
      ∀ r, DecodeWriteResponse packet = some r →
        packet.payload = [r.status] := by
  have hw := IsWriteCommand_iff packet.command_id
  unfold DecodeWriteResponse
  constructor
  · split_ifs with h1 h2
    · simp_all
    · simp_all
    · simp_all
  · intro r hr
    split_ifs at hr with h1 h2
    injection hr with hr
    have hl : packet.payload.length = 1 := by omega
    match hpl : packet.payload, hl with
    | [b], _ =>
      rw [hpl] at hr
      rw [← hr]
      rfl

theorem C16_DecodeWriteResponse_witness :
    DecodeWriteResponse ⟨4, [7], 0⟩ = some ⟨7⟩ ∧ (⟨4, [7], 0⟩ : Packet).payload = [7] :=
  ⟨rfl, (C16_DecodeWriteResponse ⟨4, [7], 0⟩).2 ⟨7⟩ rfl⟩

theorem toUpper_digitChar (d : Nat) (h : d < 16) :
    Char.toUpper (Nat.digitChar d) = hexDigitUpper d := by
  interval_cases d <;> rfl

theorem toDigitsCore_eq_digits (fuel n : Nat) (ds : List Char) (hn : 0 < n) (hf : n < fuel) :
    Nat.toDigitsCore 16 fuel n ds = ((Nat.digits 16 n).reverse.map Nat.digitChar) ++ ds := by
  induction fuel generalizing n ds with
  | zero => omega
  | succ k ih =>
    rw [Nat.digits_def' (by decide) hn]
    simp only [Nat.toDigitsCore]
    by_cases h0 : n / 16 = 0
    · rw [if_pos h0, h0]
      simp
    · rw [if_neg h0, ih (n / 16) _ (by omega) (by omega)]
      simp

/-- The hexadecimal text of a positive value is made of the upper-case characters of its
base-16 digits, most significant first. -/
theorem streamHexUpper_eq (n : Nat) (hn : 0 < n) :
    streamHexUpper n = String.mk ((Nat.digits 16 n).reverse.map hexDigitUpper) := by
  unfold streamHexUpper Nat.toDigits
  rw [toDigitsCore_eq_digits (n + 1) n [] hn (by omega), List.append_nil, List.map_map]
  congr 1
  apply List.map_congr_left
  intro d hd
  exact toUpper_digitChar d (Nat.digits_lt_base (by decide) (List.mem_reverse.mp hd))

theorem CommandToString_unknown (c : Nat) (h : 5 < c) :
    CommandToString c = "Unknown(0x" ++ streamHexUpper c ++ ")" := by
  unfold CommandToString CommandId.kHandshake0 CommandId.kHandshake1 CommandId.kSetpoint
    CommandId.kReadRegisters CommandId.kControlRegister CommandId.kBulkWrite
  rw [if_neg (by omega), if_neg (by omega), if_neg (by omega), if_neg (by omega),
    if_neg (by omega), if_neg (by omega)]

/-- C17: unknown command fallback. For a command id outside the known set {0,...,5} and any
payload, all four decoders return nothing, and `CommandToString` returns "Unknown(0x", then
the upper-case hexadecimal digits of the command id, most significant first and without
leading zeros, then ")". -/
theorem C17_unknown_command (command_id : Nat) (payload : List Nat) (checksum : Nat)
    (h : command_id ∉ [0, 1, 2, 3, 4, 5]) :
    DecodeReadRequest ⟨command_id, payload, checksum⟩ = none ∧
      DecodeReadResponse ⟨command_id, payload, checksum⟩ = none ∧
      DecodeWriteRequest ⟨command_id, payload, checksum⟩ = none ∧
      DecodeWriteResponse ⟨command_id, payload, checksum⟩ = none ∧
      CommandToString command_id =
        "Unknown(0x" ++ String.mk ((Nat.digits 16 command_id).reverse.map hexDigitUpper) ++ ")" ∧
      (Nat.digits 16 command_id).reverse.head? ≠ some 0 ∧
      Nat.ofDigits 16 (Nat.digits 16 command_id) = command_id := by
  have h5 : 5 < command_id := by
    simp only [List.mem_cons, List.mem_singleton, List.not_mem_nil, or_false, not_or] at h
    omega
  have hw : IsWriteCommand command_id = false := by
    cases hc : IsWriteCommand command_id with
    | false => rfl
    | true => have := (IsWriteCommand_iff command_id).mp hc; omega
  refine ⟨?_, ?_, ?_, ?_, ?_, ?_, Nat.ofDigits_digits 16 command_id⟩
  · rw [DecodeReadRequest_unfold, if_neg]
    intro hc; have := hc.1; simp only at this; omega
  · rw [DecodeReadResponse_unfold, if_neg]
    intro hc; have := hc.1; simp only at this; omega
  · rw [DecodeWriteRequest_unfold, if_neg]
    intro hc; have := hc.1; simp only at this; omega
  · unfold DecodeWriteResponse
    simp [hw]
  · rw [CommandToString_unknown _ h5, streamHexUpper_eq _ (by omega)]
  · have hne : Nat.digits 16 command_id ≠ [] := Nat.digits_ne_nil_iff_ne_zero.mpr (by omega)
    have hlast := Nat.getLast_digit_ne_zero 16 (show command_id ≠ 0 by omega)
    rw [List.head?_reverse, List.getLast?_eq_getLast _ hne]
    intro hc
    exact hlast (Option.some.inj hc)

theorem C17_unknown_command_witness :
    (0xDEADBEEF : Nat) ∉ [0, 1, 2, 3, 4, 5] ∧
      CommandToString 0xDEADBEEF = "Unknown(0xDEADBEEF)" ∧
      DecodeWriteResponse ⟨0xDEADBEEF, [1], 0⟩ = none :=
  ⟨by decide, by decide, (C17_unknown_command 0xDEADBEEF [1] 0 (by decide)).2.2.2.1⟩

/-- C18 (the code at the failing input): for the command id 6, which is not a known
identifier, `CommandToString` returns the text "Unknown(0x6)", not the empty string that the
comment in `messages.h` documents; the known identifiers are stringified. -/
theorem C18_CommandToString_unknown_not_empty :
    CommandToString 6 = "Unknown(0x6)" ∧ CommandToString 6 ≠ "" ∧
      [CommandToString 0, CommandToString 1, CommandToString 2, CommandToString 3,
        CommandToString 4, CommandToString 5] =
        ["Handshake0", "Handshake1", "WriteRegister", "ReadRegisters", "WriteControlRegister",
          "BulkWrite"] := by
  refine ⟨by decide, by decide, by decide⟩

/-! ## Drain loop claims -/

theorem ParseAvailableIterations_bound (n : Nat) (b : PendingBuffer) (dir : BusDirection)
    (out : List Frame) (f : Bool) (hn : b.bytes.length ≤ n) :
    ∃ k, k ≤ b.bytes.length ∧ ParseAvailableIterations n b dir out f = some k ∧
      (b.bytes = [] → k = 0) := by
  induction n generalizing b out with
  | zero =>
    have h0 : b.bytes = [] := List.length_eq_zero.mp (Nat.le_zero.mp hn)
    exact ⟨0, Nat.zero_le _, by simp [ParseAvailableIterations, h0], fun _ => rfl⟩
  | succ n ih =>
    by_cases h0 : b.bytes = []
    · exact ⟨0, Nat.zero_le _, by simp [ParseAvailableIterations, h0], fun _ => rfl⟩
    · have hpos : 0 < b.bytes.length := List.length_pos.mpr h0
      have hlt := ParseAvailableBody_again_lt b dir out f h0
      rw [ParseAvailableIterations, if_neg h0]
      rcases hbody : ParseAvailableBody b dir out f with ⟨c, b', out'⟩
      cases c with
      | again =>
        have hlt' := hlt b' out' hbody
        obtain ⟨k, hk, hit, _⟩ := ih b' out' (by omega)
        refine ⟨k + 1, by omega, ?_, fun h => absurd h h0⟩
        simp only [hit, Option.map_some']
      | exit => exact ⟨1, hpos, rfl, fun h => absurd h h0⟩

/-- C19: drain-loop termination. In both modes and for every buffer, the loop of
`ParseAvailable` is left after a number of passes that is at most the buffer length (no pass
on an empty buffer), whatever fuel at least the buffer length is given; and every pass that
continues the loop cuts bytes off the front of the buffer: the four bytes of a break marker,
emitted as a Break frame, or the 5 + payload_length + 2 bytes of a valid candidate, emitted as
a Packet frame, or exactly one byte, emitted as a Raw frame. -/
theorem C19_drain_termination (b : PendingBuffer) (dir : BusDirection) (out : List Frame)
    (f : Bool) :
    (∃ k, k ≤ b.bytes.length ∧ (b.bytes = [] → k = 0) ∧
      ∀ fuel, b.bytes.length ≤ fuel →
        ParseAvailableIterations fuel b dir out f = some k ∧
          ParseAvailableLoop fuel b dir out f = ParseAvailable b dir out f) ∧
    (∀ b' out', b.bytes ≠ [] → ParseAvailableBody b dir out f = (.again, b', out') →
      (4 ≤ b.bytes.length ∧ b'.bytes = b.bytes.drop 4 ∧
        (b.bytes.take 4).map (fun e => e.value) = [0xFF, 0xFF, 0x00, 0x00] ∧
        out' = out ++ [⟨FrameType.Break, dir, (b.bytes.getD 0 default).time,
          [0xFF, 0xFF, 0x00, 0x00]⟩]) ∨
      (5 + (b.bytes.getD 4 default).value + 2 ≤ b.bytes.length ∧
        b'.bytes = b.bytes.drop (5 + (b.bytes.getD 4 default).value + 2) ∧
        out' = out ++ [⟨FrameType.Packet, dir, (b.bytes.getD 0 default).time,
          (b.bytes.take (5 + (b.bytes.getD 4 default).value + 2)).map fun e => e.value⟩]) ∨
      (1 ≤ b.bytes.length ∧ b'.bytes = b.bytes.drop 1 ∧
        out' = out ++ [⟨FrameType.Raw, dir, (b.bytes.getD 0 default).time,
          (b.bytes.take 1).map fun e => e.value⟩])) := by
  constructor
  · obtain ⟨k, hk, hit, h0⟩ := ParseAvailableIterations_bound b.bytes.length b dir out f
      (Nat.le_refl _)
    refine ⟨k, hk, h0, ?_⟩
    intro fuel hfuel
    obtain ⟨k', _, hit', _⟩ := ParseAvailableIterations_bound fuel b dir out f hfuel
    have key : ∀ n (b : PendingBuffer) (out : List Frame) (k : Nat),
        ParseAvailableIterations n b dir out f = some k →
        ∀ m, n ≤ m → ParseAvailableIterations m b dir out f = some k := by
      intro n
      induction n with
      | zero =>
        intro b out k h m _
        simp only [ParseAvailableIterations] at h
        split_ifs at h with hb
        cases m with
        | zero => simp [ParseAvailableIterations, hb, h]
        | succ m => simp [ParseAvailableIterations, hb, h]
      | succ n ih =>
        intro b out k h m hm
        obtain ⟨m', rfl⟩ : ∃ m', m = m' + 1 := ⟨m - 1, by omega⟩
        simp only [ParseAvailableIterations] at h ⊢
        split_ifs at h ⊢ with hb
        · exact h
        · rcases hbody : ParseAvailableBody b dir out f with ⟨c, b', out'⟩
          rw [hbody] at h
          cases c with
          | again =>
            simp only [] at h ⊢
            cases hi : ParseAvailableIterations n b' dir out' f with
            | none => rw [hi] at h; simp at h
            | some j =>
              rw [hi] at h
              rw [ih b' out' j hi m' (by omega)]
              exact h
          | exit => exact h
    exact ⟨key _ b out k hit fuel hfuel, ParseAvailableLoop_fuel fuel b dir out f hfuel⟩
  · intro b' out' hne hbody
    have hpos : 0 < b.bytes.length := List.length_pos.mpr hne
    rcases ParseAvailableBody_cases b dir out f hne with
      ⟨hb, heq⟩ | ⟨_, heq⟩ | ⟨_, _, _, _, heq⟩ | ⟨_, h5, hL, _, heq⟩
    · left
      rw [heq] at hbody
      injection hbody with _ h; injection h with h1 h2
      refine ⟨hb.1, by rw [← h1], csvValues_take_break _ hb, ?_⟩
      rw [← h2]
      simp only [frameOf, getD_zero_take _ _ (show 0 < 4 by decide), csvValues_take_break _ hb]
    · rw [heq] at hbody
      cases f <;> simp at hbody
    · right; right
      rw [heq] at hbody
      injection hbody with _ h; injection h with h1 h2
      refine ⟨hpos, by rw [← h1], ?_⟩
      rw [← h2]
      simp only [frameOf, getD_zero_take _ _ (show 0 < 1 by decide), csvValues]
    · right; left
      rw [heq] at hbody
      injection hbody with _ h; injection h with h1 h2
      have hd : declaredLength b.bytes = 5 + (b.bytes.getD 4 default).value + 2 := rfl
      rw [hd] at hL h1 h2
      refine ⟨hL, by rw [← h1], ?_⟩
      rw [← h2]
      simp only [frameOf, getD_zero_take _ _ (show 0 < 5 + (b.bytes.getD 4 default).value + 2
        by omega), csvValues]

theorem C19_drain_termination_witness :
    ([⟨.Rx, 0, 0xFF, false⟩, ⟨.Rx, 1, 0xFF, false⟩, ⟨.Rx, 2, 0, false⟩, ⟨.Rx, 3, 0, false⟩,
        ⟨.Rx, 4, 9, false⟩] : List CsvByte) ≠ [] ∧
      ParseAvailableBody
        ⟨[⟨.Rx, 0, 0xFF, false⟩, ⟨.Rx, 1, 0xFF, false⟩, ⟨.Rx, 2, 0, false⟩, ⟨.Rx, 3, 0, false⟩,
          ⟨.Rx, 4, 9, false⟩], some 4⟩ .Rx [] false =
        (.again, ⟨[⟨.Rx, 4, 9, false⟩], some 4⟩, [⟨.Break, .Rx, 0, [0xFF, 0xFF, 0, 0]⟩]) ∧
      ∃ n, 1 ≤ n ∧ n ≤ 5 ∧
        [(⟨.Rx, 4, 9, false⟩ : CsvByte)] =
          ([⟨.Rx, 0, 0xFF, false⟩, ⟨.Rx, 1, 0xFF, false⟩, ⟨.Rx, 2, 0, false⟩,
            ⟨.Rx, 3, 0, false⟩, ⟨.Rx, 4, 9, false⟩] : List CsvByte).drop n := by
  refine ⟨by decide, by decide, ?_⟩
  rcases (C19_drain_termination
    ⟨[⟨.Rx, 0, 0xFF, false⟩, ⟨.Rx, 1, 0xFF, false⟩, ⟨.Rx, 2, 0, false⟩, ⟨.Rx, 3, 0, false⟩,
      ⟨.Rx, 4, 9, false⟩], some 4⟩ .Rx [] false).2
    ⟨[⟨.Rx, 4, 9, false⟩], some 4⟩ [⟨.Break, .Rx, 0, [0xFF, 0xFF, 0, 0]⟩] (by decide)
    (by decide) with ⟨h1, h2, _⟩ | ⟨h1, h2, _⟩ | ⟨h1, h2, _⟩
  · exact ⟨4, by decide, by decide, h2⟩
  · exact ⟨_, by omega, h1, h2⟩
  · exact ⟨1, by decide, by decide, h2⟩

/-- C20: resynchronization step. When the buffer does not begin with FF FF 00 00, holds at
least 5 bytes and at least the L = 5 + b[4] + 2 bytes of the candidate frame, and the first L
bytes fail `ValidateFrame`, one pass through the loop body continues the loop, emits exactly
one frame, of type Raw, holding only the first buffered byte and starting at its timestamp,
and removes exactly that byte, leaving the other bytes unchanged and in order. -/
theorem C20_resync_step (first : CsvByte) (rest : List CsvByte) (last_time : Option Int)
    (dir : BusDirection) (out : List Frame) (f : Bool) (e : String)
    (hnobreak : ((first :: rest).take 4).map (fun x => x.value) ≠ [0xFF, 0xFF, 0x00, 0x00])
    (h5 : 5 ≤ (first :: rest).length)
    (hL : 5 + ((first :: rest).getD 4 default).value + 2 ≤ (first :: rest).length)
    (hinvalid : ValidateFrame
      (((first :: rest).take (5 + ((first :: rest).getD 4 default).value + 2)).map
        fun x => x.value) = .error e) :
    ParseAvailableBody ⟨first :: rest, last_time⟩ dir out f =
      (.again, ⟨rest, last_time⟩, out ++ [⟨FrameType.Raw, dir, first.time, [first.value]⟩]) := by
  rcases ParseAvailableBody_cases ⟨first :: rest, last_time⟩ dir out f (List.cons_ne_nil _ _) with
    ⟨hb, _⟩ | ⟨⟨_, hi⟩, _⟩ | ⟨_, _, _, _, heq⟩ | ⟨_, _, _, hv, _⟩
  · exact absurd (csvValues_take_break _ hb) hnobreak
  · have hd : declaredLength (first :: rest) =
        5 + ((first :: rest).getD 4 default).value + 2 := rfl
    simp only [hd] at hi
    omega
  · rw [heq]
    rfl
  · have hd : declaredLength (first :: rest) =
        5 + ((first :: rest).getD 4 default).value + 2 := rfl
    simp only [hd, csvValues] at hv
    rw [hinvalid] at hv
    cases hv

theorem C20_resync_step_witness :
    ParseAvailableBody
        ⟨[⟨.Rx, 0, 1, false⟩, ⟨.Rx, 1, 0, false⟩, ⟨.Rx, 2, 0, false⟩, ⟨.Rx, 3, 0, false⟩,
          ⟨.Rx, 4, 0, false⟩, ⟨.Rx, 5, 0, false⟩, ⟨.Rx, 6, 0, false⟩], some 6⟩ .Rx [] false =
      (.again,
        ⟨[⟨.Rx, 1, 0, false⟩, ⟨.Rx, 2, 0, false⟩, ⟨.Rx, 3, 0, false⟩,
          ⟨.Rx, 4, 0, false⟩, ⟨.Rx, 5, 0, false⟩, ⟨.Rx, 6, 0, false⟩], some 6⟩,
        [] ++ [⟨FrameType.Raw, .Rx, 0, [1]⟩]) :=
  C20_resync_step ⟨.Rx, 0, 1, false⟩
    [⟨.Rx, 1, 0, false⟩, ⟨.Rx, 2, 0, false⟩, ⟨.Rx, 3, 0, false⟩,
      ⟨.Rx, 4, 0, false⟩, ⟨.Rx, 5, 0, false⟩, ⟨.Rx, 6, 0, false⟩] (some 6) .Rx [] false
    "checksum mismatch" (by decide) (by decide) (by decide) rfl

/-! ## Reverse round trip -/

theorem two_tail (l : List Nat) (n : Nat) (h : l.length = n + 2) :
    l = l.take n ++ [l.getD n 0, l.getD (n + 1) 0] := by
  have h1 := getD_drop l n 0
  have h2 := getD_drop l n 1
  have hd : (l.drop n).length = 2 := by rw [List.length_drop]; omega
  match hdrop : l.drop n, hd with
  | [x, y], _ =>
    rw [hdrop] at h1 h2
    simp only [List.getD_cons_zero, List.getD_cons_succ, Nat.add_zero] at h1 h2
    rw [← h1, ← h2, ← hdrop, List.take_append_drop]

/-- A frame of 5 + n + 2 bytes is its five header bytes, the n bytes after them and its two
trailer bytes. -/
theorem frame_decompose (f : List Nat) (n : Nat) (hlen : f.length = 5 + n + 2) :
    f = [f.getD 0 0, f.getD 1 0, f.getD 2 0, f.getD 3 0, f.getD 4 0] ++ (f.drop 5).take n ++
      [f.getD (f.length - 2) 0, f.getD (f.length - 1) 0] := by
  rcases f with _ | ⟨a, _ | ⟨b, _ | ⟨c, _ | ⟨d, _ | ⟨e, rest⟩⟩⟩⟩⟩
  · simp only [List.length_nil] at hlen; omega
  · simp only [List.length_cons, List.length_nil] at hlen; omega
  · simp only [List.length_cons, List.length_nil] at hlen; omega
  · simp only [List.length_cons, List.length_nil] at hlen; omega
  · simp only [List.length_cons, List.length_nil] at hlen; omega
  · have hr : rest.length = n + 2 := by
      simp only [List.length_cons] at hlen; omega
    have h1 : (a :: b :: c :: d :: e :: rest).length - 2 = 5 + n := by
      simp only [List.length_cons]; omega
    have h2 : (a :: b :: c :: d :: e :: rest).length - 1 = 5 + (n + 1) := by
      simp only [List.length_cons]; omega
    have g1 : (a :: b :: c :: d :: e :: rest).getD (5 + n) 0 = rest.getD n 0 := by
      rw [show 5 + n = n + 1 + 1 + 1 + 1 + 1 by omega]; rfl
    have g2 : (a :: b :: c :: d :: e :: rest).getD (5 + (n + 1)) 0 = rest.getD (n + 1) 0 := by
      rw [show 5 + (n + 1) = n + 1 + 1 + 1 + 1 + 1 + 1 by omega]; rfl
    rw [h1, h2, g1, g2]
    simp only [List.getD_cons_zero, List.getD_cons_succ, List.drop_succ_cons, List.drop_zero,
      List.cons_append, List.nil_append]
    rw [← two_tail rest n hr]

theorem ParsePacket_ok_valid (f : List Nat) (p : Packet) (h : ParsePacket f = .ok p) :
    ValidateFrame f = .ok () := by
  cases hv : ValidateFrame f with
  | error e => rw [ParsePacket_of_error f e hv] at h; cases h
  | ok u => rfl

/-- Serializing the packet that `ParsePacket` returns for a frame gives the frame back. -/
theorem Serialize_of_ParsePacket (f : List Nat) (hf : IsBytes f) (p : Packet)
    (h : ParsePacket f = .ok p) : p.Serialize = f := by
  have hv := ParsePacket_ok_valid f p h
  obtain ⟨h7, hlen, hcs⟩ := (ValidateFrame_ok f hf).mp hv
  rw [ParsePacket_of_ok f hf hv] at h
  injection h with h
  have hdec := frame_decompose f (f.getD 4 0) hlen
  have hpl : ((f.drop 5).take (f.getD 4 0)).length = f.getD 4 0 := by
    rw [List.length_take, List.length_drop]; omega
  have b0 := hf.getD_lt 0
  have b1 := hf.getD_lt 1
  have b2 := hf.getD_lt 2
  have b3 := hf.getD_lt 3
  have b4 := hf.getD_lt 4
  have t1 := hf.getD_lt (f.length - 2)
  have t2 := hf.getD_lt (f.length - 1)
  have hhead : headerBytes p.command_id p.payload.length =
      [f.getD 0 0, f.getD 1 0, f.getD 2 0, f.getD 3 0, f.getD 4 0] := by
    rw [← h]
    simp only [hpl, headerBytes, List.cons.injEq, and_true]
    refine ⟨?_, ?_, ?_, ?_, ?_⟩ <;> omega
  have hbody : headerBytes p.command_id p.payload.length ++ p.payload =
      f.take (f.length - 2) := by
    rw [hhead]
    conv_rhs => rw [hdec]
    rw [← h]
    simp only []
    rw [take_body_append]
  rw [Serialize_eq, hbody, hcs]
  unfold trailerValue
  rw [show (f.getD (f.length - 2) 0 * 256 + f.getD (f.length - 1) 0) / 256 % 256 =
      f.getD (f.length - 2) 0 by omega,
    show (f.getD (f.length - 2) 0 * 256 + f.getD (f.length - 1) 0) % 256 =
      f.getD (f.length - 1) 0 by omega]
  conv_rhs => rw [← List.take_append_drop (f.length - 2) f]
  congr 1
  have hd := two_tail (f.drop (f.length - 2)) 0 (by rw [List.length_drop]; omega)
  rw [getD_drop, getD_drop] at hd
  rw [hd]
  simp only [List.take_zero, List.nil_append, Nat.add_zero, Nat.zero_add]
  rw [show f.length - 2 + 1 = f.length - 1 by omega]

/-- C22: reverse round trip. For every byte sequence `f` on which `ParsePacket` succeeds with
result `p`, `Serialize p = f`; hence two byte sequences that parse to the same packet are
equal: `ParsePacket` is injective on accepted frames. -/
theorem C22_reverse_roundtrip (f : List Nat) (hf : IsBytes f) (p : Packet)
    (h : ParsePacket f = .ok p) :
    p.Serialize = f ∧
      ∀ g : List Nat, IsBytes g → ParsePacket g = .ok p → g = f := by
  have hs := Serialize_of_ParsePacket f hf p h
  refine ⟨hs, ?_⟩
  intro g hg hgp
  rw [← Serialize_of_ParsePacket g hg p hgp, hs]

theorem C22_reverse_roundtrip_witness :
    IsBytes [0, 0, 0, 0, 2, 0xAA, 0xBB, 0xFE, 0x98] ∧
      ParsePacket [0, 0, 0, 0, 2, 0xAA, 0xBB, 0xFE, 0x98] = .ok ⟨0, [0xAA, 0xBB], 0xFE98⟩ ∧
      Packet.Serialize ⟨0, [0xAA, 0xBB], 0xFE98⟩ = [0, 0, 0, 0, 2, 0xAA, 0xBB, 0xFE, 0x98] :=
  ⟨by decide, rfl,
    (C22_reverse_roundtrip [0, 0, 0, 0, 2, 0xAA, 0xBB, 0xFE, 0x98] (by decide)
      ⟨0, [0xAA, 0xBB], 0xFE98⟩ rfl).1⟩

/-! ## Decoder exclusivity -/

theorem DecodeReadRequest_isSome (p : Packet) :
    (DecodeReadRequest p).isSome = true ↔
      p.command_id = 3 ∧ p.payload ≠ [] ∧ p.payload.length % 2 = 0 := by
  rw [DecodeReadRequest_unfold]
  split_ifs with h <;> simp [h]

theorem DecodeReadResponse_isSome (p : Packet) :
    (DecodeReadResponse p).isSome = true ↔
      p.command_id = 3 ∧ p.payload ≠ [] ∧ (p.payload.length - 1) % 4 = 0 := by
  rw [DecodeReadResponse_unfold]
  split_ifs with h <;> simp [h]

theorem DecodeWriteRequest_isSome (p : Packet) :
    (DecodeWriteRequest p).isSome = true ↔
      (p.command_id = 2 ∨ p.command_id = 4 ∨ p.command_id = 5) ∧ p.payload ≠ [] ∧
        p.payload.length % 4 = 0 := by
  rw [DecodeWriteRequest_unfold]
  split_ifs with h <;> simp [h]

theorem DecodeWriteResponse_isSome (p : Packet) :
    (DecodeWriteResponse p).isSome = true ↔
      (p.command_id = 2 ∨ p.command_id = 4 ∨ p.command_id = 5) ∧ p.payload.length = 1 := by
  have hw := IsWriteCommand_iff p.command_id
  unfold DecodeWriteResponse
  split_ifs with h1 h2 <;> simp_all

/-- Two decoders that both return a result for a packet are the same decoder. -/
theorem decoderSucceeds_unique (p : Packet) (k1 k2 : MessageKind)
    (h1 : decoderSucceeds p k1 = true) (h2 : decoderSucceeds p k2 = true) : k1 = k2 := by
  have hne : p.payload ≠ [] ↔ p.payload.length ≠ 0 := by
    simp [List.length_eq_zero]
  have a := DecodeReadRequest_isSome p
  have b := DecodeReadResponse_isSome p
  have c := DecodeWriteRequest_isSome p
  have d := DecodeWriteResponse_isSome p
  rw [hne] at a b c
  cases k1 <;> cases k2 <;> simp only [decoderSucceeds] at h1 h2 <;>
    first
      | rfl
      | (exfalso; cases h1)
      | (exfalso; cases h2)
      | (exfalso
         have x1 := a.mp h1
         have x2 := b.mp h2
         omega)
      | (exfalso
         have x1 := a.mp h1
         have x2 := c.mp h2
         omega)
      | (exfalso
         have x1 := a.mp h1
         have x2 := d.mp h2
         omega)
      | (exfalso
         have x1 := b.mp h1
         have x2 := a.mp h2
         omega)
      | (exfalso
         have x1 := b.mp h1
         have x2 := c.mp h2
         omega)
      | (exfalso
         have x1 := b.mp h1
         have x2 := d.mp h2
         omega)
      | (exfalso
         have x1 := c.mp h1
         have x2 := a.mp h2
         omega)
      | (exfalso
         have x1 := c.mp h1
         have x2 := b.mp h2
         omega)
      | (exfalso
         have x1 := c.mp h1
         have x2 := d.mp h2
         omega)
      | (exfalso
         have x1 := d.mp h1
         have x2 := a.mp h2
         omega)
      | (exfalso
         have x1 := d.mp h1
         have x2 := b.mp h2
         omega)
      | (exfalso
         have x1 := d.mp h1
         have x2 := c.mp h2
         omega)

theorem find?_unique {α : Type} (q : α → Bool) (k : α) (l : List α) (hk : k ∈ l)
    (hq : q k = true) (hu : ∀ x ∈ l, q x = true → x = k) : l.find? q = some k := by
  induction l with
  | nil => cases hk
  | cons a l ih =>
    by_cases ha : q a = true
    · rw [List.find?_cons_of_pos _ ha, hu a (List.mem_cons_self _ _) ha]
    · rw [List.find?_cons_of_neg _ ha]
      rcases List.mem_cons.mp hk with rfl | hk'
      · exact absurd hq ha
      · exact ih hk' fun x hx => hu x (List.mem_cons_of_mem _ hx)

theorem DescribePacketBranch_eq (p : Packet) :
    DescribePacketBranch p =
      classifyInOrder [MessageKind.ReadRequest, MessageKind.ReadResponse,
        MessageKind.WriteRequest, MessageKind.WriteResponse] p := by
  unfold DescribePacketBranch classifyInOrder
  simp only [List.find?, decoderSucceeds]
  cases (DecodeReadRequest p).isSome <;> cases (DecodeReadResponse p).isSome <;>
    cases (DecodeWriteRequest p).isSome <;> cases (DecodeWriteResponse p).isSome <;> rfl

theorem classifyInOrder_perm (p : Packet) (order1 order2 : List MessageKind)
    (h : order1.Perm order2) : classifyInOrder order1 p = classifyInOrder order2 p := by
  unfold classifyInOrder
  cases h1 : order1.find? (decoderSucceeds p) with
  | none =>
    have hn : order2.find? (decoderSucceeds p) = none := by
      rw [List.find?_eq_none] at h1 ⊢
      intro x hx
      exact h1 x (h.mem_iff.mpr hx)
    rw [hn]
  | some k =>
    have hk := List.mem_of_find?_eq_some h1
    have hq := List.find?_some h1
    rw [find?_unique (decoderSucceeds p) k order2 (h.mem_iff.mp hk) hq
      fun x _ hx => decoderSucceeds_unique p x k hx hq]

/-- C23: decoder exclusivity. For every packet at most one of `DecodeReadRequest`,
`DecodeReadResponse`, `DecodeWriteRequest` and `DecodeWriteResponse` returns a result;
consequently trying the four decoders in any order classifies the packet as `DescribePacket`
does with its fixed order. -/
theorem C23_decoder_exclusivity (packet : Packet) :
    [(DecodeReadRequest packet).isSome, (DecodeReadResponse packet).isSome,
        (DecodeWriteRequest packet).isSome, (DecodeWriteResponse packet).isSome].count true ≤ 1 ∧
      ∀ order : List MessageKind,
        order.Perm [MessageKind.ReadRequest, MessageKind.ReadResponse,
          MessageKind.WriteRequest, MessageKind.WriteResponse] →
        classifyInOrder order packet = DescribePacketBranch packet := by
  constructor
  · have u := decoderSucceeds_unique packet
    have e12 : ¬ ((DecodeReadRequest packet).isSome = true ∧
        (DecodeReadResponse packet).isSome = true) := fun h => by
      have := u .ReadRequest .ReadResponse h.1 h.2; cases this
    have e13 : ¬ ((DecodeReadRequest packet).isSome = true ∧
        (DecodeWriteRequest packet).isSome = true) := fun h => by
      have := u .ReadRequest .WriteRequest h.1 h.2; cases this
    have e14 : ¬ ((DecodeReadRequest packet).isSome = true ∧
        (DecodeWriteResponse packet).isSome = true) := fun h => by
      have := u .ReadRequest .WriteResponse h.1 h.2; cases this
    have e23 : ¬ ((DecodeReadResponse packet).isSome = true ∧
        (DecodeWriteRequest packet).isSome = true) := fun h => by
      have := u .ReadResponse .WriteRequest h.1 h.2; cases this
    have e24 : ¬ ((DecodeReadResponse packet).isSome = true ∧
        (DecodeWriteResponse packet).isSome = true) := fun h => by
      have := u .ReadResponse .WriteResponse h.1 h.2; cases this
    have e34 : ¬ ((DecodeWriteRequest packet).isSome = true ∧
        (DecodeWriteResponse packet).isSome = true) := fun h => by
      have := u .WriteRequest .WriteResponse h.1 h.2; cases this
    revert e12 e13 e14 e23 e24 e34
    generalize (DecodeReadRequest packet).isSome = b1
    generalize (DecodeReadResponse packet).isSome = b2
    generalize (DecodeWriteRequest packet).isSome = b3
    generalize (DecodeWriteResponse packet).isSome = b4
    revert b1 b2 b3 b4
    decide
  · intro order h
    rw [DescribePacketBranch_eq]
    exact classifyInOrder_perm packet _ _ h

theorem C23_decoder_exclusivity_witness :
    [MessageKind.WriteResponse, MessageKind.WriteRequest, MessageKind.ReadResponse,
        MessageKind.ReadRequest].Perm
        [MessageKind.ReadRequest, MessageKind.ReadResponse, MessageKind.WriteRequest,
          MessageKind.WriteResponse] ∧
      classifyInOrder
          [MessageKind.WriteResponse, MessageKind.WriteRequest, MessageKind.ReadResponse,
            MessageKind.ReadRequest] ⟨3, [0x10, 0x00], 0⟩ =
        DescribePacketBranch ⟨3, [0x10, 0x00], 0⟩ :=
  ⟨by decide, (C23_decoder_exclusivity ⟨3, [0x10, 0x00], 0⟩).2 _ (by decide)⟩

/-! ## Clean streams of serialized packets -/

theorem Serialize_length (p : Packet) : p.Serialize.length = 5 + p.payload.length + 2 := by
  rw [Serialize_eq]
  simp only [List.length_append, headerBytes, List.length_cons, List.length_nil]

theorem Serialize_take4 (p : Packet) :
    p.Serialize.take 4 = [p.command_id % 256, p.command_id / 256 % 256,
      p.command_id / 65536 % 256, p.command_id / 16777216 % 256] := by
  rw [Serialize_eq]; rfl

theorem Serialize_getD4 (p : Packet) : p.Serialize.getD 4 0 = p.payload.length % 256 := by
  rw [Serialize_eq, List.append_assoc, headerBytes_append_getD4]

theorem csvValues_getD (c : List CsvByte) (i : Nat) (h : i < c.length) :
    (c.getD i default).value = (csvValues c).getD i 0 := by
  have h' : i < (csvValues c).length := by simpa [csvValues] using h
  rw [List.getD_eq_getElem _ _ h, List.getD_eq_getElem _ _ h']
  simp [csvValues]

theorem getD_initial (pre post : List CsvByte) (i : Nat) (h : i < pre.length) :
    (pre ++ post).getD i default = pre.getD i default :=
  List.getD_append _ _ _ _ h

/-- The facts about a run of captured bytes that carries the serialization of a packet. -/
theorem chunk_facts (c : List CsvByte) (p : Packet) (hc : csvValues c = p.Serialize)
    (hlen : p.payload.length ≤ 255) :
    c.length = 5 + p.payload.length + 2 ∧ declaredLength c = c.length := by
  have hl : c.length = 5 + p.payload.length + 2 := by
    have := congrArg List.length hc
    rw [Serialize_length] at this
    simpa [csvValues] using this
  refine ⟨hl, ?_⟩
  unfold declaredLength kPacketHeaderBytes kPacketTrailerBytes
  rw [csvValues_getD c 4 (by omega), hc, Serialize_getD4, hl]
  omega

theorem initial_no_break (pre post : List CsvByte) (p : Packet)
    (hc : csvValues (pre ++ post) = p.Serialize) (hcmd : p.command_id < 2 ^ 32)
    (hne : p.command_id ≠ 0xFFFF) : ¬ startsWithBreak pre := by
  intro hb
  have h4 := csvValues_take_break pre hb
  have ht : (pre ++ post).take 4 = pre.take 4 := List.take_append_of_le_length hb.1
  have hs : csvValues ((pre ++ post).take 4) = p.Serialize.take 4 := by
    rw [← hc]; simp [csvValues, List.map_take]
  rw [ht, h4, Serialize_take4] at hs
  simp only [List.cons.injEq, and_true] at hs
  omega

theorem initial_settled (pre post : List CsvByte) (p : Packet)
    (hc : csvValues (pre ++ post) = p.Serialize) (hp : p.WF) (hlen : p.payload.length ≤ 255)
    (hne : p.command_id ≠ 0xFFFF) (hpost : post ≠ []) : Settled pre := by
  right
  refine ⟨initial_no_break pre post p hc hp.1 hne, ?_⟩
  by_cases h5 : pre.length < 5
  · exact Or.inl h5
  · right
    obtain ⟨hl, hd⟩ := chunk_facts (pre ++ post) p hc hlen
    have hpos : 0 < post.length := List.length_pos.mpr hpost
    have hdp : declaredLength pre = declaredLength (pre ++ post) := by
      unfold declaredLength
      rw [getD_initial pre post 4 (by omega)]
    rw [hdp, hd, List.length_append]
    omega

theorem drainSpec_chunk (c : List CsvByte) (p : Packet) (hc : csvValues c = p.Serialize)
    (hp : p.WF) (hlen : p.payload.length ≤ 255) (hne : p.command_id ≠ 0xFFFF) :
    drainSpec false c = ([(FrameType.Packet, c)], []) := by
  obtain ⟨hl, hd⟩ := chunk_facts c p hc hlen
  have h0 : c ≠ [] := by
    intro h; rw [h] at hl; simp at hl
  have hb : ¬ startsWithBreak c := by
    have := initial_no_break c [] p (by rw [List.append_nil]; exact hc) hp.1 hne
    exact this
  have hi : ¬ (c.length < 5 ∨ c.length < declaredLength c) := by
    rw [hd]; omega
  have hv : ValidateFrame (csvValues (c.take (declaredLength c))) = .ok () := by
    rw [hd, List.take_length, hc]
    exact ValidateFrame_Serialize p hp.2.1 hlen
  rw [drainSpec_ok false c h0 hb hi () hv, hd, List.take_length, List.drop_length, drainSpec_nil]

theorem gapExceeded_of_chain (gap : Int) (hgap : IsDouble gap) (pre : List CsvByte)
    (lt : Option Int) (e : CsvByte)
    (hok : LastTimeOK { bytes := pre, last_time := lt })
    (hch : ∀ l, pre.getLast? = some l → e.time - l.time ≤ gap) :
    gapExceeded gap { bytes := pre, last_time := lt } e = false := by
  cases hl : pre.getLast? with
  | none =>
    exact gapExceeded_nil gap _ e (List.getLast?_eq_none_iff.mp hl)
  | some l =>
    have hlt : lt = some l.time := hok l hl
    rw [hlt]
    exact gapExceeded_of_le gap hgap pre l.time e (hch l hl)

theorem runParts_cons (gap : Int) (e : CsvByte) (es : List CsvByte) (b : PendingBuffer) :
    runParts gap (e :: es) b =
      ((runParts gap es (stepParts gap b e).1).1,
        (stepParts gap b e).2 ++ (runParts gap es (stepParts gap b e).1).2) := rfl

/-- The ingest loop over the rest of a clean run, entered with the bytes of the run seen so
far in the buffer, cuts the whole run off as one Packet run and leaves the buffer empty. -/
theorem runParts_chunk (gap : Int) (hgap : IsDouble gap) (c : List CsvByte) (p : Packet)
    (h : CleanChunk gap c p)
    (post pre : List CsvByte) (lt : Option Int) (hcat : pre ++ post = c) (hpost : post ≠ [])
    (hok : LastTimeOK { bytes := pre, last_time := lt }) :
    (runParts gap post { bytes := pre, last_time := lt }).2 = [(FrameType.Packet, c)] ∧
      (runParts gap post { bytes := pre, last_time := lt }).1.bytes = [] := by
  obtain ⟨hc, hchain, hp, hlen, hne⟩ := h
  induction post generalizing pre lt with
  | nil => exact absurd rfl hpost
  | cons e post' ih =>
    have hch : ∀ l, pre.getLast? = some l → e.time - l.time ≤ gap := by
      intro l hl
      rw [← hcat] at hchain
      exact (List.chain'_append.mp hchain).2.2 l hl e rfl
    have hg := gapExceeded_of_chain gap hgap pre lt e hok hch
    have hstep := stepParts_nogap gap { bytes := pre, last_time := lt } e hg
    simp only [] at hstep
    rw [runParts_cons, hstep]
    by_cases hp' : post' = []
    · subst hp'
      rw [hcat, drainSpec_chunk c p hc hp hlen hne]
      exact ⟨rfl, rfl⟩
    · have hcat' : (pre ++ [e]) ++ post' = c := by
        rw [List.append_assoc]; exact hcat
      have hset := initial_settled (pre ++ [e]) post' p (by rw [hcat']; exact hc) hp hlen hne hp'
      rw [drainSpec_false_settled _ hset]
      have hok' : LastTimeOK { bytes := pre ++ [e], last_time := some e.time } := by
        intro l hl
        simp only [List.getLast?_append, List.getLast?_singleton] at hl
        have : l = e := by simpa using hl.symm
        rw [this]
      obtain ⟨h1, h2⟩ := ih (pre ++ [e]) (some e.time) hcat' hp' hok'
      simp only [] at h1 h2 ⊢
      exact ⟨by rw [h1]; rfl, h2⟩

theorem runParts_chunks (gap : Int) (hgap : IsDouble gap) (chunks : List (List CsvByte))
    (packets : List Packet) (h : List.Forall₂ (CleanChunk gap) chunks packets) :
    (runParts gap chunks.flatten { bytes := [], last_time := none }).2 =
        chunks.map (fun c => (FrameType.Packet, c)) ∧
      (runParts gap chunks.flatten { bytes := [], last_time := none }).1.bytes = [] := by
  induction h with
  | nil => exact ⟨rfl, rfl⟩
  | @cons c p cs ps hcp _ ih =>
    have hc0 : c ≠ [] := by
      intro h0
      have := (chunk_facts c p hcp.1 hcp.2.2.2.1).1
      rw [h0] at this
      simp at this
    obtain ⟨h1, h2⟩ := runParts_chunk gap hgap c p hcp c [] none (List.nil_append c) hc0
      (by intro l hl; simp at hl)
    obtain ⟨e1, e2⟩ := runParts_of_empty gap cs.flatten
      (runParts gap c { bytes := [], last_time := none }).1 h2
    rw [List.flatten_cons, runParts_append]
    simp only [h1, e1, e2, ih.1, ih.2, List.map_cons, List.singleton_append, and_self]

theorem Forall₂_bytes (gap : Int) (chunks : List (List CsvByte)) (packets : List Packet)
    (h : List.Forall₂ (CleanChunk gap) chunks packets) :
    chunks.map csvValues = packets.map Packet.Serialize := by
  induction h with
  | nil => rfl
  | cons hcp _ ih => simp only [List.map_cons, hcp.1, ih]

/-- C21: clean-stream recovery. When the events of one direction are, in order, the bytes of
the serializations of packets p1..pk, each well-formed with a payload of at most 255 bytes
and a command id other than 0x0000FFFF, and the bytes inside each packet are at most
`gap_threshold` (a `double`) apart (gaps between packets and events of the other direction
are arbitrary), the reassembler emits for that direction exactly k frames, all of type Packet, the
i-th holding the bytes of Serialize(pi) and starting at the timestamp of its first byte. -/
theorem C21_clean_stream_recovery (gap_threshold : Int) (hdouble : IsDouble gap_threshold)
    (d : BusDirection)
    (events : List CsvByte) (packets : List Packet) (chunks : List (List CsvByte))
    (hev : eventsDir d events = chunks.flatten)
    (hclean : List.Forall₂ (CleanChunk gap_threshold) chunks packets) :
    framesDir d (reassemble gap_threshold events).frames =
        chunks.map (fun c => ⟨FrameType.Packet, d, (c.getD 0 default).time, csvValues c⟩) ∧
      (framesDir d (reassemble gap_threshold events).frames).length = packets.length ∧
      (framesDir d (reassemble gap_threshold events).frames).map Frame.bytes =
        packets.map Packet.Serialize ∧
      ∀ f ∈ framesDir d (reassemble gap_threshold events).frames, f.type = FrameType.Packet := by
  obtain ⟨h1, h2⟩ := runParts_chunks gap_threshold hdouble chunks packets hclean
  have hparts : dirParts gap_threshold (eventsDir d events) =
      chunks.map (fun c => (FrameType.Packet, c)) := by
    unfold dirParts
    rw [hev, h1, h2, drainSpec_nil, List.append_nil]
  have hframes : framesDir d (reassemble gap_threshold events).frames =
      chunks.map (fun c => ⟨FrameType.Packet, d, (c.getD 0 default).time, csvValues c⟩) := by
    rw [(reassemble_dir gap_threshold d events).2, hparts]
    simp only [framesOf, List.map_map]
    rfl
  refine ⟨hframes, ?_, ?_, ?_⟩
  · rw [hframes, List.length_map, hclean.length_eq]
  · rw [hframes, List.map_map, ← Forall₂_bytes gap_threshold chunks packets hclean]
    rfl
  · intro f hf
    rw [hframes] at hf
    obtain ⟨c, _, rfl⟩ := List.mem_map.mp hf
    rfl

theorem C21_clean_stream_recovery_witness :
    framesDir .Tx (reassemble 4
        [⟨.Tx, 0, 0, false⟩, ⟨.Tx, 1, 0, false⟩, ⟨.Tx, 2, 0, false⟩, ⟨.Tx, 3, 0, false⟩,
          ⟨.Rx, 3, 7, false⟩, ⟨.Tx, 4, 2, false⟩, ⟨.Tx, 5, 0xAA, false⟩, ⟨.Tx, 6, 0xBB, false⟩,
          ⟨.Tx, 7, 0xFE, false⟩, ⟨.Tx, 8, 0x98, false⟩]).frames =
      [⟨FrameType.Packet, .Tx, 0, [0, 0, 0, 0, 2, 0xAA, 0xBB, 0xFE, 0x98]⟩] :=
  (C21_clean_stream_recovery 4 (by decide) .Tx
    [⟨.Tx, 0, 0, false⟩, ⟨.Tx, 1, 0, false⟩, ⟨.Tx, 2, 0, false⟩, ⟨.Tx, 3, 0, false⟩,
      ⟨.Rx, 3, 7, false⟩, ⟨.Tx, 4, 2, false⟩, ⟨.Tx, 5, 0xAA, false⟩, ⟨.Tx, 6, 0xBB, false⟩,
      ⟨.Tx, 7, 0xFE, false⟩, ⟨.Tx, 8, 0x98, false⟩]
    [⟨0, [0xAA, 0xBB], 0⟩]
    [[⟨.Tx, 0, 0, false⟩, ⟨.Tx, 1, 0, false⟩, ⟨.Tx, 2, 0, false⟩, ⟨.Tx, 3, 0, false⟩,
      ⟨.Tx, 4, 2, false⟩, ⟨.Tx, 5, 0xAA, false⟩, ⟨.Tx, 6, 0xBB, false⟩,
      ⟨.Tx, 7, 0xFE, false⟩, ⟨.Tx, 8, 0x98, false⟩]]
    (by decide)
    (List.Forall₂.cons
      ⟨by decide, by simp [List.chain'_cons], by decide, by decide, by decide⟩
      List.Forall₂.nil)).1

end fujitsu.airstage
